import Mathlib

/-!
Verification of the grootboek plain-text ledger core: a shallow embedding of the
domain model (Account, Posting, Transaction, Price), the journal lexer/parser,
the journal writer and the balance calculator, together with theorems about the
documented properties.  Text is modelled as lists of characters and the
arbitrary-precision decimal quantities as rational numbers.
-/

/-- Strings of the JavaScript source are modelled as lists of characters. -/
abbrev Str := List Char

namespace Grootboek

/-- Characters treated as whitespace by the JavaScript `trim` family and by the
regex class `\s` (ECMA-262 WhiteSpace plus LineTerminator code points). -/
def isJsWhitespace (c : Char) : Bool :=
  c ∈ ['\t', '\n', '\x0B', '\x0C', '\r', ' ', ' ', ' ', ' ',
       ' ', ' ', ' ', ' ', ' ', ' ', ' ',
       ' ', ' ', ' ', ' ', ' ', ' ', ' ',
       '　', '﻿']

/-- Model of JavaScript `String.prototype.trimEnd`. -/
def jsTrimEnd (s : Str) : Str :=
  (s.reverse.dropWhile isJsWhitespace).reverse

/-- Model of JavaScript `String.prototype.trim`. -/
def jsTrim (s : Str) : Str :=
  jsTrimEnd (s.dropWhile isJsWhitespace)

/-- Model of JavaScript `String.prototype.split` with a single-character
separator: `"a:b".split(":") = ["a","b"]`, `"".split(":") = [""]`. -/
def splitOnChar (sep : Char) : Str → List Str
  | [] => [[]]
  | c :: cs =>
    match splitOnChar sep cs with
    | [] => []
    | w :: ws => if c = sep then [] :: w :: ws else (c :: w) :: ws

/-- One calendar date of the journal; the JavaScript `Date` values reaching the
writer and the repository always denote a plain day, modelled as the triple of
calendar components. -/
structure DateY where
  year : Nat
  month : Nat
  day : Nat
deriving DecidableEq, Repr

/-- Model of `Date.prototype.getTime`: any encoding that is strictly monotone
in (year, month, day) reproduces the comparisons the code performs. -/
def DateY.getTime (d : DateY) : Nat :=
  d.year * 10000 + d.month * 100 + d.day

/-- One posting of a transaction: the domain `Posting` with its `Account` and
`Money` flattened to the account name, the commodity symbol and the signed
rational quantity (its projections `commodity`/`quantity` in the source). -/
structure Posting where
  account : Str
  commodity : Str
  quantity : ℚ
  comment : Option Str := none
deriving DecidableEq, Repr

/-- The domain `Transaction` value object (fields of the TypeScript class). -/
structure Transaction where
  id : Str
  date : DateY
  description : Str
  postings : List Posting
  comment : Option Str := none
  externalId : Option Str := none
  metadata : List (Str × Str) := []
deriving DecidableEq, Repr

/-- The props record accepted by the `Transaction` constructor. -/
structure TransactionProps where
  idOpt : Option Str := none
  date : DateY
  description : Str
  postings : List Posting
  comment : Option Str := none
  externalId : Option Str := none
  metadata : Option (List (Str × Str)) := none
  skipValidation : Bool := false

/-- Errors thrown by `Transaction` construction: `ValidationError` with its
message and field, or `BalanceError` with the unbalanced commodities. -/
inductive TxError where
  | validation (message : Str) (field : Str)
  | balance (unbalanced : List (Str × ℚ))
deriving DecidableEq, Repr

/-- Lookup in an insertion-ordered association list, the model of a JavaScript
`Map` (`Map.prototype.get`). -/
def omGet {α : Type} (m : List (Str × α)) (k : Str) : Option α :=
  (m.find? (fun kv => decide (kv.1 = k))).map (·.2)

/-- Model of `Map.prototype.set`: update the existing entry in place, else
append a new entry at the end (JavaScript maps preserve insertion order). -/
def omSet {α : Type} (m : List (Str × α)) (k : Str) (v : α) : List (Str × α) :=
  match m with
  | [] => [(k, v)]
  | kv :: rest => if kv.1 = k then (k, v) :: rest else kv :: omSet rest k v

/-- Model of `Transaction.calculateImbalances`: fold the postings into a map
from commodity to the signed sum of quantities, in first-appearance order. -/
def calculateImbalances (postings : List Posting) : List (Str × ℚ) :=
  postings.foldl
    (fun m p => omSet m p.commodity ((omGet m p.commodity).getD 0 + p.quantity)) []

/-- Commodities of a posting list in first-appearance order (the source
`commodities` getter built from a `Set`). -/
def commoditiesOf (postings : List Posting) : List Str :=
  postings.foldl (fun acc p => if p.commodity ∈ acc then acc else acc ++ [p.commodity]) []

/-- Specification-side signed sum of the quantities of the postings in one
commodity. -/
def commoditySum (postings : List Posting) (c : Str) : ℚ :=
  (postings.map (fun p => if p.commodity = c then p.quantity else 0)).sum

/-- Model of `Transaction.validate`: empty (or all-whitespace) description and
fewer than two postings raise `ValidationError`; a nonzero per-commodity sum
raises `BalanceError.fromImbalances` (which keeps the nonzero entries). -/
def Transaction.validate (t : Transaction) : Option TxError :=
  if jsTrim t.description = [] then
    some (.validation "Transaction description cannot be empty".data "description".data)
  else if t.postings.length < 2 then
    some (.validation "Transaction must have at least 2 postings".data "postings".data)
  else if (calculateImbalances t.postings).any (fun kv => decide (kv.2 ≠ 0)) then
    some (.balance ((calculateImbalances t.postings).filter (fun kv => decide (kv.2 ≠ 0))))
  else none

/-- Field assignment performed by the `Transaction` constructor before
validation; `freshId` stands for the `randomUUID()` value used when no id is
supplied. -/
def Transaction.mkRaw (props : TransactionProps) (freshId : Str) : Transaction :=
  { id := props.idOpt.getD freshId
    date := props.date
    description := props.description
    postings := props.postings
    comment := props.comment
    externalId := props.externalId
    metadata := props.metadata.getD [] }

/-- Model of the `Transaction` constructor: assign fields, then run `validate`
unless `skipValidation` is set; a thrown error is modelled as `Except.error`. -/
def Transaction.create (props : TransactionProps) (freshId : Str) :
    Except TxError Transaction :=
  if props.skipValidation then .ok (Transaction.mkRaw props freshId)
  else
    match (Transaction.mkRaw props freshId).validate with
    | some e => .error e
    | none => .ok (Transaction.mkRaw props freshId)

/-- Model of `Transaction.withId`: rebuild with the given id, all other fields
copied, and `skipValidation: true`. -/
def Transaction.withId (t : Transaction) (id : Str) : Except TxError Transaction :=
  Transaction.create
    { idOpt := some id
      date := t.date
      description := t.description
      postings := t.postings
      comment := t.comment
      externalId := t.externalId
      metadata := some t.metadata
      skipValidation := true } []

section OMapLemmas

theorem omGet_nil {α : Type} (k : Str) : omGet ([] : List (Str × α)) k = none := rfl

theorem omGet_cons {α : Type} (kv : Str × α) (m : List (Str × α)) (k : Str) :
    omGet (kv :: m) k = if kv.1 = k then some kv.2 else omGet m k := by
  by_cases h : kv.1 = k <;> simp [omGet, List.find?, h]

theorem omGet_omSet {α : Type} (m : List (Str × α)) (k k2 : Str) (v : α) :
    omGet (omSet m k v) k2 = if k2 = k then some v else omGet m k2 := by
  induction m with
  | nil =>
    by_cases h : k2 = k <;> simp [omSet, omGet_cons, omGet_nil, h, Ne.symm]
  | cons kv rest ih =>
    by_cases hk : kv.1 = k
    · simp only [omSet, hk, if_true]
      by_cases h2 : k2 = k
      · subst h2; simp [omGet_cons]
      · simp [omGet_cons, h2, Ne.symm h2, hk]
    · simp only [omSet, hk, if_false]
      by_cases h2 : k2 = kv.1
      · subst h2; simp [omGet_cons, hk]
      · simp [omGet_cons, Ne.symm h2, ih]

theorem omGet_mem {α : Type} {m : List (Str × α)} {k : Str} {v : α}
    (h : omGet m k = some v) : (k, v) ∈ m := by
  induction m with
  | nil => simp [omGet] at h
  | cons kv rest ih =>
    rw [omGet_cons] at h
    by_cases hk : kv.1 = k
    · simp only [hk, if_true, Option.some.injEq] at h
      have hkv : kv = (k, v) := by
        cases kv with
        | mk a b => simp only [Prod.mk.injEq]; exact ⟨hk, h⟩
      rw [hkv]
      exact List.mem_cons_self _ _
    · simp only [hk, if_false] at h
      exact List.mem_cons_of_mem _ (ih h)

/-- Keys of an ordered map, in order. -/
def omKeys {α : Type} (m : List (Str × α)) : List Str := m.map Prod.fst

theorem omKeys_omSet {α : Type} (m : List (Str × α)) (k : Str) (v : α) :
    omKeys (omSet m k v) = if k ∈ omKeys m then omKeys m else omKeys m ++ [k] := by
  induction m with
  | nil =>
    simp only [omSet, omKeys, List.map_cons, List.map_nil]
    rw [if_neg (by simp)]
    simp
  | cons kv rest ih =>
    by_cases hk : kv.1 = k
    · subst hk
      have hset : omSet (kv :: rest) kv.1 v = (kv.1, v) :: rest := by
        simp [omSet]
      rw [hset]
      simp only [omKeys, List.map_cons]
      rw [if_pos (List.mem_cons_self _ _)]
    · simp only [omSet, hk, if_false, omKeys, List.map_cons]
      have ih2 := ih
      simp only [omKeys] at ih2
      rw [ih2]
      by_cases hmem : k ∈ rest.map Prod.fst
      · rw [if_pos hmem, if_pos (List.mem_cons_of_mem _ hmem)]
      · rw [if_neg hmem, if_neg (by
          intro hx
          rcases List.mem_cons.mp hx with he | he
          · exact hk he.symm
          · exact hmem he)]
        simp

theorem nodup_omKeys_omSet {α : Type} {m : List (Str × α)} (k : Str) (v : α)
    (h : (omKeys m).Nodup) : (omKeys (omSet m k v)).Nodup := by
  rw [omKeys_omSet]
  by_cases hmem : k ∈ omKeys m
  · simpa [hmem] using h
  · simp only [hmem, if_false]
    simpa [List.nodup_append] using ⟨h, hmem⟩

theorem mem_omGet {α : Type} {m : List (Str × α)} {kv : Str × α}
    (hnd : (omKeys m).Nodup) (h : kv ∈ m) : omGet m kv.1 = some kv.2 := by
  induction m with
  | nil => simp at h
  | cons kv0 rest ih =>
    rcases List.mem_cons.mp h with rfl | hmem
    · simp [omGet_cons]
    · rw [omGet_cons]
      have hnd2 : (omKeys rest).Nodup := (List.nodup_cons.mp hnd).2
      have hk0 : kv0.1 ∉ omKeys rest := (List.nodup_cons.mp hnd).1
      have hne : kv0.1 ≠ kv.1 := by
        intro he
        exact hk0 (he ▸ List.mem_map_of_mem Prod.fst hmem)
      simp [hne, ih hnd2 hmem]

end OMapLemmas

section ImbalanceLemmas

theorem commoditySum_nil (c : Str) : commoditySum [] c = 0 := rfl

theorem commoditySum_cons (p : Posting) (ps : List Posting) (c : Str) :
    commoditySum (p :: ps) c =
      (if p.commodity = c then p.quantity else 0) + commoditySum ps c := by
  simp [commoditySum]

theorem commoditySum_eq_zero (ps : List Posting) (c : Str)
    (h : ∀ p ∈ ps, p.commodity ≠ c) : commoditySum ps c = 0 := by
  induction ps with
  | nil => rfl
  | cons p ps ih =>
    rw [commoditySum_cons, ih (fun q hq => h q (List.mem_cons_of_mem _ hq))]
    simp [h p (List.mem_cons_self p ps)]

/-- Invariant of the `calculateImbalances` fold, with a generalized
accumulator: the final map holds, at each commodity occurring in the postings,
the accumulated value plus the signed sum for that commodity. -/
theorem imbalances_fold_get (postings : List Posting) (m : List (Str × ℚ)) (c : Str) :
    omGet (postings.foldl
      (fun m p => omSet m p.commodity ((omGet m p.commodity).getD 0 + p.quantity)) m) c =
    if ∃ p ∈ postings, p.commodity = c then
      some ((omGet m c).getD 0 + commoditySum postings c)
    else omGet m c := by
  induction postings generalizing m with
  | nil => simp
  | cons p ps ih =>
    simp only [List.foldl_cons]
    rw [ih]
    by_cases hc : p.commodity = c
    · subst hc
      have hex : ∃ q ∈ p :: ps, q.commodity = p.commodity :=
        ⟨p, List.mem_cons_self p ps, rfl⟩
      rw [if_pos hex]
      by_cases hps : ∃ q ∈ ps, q.commodity = p.commodity
      · rw [if_pos hps, omGet_omSet, if_pos rfl]
        have hcs : commoditySum (p :: ps) p.commodity =
            p.quantity + commoditySum ps p.commodity := by
          rw [commoditySum_cons, if_pos rfl]
        rw [hcs]
        simp only [Option.getD_some, Option.some.injEq]
        ring
      · rw [if_neg hps, omGet_omSet, if_pos rfl]
        have hz : commoditySum ps p.commodity = 0 :=
          commoditySum_eq_zero ps p.commodity (by
            intro q hq hqc
            exact hps ⟨q, hq, hqc⟩)
        simp [commoditySum_cons, hz]
    · have hiff : (∃ q ∈ p :: ps, q.commodity = c) ↔ (∃ q ∈ ps, q.commodity = c) := by
        constructor
        · rintro ⟨q, hq, hqc⟩
          rcases List.mem_cons.mp hq with rfl | hmem
          · exact absurd hqc hc
          · exact ⟨q, hmem, hqc⟩
        · rintro ⟨q, hq, hqc⟩
          exact ⟨q, List.mem_cons_of_mem _ hq, hqc⟩
      have hget : omGet (omSet m p.commodity ((omGet m p.commodity).getD 0 + p.quantity)) c
          = omGet m c := by
        rw [omGet_omSet, if_neg (fun he => hc he.symm)]
      rw [hget]
      by_cases hps : ∃ q ∈ ps, q.commodity = c
      · rw [if_pos hps, if_pos (hiff.mpr hps)]
        simp [commoditySum_cons, hc]
      · rw [if_neg hps, if_neg (fun hx => hps (hiff.mp hx))]

theorem omGet_calculateImbalances (postings : List Posting) (c : Str) :
    omGet (calculateImbalances postings) c =
      if ∃ p ∈ postings, p.commodity = c then some (commoditySum postings c) else none := by
  unfold calculateImbalances
  rw [imbalances_fold_get]
  by_cases hex : ∃ p ∈ postings, p.commodity = c
  · rw [if_pos hex, if_pos hex]
    simp [omGet_nil]
  · rw [if_neg hex, if_neg hex]
    rfl

theorem nodup_omKeys_calculateImbalances (postings : List Posting) :
    (omKeys (calculateImbalances postings)).Nodup := by
  rw [calculateImbalances]
  generalize hm : ([] : List (Str × ℚ)) = m
  have : (omKeys m).Nodup := by rw [← hm]; simp [omKeys]
  clear hm
  induction postings generalizing m with
  | nil => simpa
  | cons p ps ih => exact ih _ (nodup_omKeys_omSet _ _ this)

theorem commoditiesOf_fold_mem (postings : List Posting) (acc : List Str) (c : Str) :
    (c ∈ postings.foldl
        (fun acc p => if p.commodity ∈ acc then acc else acc ++ [p.commodity]) acc) ↔
      ((∃ p ∈ postings, p.commodity = c) ∨ c ∈ acc) := by
  induction postings generalizing acc with
  | nil => simp
  | cons p ps ih =>
    simp only [List.foldl_cons]
    by_cases hmem : p.commodity ∈ acc
    · rw [if_pos hmem, ih]
      constructor
      · rintro (⟨q, hq, hqc⟩ | hc)
        · exact Or.inl ⟨q, List.mem_cons_of_mem _ hq, hqc⟩
        · exact Or.inr hc
      · rintro (⟨q, hq, hqc⟩ | hc)
        · rcases List.mem_cons.mp hq with rfl | hq2
          · exact Or.inr (hqc ▸ hmem)
          · exact Or.inl ⟨q, hq2, hqc⟩
        · exact Or.inr hc
    · rw [if_neg hmem, ih]
      constructor
      · rintro (⟨q, hq, hqc⟩ | hc)
        · exact Or.inl ⟨q, List.mem_cons_of_mem _ hq, hqc⟩
        · rcases List.mem_append.mp hc with hc | hc
          · exact Or.inr hc
          · simp only [List.mem_singleton] at hc
            exact Or.inl ⟨p, List.mem_cons_self p ps, hc.symm⟩
      · rintro (⟨q, hq, hqc⟩ | hc)
        · rcases List.mem_cons.mp hq with rfl | hq2
          · exact Or.inr (List.mem_append.mpr (Or.inr (by simp [hqc])))
          · exact Or.inl ⟨q, hq2, hqc⟩
        · exact Or.inr (List.mem_append.mpr (Or.inl hc))

theorem mem_commoditiesOf (postings : List Posting) (c : Str) :
    c ∈ commoditiesOf postings ↔ ∃ p ∈ postings, p.commodity = c := by
  rw [commoditiesOf, commoditiesOf_fold_mem]
  simp

/-- The imbalance map has a nonzero entry exactly when some commodity of the
postings has a nonzero signed sum. -/
theorem imbalances_any_nonzero (postings : List Posting) :
    ((calculateImbalances postings).any (fun kv => decide (kv.2 ≠ 0)) = true) ↔
      ∃ c ∈ commoditiesOf postings, commoditySum postings c ≠ 0 := by
  rw [List.any_eq_true]
  constructor
  · rintro ⟨kv, hmem, hnz⟩
    have hget := mem_omGet (nodup_omKeys_calculateImbalances postings) hmem
    rw [omGet_calculateImbalances] at hget
    by_cases hex : ∃ p ∈ postings, p.commodity = kv.1
    · rw [if_pos hex] at hget
      refine ⟨kv.1, (mem_commoditiesOf postings kv.1).mpr hex, ?_⟩
      have : kv.2 = commoditySum postings kv.1 := by
        simpa using hget.symm
      rw [← this]
      simpa using hnz
    · rw [if_neg hex] at hget
      exact absurd hget (by simp)
  · rintro ⟨c, hc, hnz⟩
    have hex := (mem_commoditiesOf postings c).mp hc
    have hget : omGet (calculateImbalances postings) c = some (commoditySum postings c) := by
      rw [omGet_calculateImbalances, if_pos hex]
    exact ⟨(c, commoditySum postings c), omGet_mem hget, by simpa using hnz⟩

end ImbalanceLemmas

/-- Characterization of when `validate` passes. -/
theorem validate_none_iff (t : Transaction) :
    t.validate = none ↔
      (jsTrim t.description ≠ [] ∧ 2 ≤ t.postings.length ∧
        ∀ c ∈ commoditiesOf t.postings, commoditySum t.postings c = 0) := by
  unfold Transaction.validate
  by_cases h1 : jsTrim t.description = []
  · rw [if_pos h1]
    constructor
    · intro h; cases h
    · rintro ⟨hne, _, _⟩; exact absurd h1 hne
  · rw [if_neg h1]
    by_cases h2 : t.postings.length < 2
    · rw [if_pos h2]
      constructor
      · intro h; cases h
      · rintro ⟨_, hlen, _⟩; omega
    · rw [if_neg h2]
      by_cases h3 : (calculateImbalances t.postings).any (fun kv => decide (kv.2 ≠ 0)) = true
      · rw [if_pos h3]
        rw [imbalances_any_nonzero] at h3
        constructor
        · intro h; cases h
        · rintro ⟨_, _, hbal⟩
          rcases h3 with ⟨c, hc, hnz⟩
          exact absurd (hbal c hc) hnz
      · rw [if_neg h3]
        have hbal : ∀ c ∈ commoditiesOf t.postings, commoditySum t.postings c = 0 := by
          by_contra hx
          push_neg at hx
          rcases hx with ⟨c, hc, hnz⟩
          exact h3 ((imbalances_any_nonzero t.postings).mpr ⟨c, hc, hnz⟩)
        exact iff_of_true rfl ⟨h1, by omega, hbal⟩

/-- C1 helper: characterization of successful construction. -/
theorem create_ok_iff (props : TransactionProps) (fresh : Str)
    (hskip : props.skipValidation = false) :
    (∃ t, Transaction.create props fresh = .ok t) ↔
      (jsTrim props.description ≠ [] ∧ 2 ≤ props.postings.length ∧
        ∀ c ∈ commoditiesOf props.postings, commoditySum props.postings c = 0) := by
  unfold Transaction.create
  rw [hskip, if_neg (by simp)]
  have hfields : (Transaction.mkRaw props fresh).description = props.description ∧
      (Transaction.mkRaw props fresh).postings = props.postings := ⟨rfl, rfl⟩
  cases hv : (Transaction.mkRaw props fresh).validate with
  | some e =>
    have hiff := validate_none_iff (Transaction.mkRaw props fresh)
    rw [hv] at hiff
    constructor
    · rintro ⟨t, ht⟩; cases ht
    · intro hprops
      exact absurd (hiff.mpr (by rw [hfields.1, hfields.2]; exact hprops)) (by simp)
  | none =>
    have hiff := validate_none_iff (Transaction.mkRaw props fresh)
    rw [hv] at hiff
    have hprops := hiff.mp rfl
    rw [hfields.1, hfields.2] at hprops
    exact iff_of_true ⟨Transaction.mkRaw props fresh, rfl⟩ hprops

/-- C1: a `Transaction` built through the public constructor (validation not
skipped) exists only with a nonempty description, at least two postings and a
zero signed sum for every commodity present, and any violation of these fails
construction with a validation or balance error, so every constructed
transaction is balanced per commodity. -/
theorem c1_transaction_construction (props : TransactionProps) (fresh : Str)
    (hskip : props.skipValidation = false) :
    (∀ t, Transaction.create props fresh = .ok t →
        t.description ≠ [] ∧ 2 ≤ t.postings.length ∧
        ∀ c ∈ commoditiesOf t.postings, commoditySum t.postings c = 0) ∧
    ((props.description = [] ∨ props.postings.length < 2 ∨
        ∃ c ∈ commoditiesOf props.postings, commoditySum props.postings c ≠ 0) →
      ∃ e, Transaction.create props fresh = .error e) := by
  constructor
  · intro t hok
    have hfields : t.description = props.description ∧ t.postings = props.postings := by
      unfold Transaction.create at hok
      rw [hskip, if_neg (by simp)] at hok
      cases hv : (Transaction.mkRaw props fresh).validate with
      | some e => rw [hv] at hok; exact absurd hok (by simp)
      | none =>
        rw [hv] at hok
        simp only [Except.ok.injEq] at hok
        rw [← hok]
        exact ⟨rfl, rfl⟩
    have hex : ∃ u, Transaction.create props fresh = .ok u := ⟨t, hok⟩
    have hchar := (create_ok_iff props fresh hskip).mp hex
    refine ⟨?_, ?_, ?_⟩
    · rw [hfields.1]
      intro hempty
      exact hchar.1 (by rw [hempty]; rfl)
    · rw [hfields.2]; exact hchar.2.1
    · rw [hfields.2]; exact hchar.2.2
  · intro hviol
    cases hcr : Transaction.create props fresh with
    | error e => exact ⟨e, rfl⟩
    | ok t =>
      exfalso
      have hchar := (create_ok_iff props fresh hskip).mp ⟨t, hcr⟩
      rcases hviol with h | h | h
      · exact hchar.1 (by rw [h]; rfl)
      · omega
      · rcases h with ⟨c, hc, hnz⟩
        exact hnz (hchar.2.2 c hc)

/-- C1 witness: a concrete unbalanced two-posting transaction fails
construction. -/
theorem c1_transaction_construction_witness :
    ∃ e, Transaction.create
      { date := ⟨2024, 1, 15⟩
        description := "Coffee".data
        postings :=
          [ { account := "Assets:Cash".data, commodity := "$".data, quantity := -5 },
            { account := "Expenses:Food".data, commodity := "$".data, quantity := 4 } ] }
      "fresh".data = .error e :=
  (c1_transaction_construction _ "fresh".data rfl).2 (by
    refine Or.inr (Or.inr ⟨"$".data, by decide, ?_⟩)
    norm_num [commoditySum])

section NumericStrings

/-- Decimal digit character for a value below ten. -/
def digitChar (n : Nat) : Char := Char.ofNat (48 + n)

/-- Numeric value of a decimal digit character. -/
def digitVal (c : Char) : Nat := c.toNat - 48

/-- Decimal digit test, as in the lexer `isDigit`. -/
def isDigitCh (c : Char) : Bool := decide ('0' ≤ c) && decide (c ≤ '9')

/-- Fuel-driven rendering of a natural number in decimal (the fuel `n + 1`
always suffices since the argument shrinks by a factor of ten). -/
def natToStrAux : Nat → Nat → Str
  | 0, _ => []
  | fuel + 1, n => if n < 10 then [digitChar n] else natToStrAux fuel (n / 10) ++ [digitChar (n % 10)]

/-- Decimal rendering of a natural number, the model of JavaScript number to
string conversion for nonnegative integers. -/
def natToStr (n : Nat) : Str := natToStrAux (n + 1) n

/-- Value of a string of decimal digits. -/
def digitsToNat (s : Str) : Nat := s.foldl (fun a c => a * 10 + digitVal c) 0

/-- Model of `new Decimal(string)` on an unsigned plain decimal literal
(digits with an optional fraction part); these are the only literal shapes the
repository ever passes to the constructor. -/
def parseDecUnsigned (s : Str) : Option ℚ :=
  let intPart := s.takeWhile isDigitCh
  let rest := s.dropWhile isDigitCh
  if intPart.isEmpty then none
  else
    match rest with
    | [] => some (digitsToNat intPart : ℚ)
    | '.' :: frac =>
      if !frac.isEmpty && frac.all isDigitCh then
        some ((digitsToNat intPart : ℚ) + (digitsToNat frac : ℚ) / ((10 : ℚ) ^ frac.length))
      else none
    | _ => none

/-- Model of `new Decimal(string)` including a leading sign. -/
def parseDec (s : Str) : Option ℚ :=
  match s with
  | '-' :: rest => (parseDecUnsigned rest).map (fun q => -q)
  | _ => parseDecUnsigned s

/-- Model of the repository `parseDate`: replace `/` by `-` and parse the
resulting ISO date `YYYY-MM-DD` (appending `T00:00:00.000Z`).  Day values are
checked only for the syntactic 1..31 range; day-in-month overflow (for
example February 30), which yields an Invalid Date in JavaScript, is outside
the date shapes used below. -/
def parseDateStr (s : Str) : Option DateY :=
  let t := s.map (fun c => if c = '/' then '-' else c)
  match splitOnChar '-' t with
  | [ys, ms, ds] =>
    if decide (ys.length = 4) && ys.all isDigitCh &&
       decide (ms.length = 2) && ms.all isDigitCh &&
       decide (ds.length = 2) && ds.all isDigitCh &&
       decide (1 ≤ digitsToNat ms) && decide (digitsToNat ms ≤ 12) &&
       decide (1 ≤ digitsToNat ds) && decide (digitsToNat ds ≤ 31) then
      some ⟨digitsToNat ys, digitsToNat ms, digitsToNat ds⟩
    else none
  | _ => none

end NumericStrings

section AccountPattern

/-- Model of `Account.matchSegments`: the while loop over both lists with the
backtracking for-loop for a non-final `**`, and the loop-exit check skipping
trailing `**` patterns. -/
def matchSegments (segments patterns : List Str) : Bool :=
  match segments, patterns with
  | s :: ss, p :: ps =>
    if p = "**".data then
      if ps = [] then true
      else (List.range ((s :: ss).length + 1)).any
        (fun skip => matchSegments ((s :: ss).drop skip) ps)
    else if p = "*".data then matchSegments ss ps
    else if p = s then matchSegments ss ps
    else false
  | ss, ps => ss.isEmpty && (ps.dropWhile (fun p => decide (p = "**".data))).isEmpty

/-- Model of `Account.matchesPattern` on the account name. -/
def matchesPattern (name pattern : Str) : Bool :=
  matchSegments (splitOnChar ':' name) (splitOnChar ':' pattern)

/-- Declarative wildcard-match semantics: `*` matches exactly one path
segment, `**` matches zero or more segments, and any other pattern segment
matches only the equal literal segment. -/
inductive PatMatch : List Str → List Str → Prop
  | nil : PatMatch [] []
  | wildOne (s : Str) (ss ps : List Str) :
      PatMatch ss ps → PatMatch (s :: ss) ("*".data :: ps)
  | wildManyZero (ss ps : List Str) :
      PatMatch ss ps → PatMatch ss ("**".data :: ps)
  | wildManyMore (s : Str) (ss ps : List Str) :
      PatMatch ss ("**".data :: ps) → PatMatch (s :: ss) ("**".data :: ps)
  | lit (s : Str) (ss : List Str) (p : Str) (ps : List Str)
      (hne1 : p ≠ "*".data) (hne2 : p ≠ "**".data) (heq : p = s) :
      PatMatch ss ps → PatMatch (s :: ss) (p :: ps)

theorem patMatch_nil_all {ps : List Str} (h : PatMatch [] ps) :
    ∀ p ∈ ps, p = "**".data := by
  generalize hss : ([] : List Str) = ss at h
  induction h with
  | nil => intro p hp; simp at hp
  | wildOne s ss ps _ _ => cases hss
  | wildManyZero ss ps _ ih =>
    intro p hp
    rcases List.mem_cons.mp hp with rfl | hmem
    · rfl
    · exact ih hss p hmem
  | wildManyMore s ss ps _ _ => cases hss
  | lit s ss p ps _ _ _ _ => cases hss

theorem patMatch_nil_of_all {ps : List Str} (h : ∀ p ∈ ps, p = "**".data) :
    PatMatch [] ps := by
  induction ps with
  | nil => exact PatMatch.nil
  | cons p ps ih =>
    have hp := h p (List.mem_cons_self _ _)
    subst hp
    exact PatMatch.wildManyZero _ _ (ih (fun q hq => h q (List.mem_cons_of_mem _ hq)))

theorem patMatch_star2_all {ps : List Str} (h : ∀ p ∈ ps, p = "**".data) :
    ∀ ss : List Str, PatMatch ss ("**".data :: ps) := by
  intro ss
  induction ss with
  | nil => exact patMatch_nil_of_all (by
      intro p hp
      rcases List.mem_cons.mp hp with rfl | hmem
      · rfl
      · exact h p hmem)
  | cons s ss ih => exact PatMatch.wildManyMore _ _ _ ih

theorem patMatch_of_drop {ps : List Str} :
    ∀ (ss : List Str) (k : Nat), PatMatch (ss.drop k) ps →
      PatMatch ss ("**".data :: ps) := by
  intro ss
  induction ss with
  | nil =>
    intro k h
    simp only [List.drop_nil] at h
    exact PatMatch.wildManyZero _ _ h
  | cons s ss ih =>
    intro k h
    cases k with
    | zero => exact PatMatch.wildManyZero _ _ h
    | succ k =>
      simp only [List.drop_succ_cons] at h
      exact PatMatch.wildManyMore _ _ _ (ih k h)

theorem matchSegments_nil_iff (ps : List Str) :
    matchSegments [] ps = true ↔ ∀ p ∈ ps, p = "**".data := by
  cases ps with
  | nil => simp [matchSegments]
  | cons p ps2 =>
    simp only [matchSegments, List.isEmpty_nil, Bool.true_and, List.isEmpty_iff]
    rw [List.dropWhile_eq_nil_iff]
    simp

/-- Soundness of the backtracking matcher for the declarative semantics. -/
theorem matchSegments_sound :
    ∀ (ps ss : List Str), matchSegments ss ps = true → PatMatch ss ps := by
  intro ps
  induction ps with
  | nil =>
    intro ss h
    cases ss with
    | nil => exact PatMatch.nil
    | cons s ss => simp [matchSegments] at h
  | cons p ps ih =>
    intro ss h
    cases ss with
    | nil =>
      simp only [matchSegments, List.isEmpty_nil, Bool.true_and] at h
      refine patMatch_nil_of_all ?_
      have hdw : (p :: ps).dropWhile (fun q => decide (q = "**".data)) = [] := by
        simpa [List.isEmpty_iff] using h
      intro q hq
      by_contra hne
      have := List.dropWhile_eq_nil_iff.mp hdw q hq
      simp only [decide_eq_true_eq] at this
      exact hne this
    | cons s ss =>
      rw [matchSegments] at h
      by_cases h2 : p = "**".data
      · subst h2
        rw [if_pos rfl] at h
        by_cases hps : ps = []
        · subst hps
          exact patMatch_star2_all (by intro q hq; simp at hq) (s :: ss)
        · rw [if_neg hps] at h
          rw [List.any_eq_true] at h
          rcases h with ⟨k, _, hk⟩
          exact patMatch_of_drop (s :: ss) k (ih _ hk)
      · rw [if_neg h2] at h
        by_cases h1 : p = "*".data
        · subst h1
          rw [if_pos rfl] at h
          exact PatMatch.wildOne _ _ _ (ih _ h)
        · rw [if_neg h1] at h
          by_cases h0 : p = s
          · rw [if_pos h0] at h
            exact PatMatch.lit _ _ _ _ h1 h2 h0 (ih _ h)
          · rw [if_neg h0] at h
            cases h

/-- Completeness of the backtracking matcher for the declarative semantics. -/
theorem matchSegments_complete {ss ps : List Str} (h : PatMatch ss ps) :
    matchSegments ss ps = true := by
  induction h with
  | nil => rfl
  | wildOne s ss ps _ ih =>
    rw [matchSegments, if_neg (by decide), if_pos rfl]
    exact ih
  | wildManyZero ss ps hm ih =>
    cases ss with
    | nil =>
      rw [matchSegments_nil_iff]
      have hall := patMatch_nil_all hm
      intro q hq
      rcases List.mem_cons.mp hq with rfl | hmem
      · rfl
      · exact hall q hmem
    | cons s ss =>
      rw [matchSegments, if_pos rfl]
      by_cases hps : ps = []
      · rw [if_pos hps]
      · rw [if_neg hps, List.any_eq_true]
        exact ⟨0, by simp, by simpa using ih⟩
  | wildManyMore s ss ps hm ih =>
    rw [matchSegments, if_pos rfl]
    by_cases hps : ps = []
    · rw [if_pos hps]
    · rw [if_neg hps, List.any_eq_true]
      cases ss with
      | nil =>
        have hall : ∀ q ∈ ps, q = "**".data := by
          have h2 := (matchSegments_nil_iff ("**".data :: ps)).mp ih
          exact fun q hq => h2 q (List.mem_cons_of_mem _ hq)
        refine ⟨1, by simp, ?_⟩
        show matchSegments [] ps = true
        exact (matchSegments_nil_iff ps).mpr hall
      | cons s2 ss2 =>
        rw [matchSegments, if_pos rfl, if_neg hps, List.any_eq_true] at ih
        rcases ih with ⟨k, hkr, hk⟩
        refine ⟨k + 1, ?_, ?_⟩
        · simp only [List.mem_range, List.length_cons] at *
          omega
        · simpa using hk
  | lit s ss p ps hne1 hne2 heq _ ih =>
    rw [matchSegments, if_neg hne2, if_neg hne1, if_pos heq]
    exact ih

end AccountPattern

/-- C8: the three documented wildcard examples hold for
`Account.matchesPattern`, and in general the backtracking matcher agrees with
the declarative semantics where `*` matches exactly one path segment and `**`
matches zero or more segments. -/
theorem c8_account_pattern_matching :
    (matchesPattern "Assets:Bank:Checking".data "Assets:**".data = true ∧
     matchesPattern "Assets:Bank:Checking".data "Assets:*:Savings".data = false ∧
     matchesPattern "Assets:Bank:Checking".data "**:Checking".data = true) ∧
    (∀ name pattern : Str, matchesPattern name pattern = true ↔
      PatMatch (splitOnChar ':' name) (splitOnChar ':' pattern)) := by
  constructor
  · refine ⟨by decide, by decide, by decide⟩
  · intro name pattern
    constructor
    · exact fun h => matchSegments_sound _ _ h
    · exact fun h => matchSegments_complete h

/-- C10: `withId` never fails and returns a copy whose id is the given string
while date, description, postings, comment, externalId and metadata are
unchanged; validation is skipped, so the copy is produced even for an
unbalanced transaction value. -/
theorem c10_withId_frame (t : Transaction) (s : Str) :
    ∃ u, Transaction.withId t s = .ok u ∧ u.id = s ∧ u.date = t.date ∧
      u.description = t.description ∧ u.postings = t.postings ∧
      u.comment = t.comment ∧ u.externalId = t.externalId ∧
      u.metadata = t.metadata := by
  refine ⟨{ t with id := s }, ?_, rfl, rfl, rfl, rfl, rfl, rfl, rfl⟩
  rfl

section AstTypes

/-- Commodity position of a parsed amount. -/
inductive CPos where
  | pre
  | suf
deriving DecidableEq, Repr

/-- Parsed amount node of the journal AST. -/
structure AmountNode where
  quantity : Str
  commodity : Str
  isNegative : Bool
  commodityPosition : CPos
deriving DecidableEq, Repr

/-- Parsed posting node of the journal AST. -/
structure PostingNode where
  account : Str
  amount : Option AmountNode := none
  comment : Option Str := none
  lineNumber : Nat := 0
deriving DecidableEq, Repr

/-- Parsed transaction node of the journal AST. -/
structure TransactionNode where
  date : Str
  description : Str
  postings : List PostingNode
  comment : Option Str := none
  lineNumber : Nat := 0
deriving DecidableEq, Repr

/-- Parsed price node of the journal AST. -/
structure PriceNode where
  date : Str
  baseCommodity : Str
  quoteCommodity : Str
  price : Str
  comment : Option Str := none
  lineNumber : Nat := 0
deriving DecidableEq, Repr

/-- Parsed standalone comment node of the journal AST. -/
structure CommentNode where
  text : Str
  lineNumber : Nat := 0
deriving DecidableEq, Repr

/-- Journal AST entry. -/
inductive JournalEntry where
  | txn (node : TransactionNode)
  | price (node : PriceNode)
  | comment (node : CommentNode)
deriving DecidableEq, Repr

end AstTypes

section NodeConversion

/-- Errors of the adapter conversion: a generic thrown `Error` message or a
transaction construction error. -/
inductive ConvError where
  | generic (msg : Str)
  | tx (e : TxError)
deriving DecidableEq, Repr

/-- Sequencing of a fallible conversion over a list, the model of `Array.map`
when the callback can throw. -/
def mapExcept {ε α β : Type} (f : α → Except ε β) : List α → Except ε (List β)
  | [] => .ok []
  | a :: as =>
    match f a with
    | .error e => .error e
    | .ok b =>
      match mapExcept f as with
      | .error e => .error e
      | .ok bs => .ok (b :: bs)

/-- Test whether a string starts with the given characters. -/
def startsWith (pre s : Str) : Bool := decide (s.take pre.length = pre)

/-- Leftmost match of the regex `extid:(\S+)`, decomposed as the text before
the match, the captured id (a maximal nonempty run of non-whitespace) and the
text after it. -/
def findExtid : Str → Option (Str × Str × Str)
  | [] => none
  | c :: cs =>
    if startsWith "extid:".data (c :: cs) &&
        !(((c :: cs).drop 6).takeWhile (fun ch => !isJsWhitespace ch)).isEmpty then
      some ([], ((c :: cs).drop 6).takeWhile (fun ch => !isJsWhitespace ch),
        ((c :: cs).drop 6).dropWhile (fun ch => !isJsWhitespace ch))
    else
      (findExtid cs).map (fun r => (c :: r.1, r.2.1, r.2.2))

/-- Model of the externalId extraction in `nodeToTransaction`: match
`extid:(\S+)` in the comment, and on success remove the first match of
`extid:\S+\s*`, trim, and turn an empty remainder into no comment. -/
def extractExtid (comment : Option Str) : Option Str × Option Str :=
  match comment with
  | none => (none, none)
  | some cm =>
    if cm.isEmpty then (none, some cm)
    else
      match findExtid cm with
      | none => (none, some cm)
      | some (before, xid, after) =>
        let trimmed := jsTrim (before ++ after.dropWhile isJsWhitespace)
        (some xid, if trimmed.isEmpty then none else some trimmed)

/-- Model of `nodeToPosting`: parse the quantity with `new Decimal`, negate it
when the minus flag is set, and build the `Posting` (whose `Account`
constructor rejects an empty name). -/
def nodeToPosting (node : PostingNode) : Except Str Posting :=
  match node.amount with
  | none => .error "Posting must have an amount".data
  | some a =>
    match parseDec a.quantity with
    | none => .error "DecimalError".data
    | some q =>
      if jsTrim node.account = [] then .error "Account name cannot be empty".data
      else
        .ok { account := node.account
              commodity := a.commodity
              quantity := if a.isNegative then -q else q
              comment := node.comment }

/-- Synthetic postings emitted for the elided posting: one per commodity of
the explicit postings whose signed sum is nonzero, carrying the negated sum
(the loop over `commoditySums` in `nodeToTransaction`). -/
def inferElided (ps0 : List Posting) (elided : PostingNode) : List Posting :=
  (calculateImbalances ps0).filterMap (fun kv =>
    if kv.2 = 0 then none
    else some { account := elided.account, commodity := kv.1, quantity := -kv.2,
                comment := elided.comment })

/-- Constructor props assembled at the end of `nodeToTransaction`: the id
derived from date and line number, the parsed date, and the comment and
external id split by the `extid:` extraction. -/
def finishProps (node : TransactionNode) (postings : List Posting) : TransactionProps :=
  { idOpt := some (node.date ++ '-' :: natToStr node.lineNumber)
    date := (parseDateStr node.date).getD ⟨0, 0, 0⟩
    description := node.description
    postings := postings
    comment := (extractExtid node.comment).2
    externalId := (extractExtid node.comment).1 }

/-- Final step of `nodeToTransaction`: run the `Transaction` constructor on
the assembled props. -/
def finishTransaction (node : TransactionNode) (postings : List Posting) :
    Except ConvError Transaction :=
  match Transaction.create (finishProps node postings) [] with
  | .error e => .error (.tx e)
  | .ok t => .ok t

/-- Model of `GitLedgerRepository.nodeToTransaction`: split the postings into
those with and without an amount, reject more than one elided posting, convert
the explicit ones, expand a single elided posting into one synthetic posting
per unbalanced commodity, and construct the `Transaction`. -/
def nodeToTransaction (node : TransactionNode) : Except ConvError Transaction :=
  let explicitNodes := node.postings.filter (fun p => p.amount.isSome)
  let elidedNodes := node.postings.filter (fun p => !p.amount.isSome)
  if 1 < elidedNodes.length then
    .error (.generic "Only one posting may have an elided amount".data)
  else
    match mapExcept nodeToPosting explicitNodes with
    | .error msg => .error (.generic msg)
    | .ok ps0 =>
      match elidedNodes with
      | [elided] =>
        if jsTrim elided.account = [] then
          .error (.generic "Account name cannot be empty".data)
        else finishTransaction node (ps0 ++ inferElided ps0 elided)
      | _ => finishTransaction node ps0

end NodeConversion

section ElidedInference

/-- An ordered map with distinct keys is reconstructed from its keys and
lookups. -/
theorem omap_eq_keys_map {α : Type} (d : α) :
    ∀ (m : List (Str × α)), (omKeys m).Nodup →
      m = (omKeys m).map (fun k => (k, (omGet m k).getD d)) := by
  intro m hnd
  induction m with
  | nil => rfl
  | cons kv rest ih =>
    have hndc : (kv.1 :: omKeys rest).Nodup := hnd
    have hk0 : kv.1 ∉ omKeys rest := (List.nodup_cons.mp hndc).1
    have hnd2 : (omKeys rest).Nodup := (List.nodup_cons.mp hndc).2
    simp only [omKeys, List.map_cons]
    have hhead : (kv.1, (omGet (kv :: rest) kv.1).getD d) = kv := by
      rw [omGet_cons, if_pos rfl]
      rfl
    rw [hhead]
    congr 1
    have htail := ih hnd2
    rw [omKeys] at htail
    conv_lhs => rw [htail]
    apply List.map_congr_left
    intro k hk
    have hne : kv.1 ≠ k := fun he => hk0 (by rw [he]; exact hk)
    rw [omGet_cons, if_neg hne]

/-- The keys of the imbalance map are the commodities in first-appearance
order. -/
theorem keys_calculateImbalances (ps : List Posting) :
    omKeys (calculateImbalances ps) = commoditiesOf ps := by
  rw [calculateImbalances, commoditiesOf]
  have hgen : ∀ (m : List (Str × ℚ)) (acc : List Str), omKeys m = acc →
      omKeys (ps.foldl
        (fun m p => omSet m p.commodity ((omGet m p.commodity).getD 0 + p.quantity)) m) =
      ps.foldl (fun acc p => if p.commodity ∈ acc then acc else acc ++ [p.commodity]) acc := by
    induction ps with
    | nil => intro m acc h; exact h
    | cons p ps ih =>
      intro m acc h
      simp only [List.foldl_cons]
      apply ih
      rw [omKeys_omSet, h]
  exact hgen [] [] rfl

/-- The imbalance map lists each commodity with its signed sum, in
first-appearance order. -/
theorem calculateImbalances_eq_map (ps : List Posting) :
    calculateImbalances ps = (commoditiesOf ps).map (fun c => (c, commoditySum ps c)) := by
  have hnd := nodup_omKeys_calculateImbalances ps
  have hrec := omap_eq_keys_map (0 : ℚ) (calculateImbalances ps) hnd
  rw [keys_calculateImbalances] at hrec
  conv_lhs => rw [hrec]
  apply List.map_congr_left
  intro c hc
  rw [omGet_calculateImbalances, if_pos ((mem_commoditiesOf ps c).mp hc)]
  rfl

theorem filterMap_if_eq_filter_map {α β : Type} (l : List α) (P : α → Prop)
    [DecidablePred P] (h : α → β) :
    l.filterMap (fun a => if P a then none else some (h a)) =
      (l.filter (fun a => decide (¬ P a))).map h := by
  induction l with
  | nil => rfl
  | cons a l ih =>
    by_cases hP : P a <;> simp [hP, ih, List.filter_cons]

/-- The synthetic postings of the elided-posting expansion: one per commodity
of the explicit postings with nonzero signed sum, on the elided account,
carrying the negation of that sum. -/
theorem inferElided_eq (ps0 : List Posting) (el : PostingNode) :
    inferElided ps0 el =
      ((commoditiesOf ps0).filter (fun c => decide (¬ commoditySum ps0 c = 0))).map
        (fun c => { account := el.account, commodity := c,
                    quantity := -(commoditySum ps0 c), comment := el.comment }) := by
  unfold inferElided
  rw [calculateImbalances_eq_map, List.filterMap_map]
  have hcomp :
      ((fun kv : Str × ℚ =>
          if kv.2 = 0 then none
          else some ({ account := el.account, commodity := kv.1, quantity := -kv.2,
                       comment := el.comment } : Posting)) ∘
        (fun c => (c, commoditySum ps0 c))) =
      fun c =>
        if commoditySum ps0 c = 0 then none
        else some ({ account := el.account, commodity := c,
                     quantity := -(commoditySum ps0 c), comment := el.comment } : Posting) := rfl
  rw [hcomp]
  exact filterMap_if_eq_filter_map (commoditiesOf ps0)
    (fun c => commoditySum ps0 c = 0)
    (fun c => ({ account := el.account, commodity := c,
                 quantity := -(commoditySum ps0 c), comment := el.comment } : Posting))

/-- The transaction node of the documented elided-posting example:
`Assets:Cash  -$ 100` and `Expenses:Food` with no amount. -/
def exampleElidedNode : TransactionNode :=
  { date := "2024/01/15".data
    description := "Lunch".data
    postings :=
      [ { account := "Assets:Cash".data
          amount := some { quantity := "100".data, commodity := "$".data,
                           isNegative := true, commodityPosition := .pre } },
        { account := "Expenses:Food".data } ]
    lineNumber := 2 }

/-- Converted explicit posting of the example. -/
def exampleCashPosting : Posting :=
  { account := "Assets:Cash".data, commodity := "$".data, quantity := -(100 : ℚ) }

/-- Inferred posting of the example. -/
def exampleFoodPosting : Posting :=
  { account := "Expenses:Food".data, commodity := "$".data, quantity := (100 : ℚ) }

/-- When validation passes, `finishTransaction` returns the assembled
transaction. -/
theorem finishTransaction_ok (node : TransactionNode) (postings : List Posting)
    (hv : (Transaction.mkRaw (finishProps node postings) []).validate = none) :
    finishTransaction node postings = .ok (Transaction.mkRaw (finishProps node postings) []) := by
  unfold finishTransaction Transaction.create
  have hskip : (finishProps node postings).skipValidation = false := rfl
  rw [hskip, if_neg (by decide), hv]

/-- C3: converting a `TransactionNode` fails with a hard error when more than
one posting lacks an amount; with exactly one amount-less posting, one
synthetic posting on that account is emitted per commodity whose signed sum
over the explicit postings is nonzero, carrying the negation of that sum; in
the documented example with `Assets:Cash -$ 100` explicit and `Expenses:Food`
amount-less, the inferred amount for `Expenses:Food` is a positive 100 of
commodity `$`. -/
theorem c3_elided_posting_inference :
    (∀ node : TransactionNode,
      1 < (node.postings.filter (fun p => !p.amount.isSome)).length →
        nodeToTransaction node =
          .error (.generic "Only one posting may have an elided amount".data)) ∧
    (∀ (node : TransactionNode) (ps0 : List Posting) (elided : PostingNode),
      node.postings.filter (fun p => !p.amount.isSome) = [elided] →
      mapExcept nodeToPosting (node.postings.filter (fun p => p.amount.isSome)) = .ok ps0 →
      jsTrim elided.account ≠ [] →
      nodeToTransaction node = finishTransaction node (ps0 ++ inferElided ps0 elided) ∧
      inferElided ps0 elided =
        ((commoditiesOf ps0).filter (fun c => decide (¬ commoditySum ps0 c = 0))).map
          (fun c => { account := elided.account, commodity := c,
                      quantity := -(commoditySum ps0 c), comment := elided.comment })) ∧
    (∃ t, nodeToTransaction exampleElidedNode = .ok t ∧
      t.postings.map (fun p => (p.account, p.commodity, p.quantity)) =
        [("Assets:Cash".data, "$".data, (-100 : ℚ)),
         ("Expenses:Food".data, "$".data, (100 : ℚ))]) := by
  refine ⟨?_, ?_, ?_⟩
  · intro node hlen
    unfold nodeToTransaction
    rw [if_pos hlen]
  · intro node ps0 elided helided hmap hacct
    have hlen : ¬ 1 < (node.postings.filter (fun p => !p.amount.isSome)).length := by
      rw [helided]
      simp
    constructor
    · unfold nodeToTransaction
      rw [if_neg hlen, hmap, helided]
      show (if jsTrim elided.account = [] then
          Except.error (ConvError.generic "Account name cannot be empty".data)
        else finishTransaction node (ps0 ++ inferElided ps0 elided)) =
        finishTransaction node (ps0 ++ inferElided ps0 elided)
      rw [if_neg hacct]
    · exact inferElided_eq ps0 elided
  · have h0 : nodeToTransaction exampleElidedNode =
        finishTransaction exampleElidedNode
          ([exampleCashPosting] ++
            inferElided [exampleCashPosting] { account := "Expenses:Food".data }) := by
      rfl
    have h1 : inferElided [exampleCashPosting] { account := "Expenses:Food".data } =
        [exampleFoodPosting] := by
      rw [inferElided_eq]
      have hc : commoditiesOf [exampleCashPosting] = ["$".data] := rfl
      rw [hc, List.filter_cons]
      have hs : commoditySum [exampleCashPosting] "$".data = -100 := by
        simp [commoditySum, exampleCashPosting]
      rw [hs]
      norm_num [exampleFoodPosting, hs]
    rw [h0, h1]
    have hv : (Transaction.mkRaw
        (finishProps exampleElidedNode ([exampleCashPosting] ++ [exampleFoodPosting]))
        []).validate = none := by
      rw [validate_none_iff]
      refine ⟨by decide, by decide, ?_⟩
      intro c hc
      have hco : commoditiesOf [exampleCashPosting, exampleFoodPosting] = ["$".data] := rfl
      have hcs : c = "$".data := by
        have hc2 : c ∈ commoditiesOf [exampleCashPosting, exampleFoodPosting] := hc
        rw [hco] at hc2
        simpa using hc2
      subst hcs
      show commoditySum [exampleCashPosting, exampleFoodPosting] "$".data = 0
      simp [commoditySum, exampleCashPosting, exampleFoodPosting]
    refine ⟨_, finishTransaction_ok _ _ hv, ?_⟩
    rfl

/-- C3 witness: a node with two amount-less postings is rejected, and the
characterization applies to the concrete example node. -/
theorem c3_elided_posting_inference_witness :
    nodeToTransaction
      { date := "2024/01/15".data
        description := "Broken".data
        postings := [{ account := "A:B".data }, { account := "C:D".data }]
        lineNumber := 1 } =
      .error (.generic "Only one posting may have an elided amount".data) :=
  c3_elided_posting_inference.1 _ (by decide)

end ElidedInference

section LexerModel

/-- Token kinds of the lexer. -/
inductive TokType where
  | date
  | text
  | account
  | number
  | commodity
  | quotedCommodity
  | priceDirective
  | comment
  | newline
  | indent
  | minus
  | eof
deriving DecidableEq, Repr

/-- One lexer token with the line and column recorded by `addToken` (which
stores `column - value.length`). -/
structure Token where
  type : TokType
  value : Str
  line : Nat
  column : Nat
deriving DecidableEq, Repr

/-- Space or tab, the characters the lexer skips and folds into INDENT. -/
def isSpaceTab (c : Char) : Bool := decide (c = ' ') || decide (c = '\t')

/-- Identifier start characters (ASCII letter or underscore). -/
def isIdentStart (c : Char) : Bool :=
  (decide ('a' ≤ c) && decide (c ≤ 'z')) || (decide ('A' ≤ c) && decide (c ≤ 'Z')) ||
    decide (c = '_')

/-- Identifier continuation characters. -/
def isIdentCh (c : Char) : Bool :=
  isIdentStart c || isDigitCh c || decide (c = ':') || decide (c = '_') || decide (c = '-')

/-- Model of `peek`: the character at the offset, or the NUL character past
the end of input. -/
def peekCh (cs : Str) : Char := cs.headD '\x00'

/-- Model of the bounded digit loops in `scanDate`
(`for (i = 0; i < n && isDigit; i++)`): consume up to `n` digits. -/
def scanDigitsUpTo : Nat → Str → Str × Str
  | 0, cs => ([], cs)
  | _ + 1, [] => ([], [])
  | n + 1, c :: cs =>
    if isDigitCh c then
      let r := scanDigitsUpTo n cs
      (c :: r.1, r.2)
    else ([], c :: cs)

/-- Model of `isDateStart`: at least five characters remain and they match
the date-start regex (four digits, then a slash or a dash) at the scan
position. -/
def isDateStart (cs : Str) : Bool :=
  match cs with
  | a :: b :: c :: d :: e :: _ =>
    isDigitCh a && isDigitCh b && isDigitCh c && isDigitCh d &&
      (decide (e = '/') || decide (e = '-'))
  | _ => false

/-- Model of `scanDate`: greedily consume up to four year digits, a `/` or
`-` separator, up to two month digits, a separator and up to two day digits;
on a missing separator the position is reset to the start and the column is
decremented by the length of the text consumed so far, as the source does. -/
def scanDate (cs : Str) (col : Nat) : Option Str × Str × Nat :=
  let yr := scanDigitsUpTo 4 cs
  let c1 := col + yr.1.length
  match yr.2 with
  | sep1 :: r2 =>
    if decide (sep1 = '/') || decide (sep1 = '-') then
      let mo := scanDigitsUpTo 2 r2
      let c2 := c1 + 1 + mo.1.length
      match mo.2 with
      | sep2 :: r4 =>
        if decide (sep2 = '/') || decide (sep2 = '-') then
          let dy := scanDigitsUpTo 2 r4
          (some (yr.1 ++ sep1 :: (mo.1 ++ sep2 :: dy.1)), dy.2, c2 + 1 + dy.1.length)
        else (none, cs, c2 - (yr.1 ++ sep1 :: mo.1).length)
      | [] => (none, cs, c2 - (yr.1 ++ sep1 :: mo.1).length)
    else (none, cs, c1 - yr.1.length)
  | [] => (none, cs, c1 - yr.1.length)

/-- Model of `scanQuotedCommodity`: the opening quote, the verbatim run up to
a closing quote or the end of input, and the closing quote when present. -/
def scanQuoted (cs2 : Str) : Str × Str :=
  match cs2.dropWhile (fun c => !decide (c = '"')) with
  | '"' :: r => ('"' :: cs2.takeWhile (fun c => !decide (c = '"')) ++ ['"'], r)
  | r => ('"' :: cs2.takeWhile (fun c => !decide (c = '"')), r)

/-- Digit run with an optional decimal point followed by a digit run, the body
of `scanNumber` after the optional sign. -/
def scanNumberCore (body : Str) : Str × Str :=
  match body.dropWhile isDigitCh with
  | '.' :: cs3 =>
    (body.takeWhile isDigitCh ++ '.' :: cs3.takeWhile isDigitCh, cs3.dropWhile isDigitCh)
  | rest => (body.takeWhile isDigitCh, rest)

/-- Model of `scanNumber`: an optional minus sign, a digit run, and an
optional decimal point followed by a digit run. -/
def scanNumber (cs : Str) : Str × Str :=
  if cs.headD '\x00' = '-' then
    ('-' :: (scanNumberCore cs.tail).1, (scanNumberCore cs.tail).2)
  else scanNumberCore cs

/-- Branches of `scanToken` below the date attempt: quoted commodity, minus,
dollar, number, identifier and the TEXT fallback. -/
def scanAfterDate (cs : Str) (line col : Nat) : Option Token × Str × Nat × Nat :=
  match cs with
  | [] => (none, [], line, col)
  | c :: cs2 =>
    if c = '"' then
      let q := scanQuoted cs2
      (some ⟨.quotedCommodity, q.1, line, col⟩, q.2, line, col + q.1.length)
    else if decide (c = '-') &&
        (decide (peekCh cs2 = '$') || isDigitCh (peekCh cs2)) then
      (some ⟨.minus, ['-'], line, col - 1⟩, cs2, line, col + 1)
    else if c = '$' then
      (some ⟨.commodity, ['$'], line, col - 1⟩, cs2, line, col + 1)
    else if isDigitCh c || (decide (c = '-') && isDigitCh (peekCh cs2)) then
      let n := scanNumber (c :: cs2)
      (some ⟨.number, n.1, line, col⟩, n.2, line, col + n.1.length)
    else if isIdentStart c then
      let idf := (c :: cs2).takeWhile isIdentCh
      let rest := (c :: cs2).dropWhile isIdentCh
      if idf.contains ':' then
        (some ⟨.account, idf, line, col⟩, rest, line, col + idf.length)
      else
        (some ⟨.commodity, idf, line, col⟩, rest, line, col + idf.length)
    else
      let taken := (c :: cs2).takeWhile (fun x => !decide (x = '\n') && !decide (x = ';'))
      let rest := (c :: cs2).dropWhile (fun x => !decide (x = '\n') && !decide (x = ';'))
      let value := jsTrim taken
      (some ⟨.text, value, line, col + taken.length - value.length⟩,
        rest, line, col + taken.length)

/-- Model of one `scanToken` call: returns the emitted token (if any), the
remaining input, and the updated line and column. -/
def scanStep (cs : Str) (line col : Nat) : Option Token × Str × Nat × Nat :=
  match cs with
  | [] => (none, [], line, col)
  | c :: cs2 =>
    if c = '\n' then
      (some ⟨.newline, ['\n'], line, col - 1⟩, cs2, line + 1, 1)
    else if c = '\r' then
      (none, cs2, line, col)
    else if decide (col = 1) && isSpaceTab c then
      let ws := (c :: cs2).takeWhile isSpaceTab
      let rest := (c :: cs2).dropWhile isSpaceTab
      (some ⟨.indent, ws, line, col⟩, rest, line, col + ws.length)
    else if isSpaceTab c then
      (none, cs2, line, col + 1)
    else if c = ';' then
      let com := (c :: cs2).takeWhile (fun x => !decide (x = '\n'))
      let rest := (c :: cs2).dropWhile (fun x => !decide (x = '\n'))
      (some ⟨.comment, com, line, col⟩, rest, line, col + com.length)
    else if decide (c = 'P') && decide (col = 1) && decide (peekCh cs2 = ' ') then
      (some ⟨.priceDirective, ['P'], line, col - 1⟩, cs2, line, col + 1)
    else if isDateStart (c :: cs2) then
      match scanDate (c :: cs2) col with
      | (some d, rest, c2) => (some ⟨.date, d, line, c2 - d.length⟩, rest, line, c2)
      | (none, _, c2) => scanAfterDate (c :: cs2) line c2
    else scanAfterDate (c :: cs2) line col

/-- Fuel-driven token loop of `tokenize`; the fuel `input.length + 1` always
suffices because every `scanToken` call consumes at least one character. -/
def lexGo : Nat → Str → Nat → Nat → List Token
  | 0, _, _, _ => []
  | fuel + 1, cs, line, col =>
    match cs with
    | [] => [⟨.eof, [], line, col⟩]
    | _ =>
      match scanStep cs line col with
      | (some t, rest, l2, c2) => t :: lexGo fuel rest l2 c2
      | (none, rest, l2, c2) => lexGo fuel rest l2 c2

/-- Model of `Lexer.tokenize`. -/
def tokenize (input : Str) : List Token := lexGo (input.length + 1) input 1 1

end LexerModel



theorem scanDigitsUpTo_spec (n : Nat) : ∀ cs : Str,
    (scanDigitsUpTo n cs).1.all isDigitCh = true ∧
    (scanDigitsUpTo n cs).1.length ≤ n ∧
    cs = (scanDigitsUpTo n cs).1 ++ (scanDigitsUpTo n cs).2 := by
  induction n with
  | zero =>
    intro cs
    refine ⟨?_, ?_, ?_⟩ <;> simp [scanDigitsUpTo]
  | succ n ih =>
    intro cs
    cases cs with
    | nil =>
      refine ⟨?_, ?_, ?_⟩ <;> simp [scanDigitsUpTo]
    | cons c cs2 =>
      by_cases hc : isDigitCh c = true
      · have hrec := ih cs2
        refine ⟨?_, ?_, ?_⟩
        · simp only [scanDigitsUpTo, hc, if_true, List.all_cons]
          simp [hc, hrec.1]
        · simp only [scanDigitsUpTo, hc, if_true, List.length_cons]
          omega
        · simp [scanDigitsUpTo, hc, ← hrec.2.2]
      · rw [Bool.not_eq_true] at hc
        refine ⟨?_, ?_, ?_⟩ <;> simp [scanDigitsUpTo, hc]

/-- C5: at any scan position whose next five characters match the date-start
pattern (four digits then a slash or dash), `scanDate` greedily consumes the
year, a separator, the month, a separator and the day, each separator
independently a slash or a dash; and whenever an expected separator is
missing, the scan aborts with the cursor position and column restored exactly
to the start. -/
theorem c5_date_scan_rewind (cs : Str) (col : Nat) (h : isDateStart cs = true) :
    (∀ rest c2, scanDate cs col = (none, rest, c2) → rest = cs ∧ c2 = col) ∧
    (∀ d rest c2, scanDate cs col = (some d, rest, c2) →
      cs = d ++ rest ∧ c2 = col + d.length ∧
      ∃ (y mo dy : Str) (s1 s2 : Char),
        d = y ++ s1 :: (mo ++ s2 :: dy) ∧
        y.length = 4 ∧ y.all isDigitCh = true ∧
        (s1 = '/' ∨ s1 = '-') ∧ (s2 = '/' ∨ s2 = '-') ∧
        mo.length ≤ 2 ∧ mo.all isDigitCh = true ∧
        dy.length ≤ 2 ∧ dy.all isDigitCh = true) := by
  rcases cs with _ | ⟨a, _ | ⟨b, _ | ⟨c, _ | ⟨d, _ | ⟨e, r⟩⟩⟩⟩⟩ <;>
    simp only [isDateStart] at h
  · cases h
  · cases h
  · cases h
  · cases h
  · cases h
  simp only [Bool.and_eq_true, Bool.or_eq_true, decide_eq_true_eq] at h
  obtain ⟨⟨⟨⟨ha, hb⟩, hc⟩, hd⟩, he⟩ := h
  have h4 : scanDigitsUpTo 4 (a :: b :: c :: d :: e :: r) = ([a, b, c, d], e :: r) := by
    have hne : isDigitCh e = false ∨ True := Or.inr trivial
    simp [scanDigitsUpTo, ha, hb, hc, hd]
  have hsep1 : (decide (e = '/') || decide (e = '-')) = true := by
    rcases he with he | he <;> simp [he]
  have hmo := scanDigitsUpTo_spec 2 r
  rcases hmr : (scanDigitsUpTo 2 r).2 with _ | ⟨sep2, r4⟩
  · have heq : scanDate (a :: b :: c :: d :: e :: r) col =
        (none, a :: b :: c :: d :: e :: r,
          col + 4 + 1 + (scanDigitsUpTo 2 r).1.length -
            ([a, b, c, d] ++ e :: (scanDigitsUpTo 2 r).1).length) := by
      simp only [scanDate, h4, hsep1, if_true, hmr, List.length_cons, List.length_nil]
    constructor
    · intro rest c2 hscan
      rw [heq] at hscan
      simp only [Prod.mk.injEq] at hscan
      refine ⟨hscan.2.1.symm, ?_⟩
      rw [← hscan.2.2]
      simp [List.length_append]
      omega
    · intro dd rest c2 hscan
      rw [heq] at hscan
      simp only [Prod.mk.injEq] at hscan
      cases hscan.1
  · by_cases hsep2 : (decide (sep2 = '/') || decide (sep2 = '-')) = true
    · have hdy := scanDigitsUpTo_spec 2 r4
      have heq : scanDate (a :: b :: c :: d :: e :: r) col =
          (some ([a, b, c, d] ++ e :: ((scanDigitsUpTo 2 r).1 ++ sep2 :: (scanDigitsUpTo 2 r4).1)),
            (scanDigitsUpTo 2 r4).2,
            col + 4 + 1 + (scanDigitsUpTo 2 r).1.length + 1 + (scanDigitsUpTo 2 r4).1.length) := by
        simp only [scanDate, h4, hsep1, if_true, hmr, hsep2, List.length_cons, List.length_nil]
      constructor
      · intro rest c2 hscan
        rw [heq] at hscan
        simp only [Prod.mk.injEq] at hscan
        cases hscan.1
      · intro dd rest c2 hscan
        rw [heq] at hscan
        simp only [Prod.mk.injEq, Option.some.injEq] at hscan
        obtain ⟨hdd, hrest, hc2⟩ := hscan
        subst hdd
        subst hrest
        subst hc2
        refine ⟨?_, ?_, [a, b, c, d], (scanDigitsUpTo 2 r).1, (scanDigitsUpTo 2 r4).1, e, sep2,
          rfl, rfl, ?_, he, ?_, hmo.2.1, hmo.1, hdy.2.1, hdy.1⟩
        · have hr : r = (scanDigitsUpTo 2 r).1 ++ sep2 :: r4 := by
            conv_lhs => rw [hmo.2.2]
            rw [hmr]
          have hr4 : r4 = (scanDigitsUpTo 2 r4).1 ++ (scanDigitsUpTo 2 r4).2 := hdy.2.2
          conv_lhs => rw [hr, hr4]
          simp
        · simp only [List.length_append, List.length_cons, List.length_nil]
          omega
        · simp [ha, hb, hc, hd]
        · simp only [Bool.or_eq_true, decide_eq_true_eq] at hsep2
          exact hsep2
    · have heq : scanDate (a :: b :: c :: d :: e :: r) col =
          (none, a :: b :: c :: d :: e :: r,
            col + 4 + 1 + (scanDigitsUpTo 2 r).1.length -
              ([a, b, c, d] ++ e :: (scanDigitsUpTo 2 r).1).length) := by
        rw [Bool.not_eq_true] at hsep2
        simp only [scanDate, h4, hsep1, if_true, hmr, hsep2, Bool.false_eq_true, if_false,
          List.length_cons, List.length_nil]
      constructor
      · intro rest c2 hscan
        rw [heq] at hscan
        simp only [Prod.mk.injEq] at hscan
        refine ⟨hscan.2.1.symm, ?_⟩
        rw [← hscan.2.2]
        simp [List.length_append]
        omega
      · intro dd rest c2 hscan
        rw [heq] at hscan
        simp only [Prod.mk.injEq] at hscan
        cases hscan.1

/-- C5 witness: on `2024/1x` (second separator missing after a one-digit
month) the date scan fails and restores the cursor exactly. -/
theorem c5_date_scan_rewind_witness :
    "2024/1x".data = "2024/1x".data ∧ (7 : Nat) = 7 :=
  (c5_date_scan_rewind "2024/1x".data 7 (by decide)).1 "2024/1x".data 7 (by decide)



theorem scanQuoted_rest_le (cs2 : Str) : (scanQuoted cs2).2.length ≤ cs2.length := by
  have hd : (cs2.dropWhile (fun c => !decide (c = '"'))).length ≤ cs2.length :=
    (List.dropWhile_sublist _).length_le
  rw [scanQuoted]
  split
  · rename_i r heq
    rw [heq] at hd
    simp only [List.length_cons] at hd
    show r.length ≤ cs2.length
    omega
  · exact hd

theorem scanNumberCore_append (body : Str) :
    body = (scanNumberCore body).1 ++ (scanNumberCore body).2 := by
  rw [scanNumberCore]
  split
  · rename_i cs3 heq
    calc body = body.takeWhile isDigitCh ++ body.dropWhile isDigitCh :=
          (List.takeWhile_append_dropWhile isDigitCh body).symm
    _ = body.takeWhile isDigitCh ++ '.' :: cs3 := by rw [heq]
    _ = _ := by
        conv_lhs => rw [← List.takeWhile_append_dropWhile isDigitCh cs3]
        simp
  · exact (List.takeWhile_append_dropWhile isDigitCh body).symm

theorem scanNumber_append (cs : Str) : cs = (scanNumber cs).1 ++ (scanNumber cs).2 := by
  by_cases hc : cs.headD '\x00' = '-'
  · rw [scanNumber, if_pos hc]
    rcases cs with _ | ⟨c, r⟩
    · simp at hc
    · have hcm : c = '-' := by simpa using hc
      subst hcm
      simp only [List.tail_cons, List.cons_append]
      rw [← scanNumberCore_append r]
  · rw [scanNumber, if_neg hc]
    exact scanNumberCore_append cs



theorem scanAfterDate_progress (c : Char) (cs2 : Str) (line col : Nat)
    (hn : ¬ c = '\n') (hs : ¬ c = ';') :
    (scanAfterDate (c :: cs2) line col).2.1.length < (c :: cs2).length := by
  rw [scanAfterDate]
  by_cases h1 : c = '"'
  · rw [if_pos h1]
    have := scanQuoted_rest_le cs2
    simp only [List.length_cons]
    omega
  rw [if_neg h1]
  by_cases h2 : (decide (c = '-') && (decide (peekCh cs2 = '$') || isDigitCh (peekCh cs2))) = true
  · rw [if_pos h2]; simp
  rw [if_neg h2]
  by_cases h3 : c = '$'
  · rw [if_pos h3]; simp
  rw [if_neg h3]
  by_cases h4 : (isDigitCh c || (decide (c = '-') && isDigitCh (peekCh cs2))) = true
  · rw [if_pos h4]
    have happ := scanNumber_append (c :: cs2)
    have hval : (scanNumber (c :: cs2)).1 ≠ [] := by
      by_cases hcm : c = '-'
      · rw [scanNumber, if_pos (by simp [hcm])]
        simp
      · have hdig : isDigitCh c = true := by
          rcases Bool.or_eq_true _ _ |>.mp h4 with hd | hd
          · exact hd
          · exact absurd (by simpa using (Bool.and_eq_true _ _ |>.mp hd).1) hcm
        rw [scanNumber, if_neg (by simpa using hcm)]
        rw [scanNumberCore]
        split
        · rename_i cs3 heq
          rw [List.takeWhile_cons_of_pos hdig]
          simp
        · rw [List.takeWhile_cons_of_pos hdig]
          simp
    have hlen := congrArg List.length happ
    rw [List.length_append] at hlen
    have hpos : 0 < (scanNumber (c :: cs2)).1.length := List.length_pos.mpr hval
    simp only []
    omega
  rw [if_neg h4]
  by_cases h5 : isIdentStart c = true
  · rw [if_pos h5]
    have hic : isIdentCh c = true := by simp [isIdentCh, h5]
    have hsub := (List.dropWhile_sublist (l := cs2) (p := isIdentCh)).length_le
    have hlen2 : ((c :: cs2).dropWhile isIdentCh).length < (c :: cs2).length := by
      rw [List.dropWhile_cons_of_pos hic]
      simp only [List.length_cons]
      omega
    by_cases hcol : ((c :: cs2).takeWhile isIdentCh).contains ':' = true
    · rw [if_pos hcol]
      exact hlen2
    · rw [if_neg hcol]
      exact hlen2
  rw [if_neg h5]
  have hpred : (!decide (c = '\n') && !decide (c = ';')) = true := by
    simp [hn, hs]
  have hsub := (List.dropWhile_sublist (l := cs2)
    (p := fun x => !decide (x = '\n') && !decide (x = ';'))).length_le
  show ((c :: cs2).dropWhile (fun x => !decide (x = '\n') && !decide (x = ';'))).length <
    (c :: cs2).length
  rw [List.dropWhile_cons_of_pos (p := fun x => !decide (x = '\n') && !decide (x = ';')) hpred]
  simp only [List.length_cons]
  omega



theorem scanStep_progress (cs : Str) (line col : Nat) (h : cs ≠ []) :
    (scanStep cs line col).2.1.length < cs.length := by
  rcases cs with _ | ⟨c, cs2⟩
  · exact absurd rfl h
  rw [scanStep]
  by_cases h1 : c = '\n'
  · rw [if_pos h1]; simp
  rw [if_neg h1]
  by_cases h2 : c = '\r'
  · rw [if_pos h2]; simp
  rw [if_neg h2]
  by_cases h3 : (decide (col = 1) && isSpaceTab c) = true
  · rw [if_pos h3]
    have hc : isSpaceTab c = true := (Bool.and_eq_true _ _ |>.mp h3).2
    show ((c :: cs2).dropWhile isSpaceTab).length < (c :: cs2).length
    rw [List.dropWhile_cons_of_pos hc]
    have := (List.dropWhile_sublist (l := cs2) (p := isSpaceTab)).length_le
    simp only [List.length_cons]
    omega
  rw [if_neg h3]
  by_cases h4 : isSpaceTab c = true
  · rw [if_pos h4]; simp
  rw [if_neg h4]
  by_cases h5 : c = ';'
  · rw [if_pos h5]
    show ((c :: cs2).dropWhile (fun x => !decide (x = '\n'))).length < (c :: cs2).length
    rw [List.dropWhile_cons_of_pos (p := fun x => !decide (x = '\n')) (by simp [h1])]
    have := (List.dropWhile_sublist (l := cs2) (p := fun x => !decide (x = '\n'))).length_le
    simp only [List.length_cons]
    omega
  rw [if_neg h5]
  by_cases h6 : (decide (c = 'P') && decide (col = 1) && decide (peekCh cs2 = ' ')) = true
  · rw [if_pos h6]; simp
  rw [if_neg h6]
  by_cases h7 : isDateStart (c :: cs2) = true
  · rw [if_pos h7]
    rcases hscan : scanDate (c :: cs2) col with ⟨od, rest0, c20⟩
    rcases od with _ | d
    · exact scanAfterDate_progress c cs2 line c20 h1 h5
    · have hc5 := (c5_date_scan_rewind (c :: cs2) col h7).2 d rest0 c20 hscan
      simp only [hscan]
      have hlen := congrArg List.length hc5.1
      rw [List.length_append] at hlen
      obtain ⟨y, mo, dy, s1, s2, hd, hy4, _, _, _, _, _, _, _⟩ := hc5.2.2
      have hdpos : 0 < d.length := by
        rw [hd]
        simp [List.length_append, hy4]
      omega
  · rw [if_neg h7]
    exact scanAfterDate_progress c cs2 line col h1 h5



theorem lexGo_fuel_irrel : ∀ (n f1 f2 : Nat) (cs : Str) (line col : Nat),
    cs.length ≤ n → cs.length < f1 → cs.length < f2 →
    lexGo f1 cs line col = lexGo f2 cs line col := by
  intro n
  induction n with
  | zero =>
    intro f1 f2 cs line col hn h1 h2
    have hcs : cs = [] := List.length_eq_zero.mp (by omega)
    subst hcs
    rcases f1 with _ | f1
    · omega
    rcases f2 with _ | f2
    · omega
    rfl
  | succ n ih =>
    intro f1 f2 cs line col hn h1 h2
    rcases cs with _ | ⟨c, cs2⟩
    · rcases f1 with _ | f1
      · omega
      rcases f2 with _ | f2
      · omega
      rfl
    · rcases f1 with _ | f1
      · simp at h1
      rcases f2 with _ | f2
      · simp at h2
      have hprog := scanStep_progress (c :: cs2) line col (by simp)
      show (match scanStep (c :: cs2) line col with
        | (some t, rest, l2, c2) => t :: lexGo f1 rest l2 c2
        | (none, rest, l2, c2) => lexGo f1 rest l2 c2) =
        (match scanStep (c :: cs2) line col with
        | (some t, rest, l2, c2) => t :: lexGo f2 rest l2 c2
        | (none, rest, l2, c2) => lexGo f2 rest l2 c2)
      rcases hs : scanStep (c :: cs2) line col with ⟨ot, rest, l2, c2⟩
      rw [hs] at hprog
      simp only [List.length_cons] at h1 h2 hn hprog
      rcases ot with _ | t
      · exact ih f1 f2 rest l2 c2 (by omega) (by omega) (by omega)
      · show t :: lexGo f1 rest l2 c2 = t :: lexGo f2 rest l2 c2
        rw [ih f1 f2 rest l2 c2 (by omega) (by omega) (by omega)]

theorem lexGo_ends_eof : ∀ (n fuel : Nat) (cs : Str) (line col : Nat),
    cs.length ≤ n → cs.length < fuel →
    ∃ (ts : List Token) (l c : Nat), lexGo fuel cs line col = ts ++ [⟨.eof, [], l, c⟩] := by
  intro n
  induction n with
  | zero =>
    intro fuel cs line col hn h1
    have hcs : cs = [] := List.length_eq_zero.mp (by omega)
    subst hcs
    rcases fuel with _ | fuel
    · omega
    exact ⟨[], line, col, rfl⟩
  | succ n ih =>
    intro fuel cs line col hn h1
    rcases cs with _ | ⟨c, cs2⟩
    · rcases fuel with _ | fuel
      · omega
      exact ⟨[], line, col, rfl⟩
    · rcases fuel with _ | fuel
      · simp at h1
      have hprog := scanStep_progress (c :: cs2) line col (by simp)
      show ∃ ts l cc, (match scanStep (c :: cs2) line col with
        | (some t, rest, l2, c2) => t :: lexGo fuel rest l2 c2
        | (none, rest, l2, c2) => lexGo fuel rest l2 c2) = ts ++ [⟨.eof, [], l, cc⟩]
      rcases hs : scanStep (c :: cs2) line col with ⟨ot, rest, l2, c2⟩
      rw [hs] at hprog
      simp only [List.length_cons] at h1 hn hprog
      obtain ⟨ts, l, cc, hts⟩ := ih fuel rest l2 c2 (by omega) (by omega)
      rcases ot with _ | t
      · exact ⟨ts, l, cc, hts⟩
      · refine ⟨t :: ts, l, cc, ?_⟩
        show t :: lexGo fuel rest l2 c2 = (t :: ts) ++ [⟨.eof, [], l, cc⟩]
        rw [hts]
        rfl


section BalanceCalculator

/-- Options of the balance calculator. -/
structure CalcOptions where
  includeSubaccounts : Bool := false
  asOfDate : Option DateY := none

/-- One position of `calculatePositions`. -/
structure Position where
  account : Str
  commodity : Str
  quantity : ℚ
deriving DecidableEq, Repr

/-- Date filter of the calculator: skip transactions strictly after the
cutoff. -/
def dateIncluded (opts : CalcOptions) (d : DateY) : Bool :=
  match opts.asOfDate with
  | none => true
  | some cutoff => !decide (cutoff.getTime < d.getTime)

/-- The position-map fold of `calculatePositions`: a map keyed by the
concatenation of account name, a colon and the commodity. -/
def positionMapOf (transactions : List Transaction) (opts : CalcOptions) :
    List (Str × ℚ) :=
  transactions.foldl
    (fun m txn =>
      if dateIncluded opts txn.date then
        txn.postings.foldl
          (fun m p =>
            omSet m (p.account ++ ':' :: p.commodity)
              ((omGet m (p.account ++ ':' :: p.commodity)).getD 0 + p.quantity)) m
      else m) []

/-- Model of `calculatePositions`: drop zero entries, then split the key at
its colons taking the last part as the commodity and rejoining the rest as
the account. -/
def calculatePositions (transactions : List Transaction) (opts : CalcOptions) :
    List Position :=
  (positionMapOf transactions opts).filterMap (fun kv =>
    if kv.2 = 0 then none
    else
      some { account := List.intercalate [':'] (splitOnChar ':' kv.1).dropLast
             commodity := (splitOnChar ':' kv.1).getLastD []
             quantity := kv.2 })

/-- The per-account balance fold of `calculateBalances`. -/
def balanceMapOf (positions : List Position) : List (Str × List (Str × ℚ)) :=
  positions.foldl
    (fun bm pos =>
      omSet bm pos.account
        (omSet ((omGet bm pos.account).getD []) pos.commodity
          (((omGet ((omGet bm pos.account).getD []) pos.commodity).getD 0) + pos.quantity)))
    []

/-- Model of `Account.parent` on a name: drop the last segment and rejoin,
or none for a single-segment name. -/
def parentName (name : Str) : Option Str :=
  if (splitOnChar ':' name).length ≤ 1 then none
  else some (List.intercalate [':'] (splitOnChar ':' name).dropLast)

/-- Body of the subaccount while loop: ensure the parent entry exists, then
add the current positions of the processed account into it (the child map is
re-read from the current balance map, as the source does). -/
def addIntoParent (bm : List (Str × List (Str × ℚ))) (accountName parent : Str) :
    List (Str × List (Str × ℚ)) :=
  let bm1 := if (omGet bm parent).isSome then bm else omSet bm parent []
  let merged := ((omGet bm1 accountName).getD []).foldl
    (fun pp kv => omSet pp kv.1 ((omGet pp kv.1).getD 0 + kv.2))
    ((omGet bm1 parent).getD [])
  omSet bm1 parent merged

/-- The parent-chain while loop of `calculateBalances`, with fuel bounded by
the segment count of the processed account. -/
def propagateUp : Nat → List (Str × List (Str × ℚ)) → Str → Option Str →
    List (Str × List (Str × ℚ))
  | 0, bm, _, _ => bm
  | _ + 1, bm, _, none => bm
  | fuel + 1, bm, accountName, some p =>
    propagateUp fuel (addIntoParent bm accountName p) accountName (parentName p)

/-- Model of `calculateBalances` as the account-to-positions map it builds:
fold positions per account, and with `includeSubaccounts` also propagate each
of the snapshot accounts up its parent chain.  The source finally sorts the
entries by locale-aware account-name comparison for display, which only
permutes the per-account entries and is omitted here. -/
def calculateBalances (transactions : List Transaction) (opts : CalcOptions) :
    List (Str × List (Str × ℚ)) :=
  let bm := balanceMapOf (calculatePositions transactions opts)
  if opts.includeSubaccounts then
    (omKeys bm).foldl
      (fun bm accountName =>
        propagateUp (splitOnChar ':' accountName).length bm accountName
          (parentName accountName))
      bm
  else bm

/-- Proper-ancestor test on account names, mirroring `Account.isDescendantOf`
(the ancestor has strictly fewer segments, all equal to the descendant's
leading segments). -/
def strictAncestorB (anc name : Str) : Bool :=
  decide ((splitOnChar ':' anc).length < (splitOnChar ':' name).length) &&
    decide ((splitOnChar ':' name).take (splitOnChar ':' anc).length = splitOnChar ':' anc)

/-- Specification-side sum of the direct position quantities of one account
and commodity. -/
def directPosSum (positions : List Position) (a c : Str) : ℚ :=
  ((positions.filter (fun p => decide (p.account = a) && decide (p.commodity = c))).map
    (·.quantity)).sum

/-- Balance lookup in the account-to-positions map, with zero for missing
entries. -/
def balValue (bm : List (Str × List (Str × ℚ))) (a c : Str) : ℚ :=
  ((omGet ((omGet bm a).getD []) c).getD 0)



theorem splitOnChar_ne_nil (sep : Char) (s : Str) : splitOnChar sep s ≠ [] := by
  induction s with
  | nil => simp [splitOnChar]
  | cons c cs ih =>
    simp only [splitOnChar]
    rcases hw : splitOnChar sep cs with _ | ⟨w, ws⟩
    · exact absurd hw ih
    · by_cases h : c = sep <;> simp [h]

theorem sep_not_mem_splitOnChar (sep : Char) (s : Str) :
    ∀ part ∈ splitOnChar sep s, sep ∉ part := by
  induction s with
  | nil => simp [splitOnChar]
  | cons c cs ih =>
    intro part hp
    simp only [splitOnChar] at hp
    rcases hw : splitOnChar sep cs with _ | ⟨w, ws⟩
    · exact absurd hw (splitOnChar_ne_nil sep cs)
    · rw [hw] at hp
      by_cases h : c = sep
      · simp only [h, if_true] at hp
        rcases List.mem_cons.mp hp with rfl | hp2
        · simp
        · exact ih part (hw ▸ hp2)
      · simp only [h, if_false] at hp
        rcases List.mem_cons.mp hp with rfl | hp2
        · intro hmem
          rcases List.mem_cons.mp hmem with he | hmem2
          · exact h he.symm
          · exact ih w (hw ▸ List.mem_cons_self _ _) hmem2
        · exact ih part (hw ▸ List.mem_cons_of_mem _ hp2)

theorem intercalate_two (sep : Str) (x y : Str) (zs : List Str) :
    List.intercalate sep (x :: y :: zs) = x ++ sep ++ List.intercalate sep (y :: zs) := by
  simp [List.intercalate, List.intersperse]

theorem intercalate_splitOnChar (sep : Char) (s : Str) :
    List.intercalate [sep] (splitOnChar sep s) = s := by
  induction s with
  | nil => simp [splitOnChar, List.intercalate]
  | cons c cs ih =>
    simp only [splitOnChar]
    rcases hw : splitOnChar sep cs with _ | ⟨w, ws⟩
    · exact absurd hw (splitOnChar_ne_nil sep cs)
    · rw [hw] at ih
      by_cases h : c = sep
      · simp only [h, if_true]
        rw [intercalate_two]
        simp only [List.nil_append, List.singleton_append]
        rw [ih]
      · simp only [h, if_false]
        cases ws with
        | nil =>
          simp only [List.intercalate, List.intersperse, List.flatten] at ih ⊢
          simp_all
        | cons y ys =>
          rw [intercalate_two] at ih ⊢
          simp only [List.cons_append, List.append_assoc] at ih ⊢
          rw [ih]

theorem splitOnChar_inj {sep : Char} {s t : Str}
    (h : splitOnChar sep s = splitOnChar sep t) : s = t := by
  rw [← intercalate_splitOnChar sep s, ← intercalate_splitOnChar sep t, h]

theorem splitOnChar_no_sep (sep : Char) (x : Str) (hx : sep ∉ x) :
    splitOnChar sep x = [x] := by
  induction x with
  | nil => simp [splitOnChar]
  | cons c cs ih =>
    have hc : c ≠ sep := fun he => hx (he ▸ List.mem_cons_self _ _)
    have hcs : sep ∉ cs := fun hm => hx (List.mem_cons_of_mem _ hm)
    simp only [splitOnChar, ih hcs, hc, if_false]

theorem splitOnChar_append_sep (sep : Char) (x r : Str) (hx : sep ∉ x) :
    splitOnChar sep (x ++ sep :: r) = x :: splitOnChar sep r := by
  induction x with
  | nil =>
    simp only [List.nil_append, splitOnChar]
    rcases hw : splitOnChar sep r with _ | ⟨w, ws⟩
    · exact absurd hw (splitOnChar_ne_nil sep r)
    · simp
  | cons c cs ih =>
    have hc : c ≠ sep := fun he => hx (he ▸ List.mem_cons_self _ _)
    have hcs : sep ∉ cs := fun hm => hx (List.mem_cons_of_mem _ hm)
    simp only [List.cons_append, splitOnChar, List.append_eq, ih hcs, hc, if_false]

theorem splitOnChar_intercalate (sep : Char) (l : List Str) (hne : l ≠ [])
    (hfree : ∀ part ∈ l, sep ∉ part) :
    splitOnChar sep (List.intercalate [sep] l) = l := by
  induction l with
  | nil => exact absurd rfl hne
  | cons x ys ih =>
    cases ys with
    | nil =>
      have : List.intercalate [sep] [x] = x := by simp [List.intercalate]
      rw [this, splitOnChar_no_sep sep x (hfree x (List.mem_cons_self _ _))]
    | cons y zs =>
      rw [intercalate_two]
      simp only [List.append_assoc, List.singleton_append]
      rw [splitOnChar_append_sep sep x _ (hfree x (List.mem_cons_self _ _)),
        ih (by simp) (fun p hp => hfree p (List.mem_cons_of_mem _ hp))]


theorem splitOnChar_parentJoin (s : Str) (h : 2 ≤ (splitOnChar ':' s).length) :
    splitOnChar ':' (List.intercalate [':'] (splitOnChar ':' s).dropLast) =
      (splitOnChar ':' s).dropLast := by
  apply splitOnChar_intercalate
  · intro he
    have := congrArg List.length he
    simp only [List.length_dropLast, List.length_nil] at this
    omega
  · intro part hp
    exact sep_not_mem_splitOnChar ':' s part (List.dropLast_sublist _ |>.subset hp)

theorem strictAncestorB_ne {a s : Str} (h : strictAncestorB a s = true) : a ≠ s := by
  intro he
  subst he
  simp only [strictAncestorB, Bool.and_eq_true, decide_eq_true_eq] at h
  omega

theorem strictAncestorB_irrefl (s : Str) : strictAncestorB s s = false := by
  by_contra h
  exact strictAncestorB_ne (by simpa using h) rfl

/-- Decomposition of the proper-ancestor relation: `a` is a proper ancestor
of `s` (with at least two segments) precisely when it is the parent of `s` or
a proper ancestor of that parent. -/
theorem strictAncestorB_step (a s : Str) (h2 : 2 ≤ (splitOnChar ':' s).length) :
    strictAncestorB a s = true ↔
      a = List.intercalate [':'] (splitOnChar ':' s).dropLast ∨
      strictAncestorB a (List.intercalate [':'] (splitOnChar ':' s).dropLast) = true := by
  have hP := splitOnChar_parentJoin s h2
  constructor
  · intro h
    simp only [strictAncestorB, Bool.and_eq_true, decide_eq_true_eq] at h
    obtain ⟨hlt, htake⟩ := h
    by_cases heq : (splitOnChar ':' a).length = (splitOnChar ':' s).length - 1
    · left
      apply @splitOnChar_inj ':'
      rw [hP, List.dropLast_eq_take, ← heq, htake]
    · right
      simp only [strictAncestorB, hP, Bool.and_eq_true, decide_eq_true_eq]
      have hlt2 : (splitOnChar ':' a).length < (splitOnChar ':' s).length - 1 := by omega
      refine ⟨by simpa [List.length_dropLast] using hlt2, ?_⟩
      rw [List.dropLast_eq_take, List.take_take]
      rw [min_eq_left (by omega)]
      exact htake
  · intro h
    rcases h with rfl | h
    · simp only [strictAncestorB, hP, Bool.and_eq_true, decide_eq_true_eq,
        List.length_dropLast]
      refine ⟨by omega, ?_⟩
      rw [List.dropLast_eq_take]
    · simp only [strictAncestorB, hP, Bool.and_eq_true, decide_eq_true_eq,
        List.length_dropLast] at h ⊢
      obtain ⟨hlt, htake⟩ := h
      refine ⟨by omega, ?_⟩
      rw [List.dropLast_eq_take, List.take_take, min_eq_left (by omega)] at htake
      exact htake

/-- Chain of iterated parents walked by the subaccount propagation loop. -/
def chainFrom : Nat → Option Str → List Str
  | 0, _ => []
  | _ + 1, none => []
  | fuel + 1, some p => p :: chainFrom fuel (parentName p)

theorem length_splitOnChar_pos (sep : Char) (s : Str) :
    0 < (splitOnChar sep s).length :=
  List.length_pos.mpr (splitOnChar_ne_nil sep s)

theorem mem_chainFrom (n : Nat) (s a : Str)
    (hn : (splitOnChar ':' s).length ≤ n + 1) :
    a ∈ chainFrom n (parentName s) ↔ strictAncestorB a s = true := by
  induction n generalizing s with
  | zero =>
    have h1 : (splitOnChar ':' s).length ≤ 1 := hn
    rw [parentName, if_pos h1]
    simp only [chainFrom, List.not_mem_nil, false_iff]
    intro hcon
    simp only [strictAncestorB, Bool.and_eq_true, decide_eq_true_eq] at hcon
    have := length_splitOnChar_pos ':' a
    omega
  | succ n ih =>
    by_cases h1 : (splitOnChar ':' s).length ≤ 1
    · rw [parentName, if_pos h1]
      simp only [chainFrom, List.not_mem_nil, false_iff]
      intro hcon
      simp only [strictAncestorB, Bool.and_eq_true, decide_eq_true_eq] at hcon
      have := length_splitOnChar_pos ':' a
      omega
    · have h2 : 2 ≤ (splitOnChar ':' s).length := by omega
      rw [parentName, if_neg h1]
      simp only [chainFrom, List.mem_cons]
      have hP := splitOnChar_parentJoin s h2
      have hlen : (splitOnChar ':'
          (List.intercalate [':'] (splitOnChar ':' s).dropLast)).length ≤ n + 1 := by
        rw [hP, List.length_dropLast]
        omega
      rw [ih _ hlen, strictAncestorB_step a s h2]

theorem nodup_chainFrom (n : Nat) (s : Str)
    (hn : (splitOnChar ':' s).length ≤ n + 1) :
    (chainFrom n (parentName s)).Nodup := by
  induction n generalizing s with
  | zero =>
    cases hp : parentName s <;> simp [chainFrom]
  | succ n ih =>
    by_cases h1 : (splitOnChar ':' s).length ≤ 1
    · rw [parentName, if_pos h1]
      simp [chainFrom]
    · have h2 : 2 ≤ (splitOnChar ':' s).length := by omega
      rw [parentName, if_neg h1]
      simp only [chainFrom, List.nodup_cons]
      have hP := splitOnChar_parentJoin s h2
      have hlen : (splitOnChar ':'
          (List.intercalate [':'] (splitOnChar ':' s).dropLast)).length ≤ n + 1 := by
        rw [hP, List.length_dropLast]
        omega
      refine ⟨?_, ih _ hlen⟩
      intro hmem
      rw [mem_chainFrom n _ _ hlen] at hmem
      exact strictAncestorB_ne hmem rfl


theorem mem_omSet {α : Type} {m : List (Str × α)} {k : Str} {v : α} {kv : Str × α}
    (h : kv ∈ omSet m k v) : kv ∈ m ∨ kv = (k, v) := by
  induction m with
  | nil =>
    right
    simpa [omSet] using h
  | cons kv0 rest ih =>
    by_cases h0 : kv0.1 = k
    · simp only [omSet, h0, if_true, List.mem_cons] at h
      rcases h with rfl | h
      · right; rfl
      · left; exact List.mem_cons_of_mem _ h
    · simp only [omSet, h0, if_false, List.mem_cons] at h
      rcases h with rfl | h
      · left; exact List.mem_cons_self _ _
      · rcases ih h with h2 | h2
        · left; exact List.mem_cons_of_mem _ h2
        · right; exact h2

/-- Sum of the values stored under one key of an inner commodity map. -/
def entrySum (l : List (Str × ℚ)) (c : Str) : ℚ :=
  ((l.filter (fun kv => decide (kv.1 = c))).map (·.2)).sum

theorem entrySum_nil (c : Str) : entrySum [] c = 0 := rfl

theorem entrySum_cons (kv : Str × ℚ) (l : List (Str × ℚ)) (c : Str) :
    entrySum (kv :: l) c = (if kv.1 = c then kv.2 else 0) + entrySum l c := by
  by_cases h : kv.1 = c <;> simp [entrySum, List.filter_cons, h]

theorem entrySum_eq_zero_of_not_mem {l : List (Str × ℚ)} {c : Str}
    (h : c ∉ omKeys l) : entrySum l c = 0 := by
  induction l with
  | nil => rfl
  | cons kv rest ih =>
    have h2 : c ∉ kv.1 :: omKeys rest := h
    rw [entrySum_cons,
      if_neg (fun he => h2 (by rw [← he]; exact List.mem_cons_self _ _)),
      ih (fun hm => h2 (List.mem_cons_of_mem _ hm))]
    ring

theorem entrySum_eq_omGet {l : List (Str × ℚ)} (c : Str) (h : (omKeys l).Nodup) :
    entrySum l c = (omGet l c).getD 0 := by
  induction l with
  | nil => rfl
  | cons kv rest ih =>
    have h2 : (kv.1 :: omKeys rest).Nodup := h
    obtain ⟨hh, ht⟩ := List.nodup_cons.mp h2
    rw [entrySum_cons, omGet_cons]
    by_cases hk : kv.1 = c
    · rw [if_pos hk, if_pos hk,
        entrySum_eq_zero_of_not_mem (fun hm => hh (by rw [hk]; exact hm))]
      simp
    · rw [if_neg hk, if_neg hk, ih ht]
      simp

theorem omGet_mergeFold (entries pInner : List (Str × ℚ)) (c : Str) :
    (omGet (entries.foldl
      (fun pp kv => omSet pp kv.1 ((omGet pp kv.1).getD 0 + kv.2)) pInner) c).getD 0 =
      (omGet pInner c).getD 0 + entrySum entries c := by
  induction entries generalizing pInner with
  | nil => simp [entrySum_nil]
  | cons kv rest ih =>
    simp only [List.foldl_cons]
    rw [ih, entrySum_cons, omGet_omSet]
    by_cases h : c = kv.1
    · rw [if_pos h, if_pos h.symm]
      subst h
      simp only [Option.getD_some]
      ring
    · rw [if_neg h, if_neg (fun he => h he.symm)]
      ring

theorem nodup_mergeFold (entries pInner : List (Str × ℚ))
    (h : (omKeys pInner).Nodup) :
    (omKeys (entries.foldl
      (fun pp kv => omSet pp kv.1 ((omGet pp kv.1).getD 0 + kv.2)) pInner)).Nodup := by
  induction entries generalizing pInner with
  | nil => exact h
  | cons kv rest ih => exact ih _ (nodup_omKeys_omSet _ _ h)

/-- Invariant that every inner commodity map of a balance map has distinct
keys. -/
def innerNodup (bm : List (Str × List (Str × ℚ))) : Prop :=
  ∀ kv ∈ bm, (omKeys kv.2).Nodup

theorem innerNodup_getD {bm : List (Str × List (Str × ℚ))} (h : innerNodup bm)
    (k : Str) : (omKeys ((omGet bm k).getD [])).Nodup := by
  rcases hg : omGet bm k with _ | ci
  · simp [omKeys]
  · simpa using h _ (omGet_mem hg)

theorem innerNodup_balFold (ps : List Position) (bm : List (Str × List (Str × ℚ)))
    (h : innerNodup bm) :
    innerNodup (ps.foldl
      (fun bm pos =>
        omSet bm pos.account
          (omSet ((omGet bm pos.account).getD []) pos.commodity
            (((omGet ((omGet bm pos.account).getD []) pos.commodity).getD 0) +
              pos.quantity))) bm) := by
  induction ps generalizing bm with
  | nil => exact h
  | cons p ps ih =>
    simp only [List.foldl_cons]
    apply ih
    intro kv hkv
    rcases mem_omSet hkv with h2 | h2
    · exact h kv h2
    · subst h2
      exact nodup_omKeys_omSet _ _ (innerNodup_getD h p.account)

theorem innerNodup_balanceMapOf (ps : List Position) :
    innerNodup (balanceMapOf ps) := by
  rw [balanceMapOf]
  exact innerNodup_balFold ps [] (by intro kv hkv; simp at hkv)

theorem balValue_omSet (bm : List (Str × List (Str × ℚ))) (k : Str)
    (v : List (Str × ℚ)) (a c : Str) :
    balValue (omSet bm k v) a c =
      if a = k then (omGet v c).getD 0 else balValue bm a c := by
  rw [balValue, omGet_omSet]
  by_cases h : a = k <;> simp [h, balValue]

theorem balValue_addIntoParent (bm : List (Str × List (Str × ℚ))) (k p a c : Str)
    (hkp : k ≠ p) (hin : innerNodup bm) :
    balValue (addIntoParent bm k p) a c =
      balValue bm a c + (if a = p then balValue bm k c else 0) := by
  have hchild_nd : (omKeys ((omGet bm k).getD [])).Nodup := innerNodup_getD hin k
  have hkpF : (k = p) = False := by simp [hkp]
  rcases hgp : omGet bm p with _ | pi
  · have hunf : addIntoParent bm k p =
        omSet (omSet bm p []) p (((omGet bm k).getD []).foldl
          (fun pp kv => omSet pp kv.1 ((omGet pp kv.1).getD 0 + kv.2)) []) := by
      simp only [addIntoParent, hgp, Option.isSome_none, Bool.false_eq_true, if_false,
        omGet_omSet, hkpF, eq_self_iff_true, if_true, Option.getD_some]
    rw [hunf, balValue_omSet]
    by_cases ha : a = p
    · rw [if_pos ha, omGet_mergeFold, entrySum_eq_omGet c hchild_nd, if_pos ha]
      subst ha
      rw [balValue, balValue, hgp]
      simp [omGet]
    · rw [if_neg ha, balValue_omSet, if_neg ha, if_neg ha]
      ring
  · have hunf : addIntoParent bm k p =
        omSet bm p (((omGet bm k).getD []).foldl
          (fun pp kv => omSet pp kv.1 ((omGet pp kv.1).getD 0 + kv.2)) pi) := by
      simp only [addIntoParent, hgp, Option.isSome_some, if_true, Option.getD_some]
    rw [hunf, balValue_omSet]
    by_cases ha : a = p
    · rw [if_pos ha, omGet_mergeFold, entrySum_eq_omGet c hchild_nd, if_pos ha]
      subst ha
      rw [balValue, balValue, hgp]
      simp only [Option.getD_some]
    · rw [if_neg ha, if_neg ha]
      ring

theorem innerNodup_addIntoParent (bm : List (Str × List (Str × ℚ))) (k p : Str)
    (h : innerNodup bm) : innerNodup (addIntoParent bm k p) := by
  have hbm1 : innerNodup (if (omGet bm p).isSome then bm else omSet bm p []) := by
    split
    · exact h
    · intro kv2 hkv2
      rcases mem_omSet hkv2 with h2 | h2
      · exact h _ h2
      · subst h2
        simp [omKeys]
  intro kv hkv
  simp only [addIntoParent] at hkv
  rcases mem_omSet hkv with h2 | h2
  · exact hbm1 _ h2
  · subst h2
    exact nodup_mergeFold _ _ (innerNodup_getD hbm1 p)

theorem innerNodup_propagateUp (fuel : Nat) (bm : List (Str × List (Str × ℚ)))
    (k : Str) (po : Option Str) (h : innerNodup bm) :
    innerNodup (propagateUp fuel bm k po) := by
  induction fuel generalizing bm po with
  | zero => exact h
  | succ n ih =>
    cases po with
    | none => exact h
    | some p => exact ih _ _ (innerNodup_addIntoParent bm k p h)

theorem balValue_propagateUp (fuel : Nat) (bm : List (Str × List (Str × ℚ)))
    (k : Str) (po : Option Str) (a c : Str)
    (hin : innerNodup bm)
    (hk : ∀ q ∈ chainFrom fuel po, q ≠ k)
    (hnd : (chainFrom fuel po).Nodup) :
    balValue (propagateUp fuel bm k po) a c =
      balValue bm a c + (if a ∈ chainFrom fuel po then balValue bm k c else 0) := by
  induction fuel generalizing bm po with
  | zero => simp [propagateUp, chainFrom]
  | succ n ih =>
    cases po with
    | none => simp [propagateUp, chainFrom]
    | some p =>
      have hchain : chainFrom (n + 1) (some p) = p :: chainFrom n (parentName p) := rfl
      rw [hchain] at hk hnd ⊢
      have hpk : p ≠ k := hk p (List.mem_cons_self _ _)
      have hkp : k ≠ p := fun he => hpk he.symm
      have hnotp : p ∉ chainFrom n (parentName p) := (List.nodup_cons.mp hnd).1
      have hin' := innerNodup_addIntoParent bm k p hin
      show balValue (propagateUp n (addIntoParent bm k p) k (parentName p)) a c = _
      rw [ih (addIntoParent bm k p) (parentName p) hin'
        (fun q hq => hk q (List.mem_cons_of_mem _ hq)) (List.nodup_cons.mp hnd).2]
      rw [balValue_addIntoParent bm k p a c hkp hin,
        balValue_addIntoParent bm k p k c hkp hin, if_neg hkp]
      by_cases hap : a = p
      · subst hap
        rw [if_neg hnotp, if_pos (List.mem_cons_self _ _), if_pos rfl]
        ring
      · rw [if_neg hap]
        by_cases hmem : a ∈ chainFrom n (parentName p)
        · rw [if_pos hmem, if_pos (List.mem_cons_of_mem _ hmem)]
          ring
        · rw [if_neg hmem, if_neg (fun hx => by
            rcases List.mem_cons.mp hx with he | he
            · exact hap he
            · exact hmem he)]
          ring

theorem directPosSum_nil (a c : Str) : directPosSum [] a c = 0 := rfl

theorem directPosSum_cons (p : Position) (ps : List Position) (a c : Str) :
    directPosSum (p :: ps) a c =
      (if p.account = a ∧ p.commodity = c then p.quantity else 0) +
        directPosSum ps a c := by
  by_cases h1 : p.account = a <;> by_cases h2 : p.commodity = c <;>
    simp [directPosSum, List.filter_cons, h1, h2]

theorem balValue_balFold (ps : List Position) (bm : List (Str × List (Str × ℚ)))
    (a c : Str) :
    balValue (ps.foldl
      (fun bm pos =>
        omSet bm pos.account
          (omSet ((omGet bm pos.account).getD []) pos.commodity
            (((omGet ((omGet bm pos.account).getD []) pos.commodity).getD 0) +
              pos.quantity))) bm) a c =
      balValue bm a c + directPosSum ps a c := by
  induction ps generalizing bm with
  | nil => simp [directPosSum_nil]
  | cons p ps ih =>
    simp only [List.foldl_cons]
    rw [ih, directPosSum_cons, balValue_omSet]
    by_cases h1 : a = p.account
    · rw [if_pos h1, omGet_omSet]
      by_cases h2 : c = p.commodity
      · rw [if_pos h2]
        subst h1
        subst h2
        rw [if_pos ⟨rfl, rfl⟩]
        simp only [Option.getD_some]
        rw [balValue]
        ring
      · rw [if_neg h2, if_neg (fun hx => h2 hx.2.symm)]
        subst h1
        rw [balValue]
        ring
    · rw [if_neg h1, if_neg (fun hx => h1 hx.1.symm)]
      ring

theorem balValue_balanceMapOf (ps : List Position) (a c : Str) :
    balValue (balanceMapOf ps) a c = directPosSum ps a c := by
  rw [balanceMapOf, balValue_balFold]
  have h0 : balValue ([] : List (Str × List (Str × ℚ))) a c = 0 := rfl
  rw [h0]
  ring

theorem balValue_keysFold (ks : List Str) (bm : List (Str × List (Str × ℚ)))
    (a c : Str) (w : Str → ℚ)
    (hin : innerNodup bm)
    (hsame : ∀ k ∈ ks, balValue bm k c = w k)
    (hpair : ks.Pairwise (fun j k => strictAncestorB k j = false)) :
    balValue (ks.foldl
      (fun bm accountName =>
        propagateUp (splitOnChar ':' accountName).length bm accountName
          (parentName accountName)) bm) a c =
      balValue bm a c + ((ks.filter (fun k => strictAncestorB a k)).map w).sum := by
  induction ks generalizing bm with
  | nil => simp
  | cons k ks ih =>
    simp only [List.foldl_cons]
    obtain ⟨hpair1, hpair2⟩ := List.pairwise_cons.mp hpair
    have hmemiff : ∀ x, x ∈ chainFrom (splitOnChar ':' k).length (parentName k) ↔
        strictAncestorB x k = true :=
      fun x => mem_chainFrom _ k x (by omega)
    have hndch := nodup_chainFrom (splitOnChar ':' k).length k (by omega)
    have hkch : ∀ q ∈ chainFrom (splitOnChar ':' k).length (parentName k), q ≠ k :=
      fun q hq => strictAncestorB_ne ((hmemiff q).mp hq)
    have hprop := fun (x : Str) =>
      balValue_propagateUp (splitOnChar ':' k).length bm k (parentName k) x c
        hin hkch hndch
    have hin' := innerNodup_propagateUp (splitOnChar ':' k).length bm k (parentName k) hin
    have hsame' : ∀ k2 ∈ ks,
        balValue (propagateUp (splitOnChar ':' k).length bm k (parentName k)) k2 c =
          w k2 := by
      intro k2 hk2
      rw [hprop k2,
        if_neg (fun hx => by
          have hb := (hmemiff k2).mp hx
          rw [hpair1 k2 hk2] at hb
          exact Bool.false_ne_true hb),
        add_zero]
      exact hsame k2 (List.mem_cons_of_mem _ hk2)
    rw [ih _ hin' hsame' hpair2, hprop a, List.filter_cons]
    by_cases hak : strictAncestorB a k = true
    · rw [if_pos hak, if_pos ((hmemiff a).mpr hak), List.map_cons, List.sum_cons,
        hsame k (List.mem_cons_self _ _)]
      ring
    · rw [if_neg hak, if_neg (fun hx => hak ((hmemiff a).mp hx))]
      ring

/-- C4 (amended): with `includeSubaccounts`, whenever no account in the
position map is preceded by one of its strict descendants in first-occurrence
order, `calculateBalances` reports for every account and commodity the sum of
the direct position quantities of the account itself and of all of its
descendant accounts, each counted exactly once.  Without that ordering
hypothesis the claim is false: the propagation loop re-reads mutated child
maps and double-counts, see the counterexample. -/
theorem c4_subaccount_balances (txs : List Transaction) (opts : CalcOptions)
    (hopt : opts.includeSubaccounts = true)
    (horder : (omKeys (balanceMapOf (calculatePositions txs opts))).Pairwise
      (fun j k => strictAncestorB k j = false)) (a c : Str) :
    balValue (calculateBalances txs opts) a c =
      directPosSum (calculatePositions txs opts) a c +
        (((omKeys (balanceMapOf (calculatePositions txs opts))).filter
            (fun k => strictAncestorB a k)).map
          (fun k => directPosSum (calculatePositions txs opts) k c)).sum := by
  simp only [calculateBalances, hopt, eq_self_iff_true, if_true]
  rw [balValue_keysFold _ _ a c (fun k => directPosSum (calculatePositions txs opts) k c)
    (innerNodup_balanceMapOf _) (fun k _ => balValue_balanceMapOf _ k c) horder]
  rw [balValue_balanceMapOf]


/-- Two balanced transactions whose first-appearing account is a grandchild
(`Assets:B:C`) of an account (`Assets:B`) that only appears later. -/
def c4txs : List Transaction :=
  [ { id := "1".data, date := ⟨2024, 1, 1⟩, description := "first".data,
      postings := [ { account := "Assets:B:C".data, commodity := "$".data, quantity := 5 },
                    { account := "Equity".data, commodity := "$".data, quantity := -5 } ] },
    { id := "2".data, date := ⟨2024, 1, 2⟩, description := "second".data,
      postings := [ { account := "Assets:B".data, commodity := "$".data, quantity := 3 },
                    { account := "Equity".data, commodity := "$".data, quantity := -3 } ] } ]

/-- The same two transactions with the ancestor account `Assets:B` appearing
before its descendant `Assets:B:C`. -/
def c4txsOrdered : List Transaction :=
  [ { id := "1".data, date := ⟨2024, 1, 1⟩, description := "first".data,
      postings := [ { account := "Assets:B".data, commodity := "$".data, quantity := 3 },
                    { account := "Equity".data, commodity := "$".data, quantity := -3 } ] },
    { id := "2".data, date := ⟨2024, 1, 2⟩, description := "second".data,
      postings := [ { account := "Assets:B:C".data, commodity := "$".data, quantity := 5 },
                    { account := "Equity".data, commodity := "$".data, quantity := -5 } ] } ]

/-- Concrete evaluation of the position list of the counterexample
transactions. -/
theorem c4txs_positions : calculatePositions c4txs ⟨true, none⟩ =
    [ ⟨"Assets:B:C".data, "$".data, 5⟩, ⟨"Equity".data, "$".data, -8⟩,
      ⟨"Assets:B".data, "$".data, 3⟩ ] := by
  have hpm : positionMapOf c4txs ⟨true, none⟩ =
      [("Assets:B:C:$".data, (5:ℚ)), ("Equity:$".data, (-8:ℚ)), ("Assets:B:$".data, (3:ℚ))] := by
    have h0 : positionMapOf c4txs ⟨true, none⟩ =
        [("Assets:B:C:$".data, (0:ℚ)+5), ("Equity:$".data, ((0:ℚ)+(-5))+(-3)),
         ("Assets:B:$".data, (0:ℚ)+3)] := by rfl
    rw [h0]
    norm_num
  rw [calculatePositions, hpm]
  have e1 : ((5:ℚ) = 0) = False := by norm_num
  have e2 : ((-8:ℚ) = 0) = False := by norm_num
  have e3 : ((3:ℚ) = 0) = False := by norm_num
  simp only [List.filterMap_cons, List.filterMap_nil, e1, e2, e3, if_false]
  decide

/-- Concrete evaluation of the position list of the ancestor-first
transactions. -/
theorem c4txsOrdered_positions : calculatePositions c4txsOrdered ⟨true, none⟩ =
    [ ⟨"Assets:B".data, "$".data, 3⟩, ⟨"Equity".data, "$".data, -8⟩,
      ⟨"Assets:B:C".data, "$".data, 5⟩ ] := by
  have hpm : positionMapOf c4txsOrdered ⟨true, none⟩ =
      [("Assets:B:$".data, (3:ℚ)), ("Equity:$".data, (-8:ℚ)), ("Assets:B:C:$".data, (5:ℚ))] := by
    have h0 : positionMapOf c4txsOrdered ⟨true, none⟩ =
        [("Assets:B:$".data, (0:ℚ)+3), ("Equity:$".data, ((0:ℚ)+(-3))+(-5)),
         ("Assets:B:C:$".data, (0:ℚ)+5)] := by rfl
    rw [h0]
    norm_num
  rw [calculatePositions, hpm]
  have e1 : ((3:ℚ) = 0) = False := by norm_num
  have e2 : ((-8:ℚ) = 0) = False := by norm_num
  have e3 : ((5:ℚ) = 0) = False := by norm_num
  simp only [List.filterMap_cons, List.filterMap_nil, e1, e2, e3, if_false]
  decide

/-- C4 counterexample: for `c4txs` the computed `Assets` balance is 13 while
the sum over the `Assets` subtree of direct position quantities is 8, because
the already-augmented positions of `Assets:B` (which received those of
`Assets:B:C` first) are propagated into `Assets` a second time. -/
theorem c4_subaccount_balances_counterexample :
    balValue (calculateBalances c4txs ⟨true, none⟩) "Assets".data "$".data = 13 ∧
    directPosSum (calculatePositions c4txs ⟨true, none⟩) "Assets".data "$".data +
      (((omKeys (balanceMapOf (calculatePositions c4txs ⟨true, none⟩))).filter
          (fun k => strictAncestorB "Assets".data k)).map
        (fun k => directPosSum (calculatePositions c4txs ⟨true, none⟩) k "$".data)).sum = 8 ∧
    (13 : ℚ) ≠ 8 := by
  have hpos := c4txs_positions
  refine ⟨?_, ?_, by norm_num⟩
  · have hval : balValue (calculateBalances c4txs ⟨true, none⟩) "Assets".data "$".data =
        ((0:ℚ) + ((0:ℚ) + 5)) + (((0:ℚ) + 3) + ((0:ℚ) + 5)) := by
      rw [calculateBalances, hpos]
      rfl
    rw [hval]
    norm_num
  · rw [hpos]
    have hkeys : omKeys (balanceMapOf
        [ (⟨"Assets:B:C".data, "$".data, 5⟩ : Position), ⟨"Equity".data, "$".data, -8⟩,
          ⟨"Assets:B".data, "$".data, 3⟩ ]) =
        ["Assets:B:C".data, "Equity".data, "Assets:B".data] := by rfl
    rw [hkeys]
    have hfil : (["Assets:B:C".data, "Equity".data, "Assets:B".data].filter
        (fun k => strictAncestorB "Assets".data k)) =
        ["Assets:B:C".data, "Assets:B".data] := by decide
    rw [hfil]
    simp only [List.map_cons, List.map_nil, List.sum_cons, List.sum_nil]
    have d0 : directPosSum
        [ (⟨"Assets:B:C".data, "$".data, 5⟩ : Position), ⟨"Equity".data, "$".data, -8⟩,
          ⟨"Assets:B".data, "$".data, 3⟩ ] "Assets".data "$".data = 0 := rfl
    have d1 : directPosSum
        [ (⟨"Assets:B:C".data, "$".data, 5⟩ : Position), ⟨"Equity".data, "$".data, -8⟩,
          ⟨"Assets:B".data, "$".data, 3⟩ ] "Assets:B:C".data "$".data = 5 + 0 := rfl
    have d2 : directPosSum
        [ (⟨"Assets:B:C".data, "$".data, 5⟩ : Position), ⟨"Equity".data, "$".data, -8⟩,
          ⟨"Assets:B".data, "$".data, 3⟩ ] "Assets:B".data "$".data = 3 + 0 := rfl
    rw [d0, d1, d2]
    norm_num

/-- C4 witness: the ordering hypothesis holds for `c4txsOrdered` and the
amended theorem applies to it. -/
theorem c4_subaccount_balances_witness :
    (omKeys (balanceMapOf (calculatePositions c4txsOrdered ⟨true, none⟩))).Pairwise
      (fun j k => strictAncestorB k j = false) ∧
    balValue (calculateBalances c4txsOrdered ⟨true, none⟩) "Assets".data "$".data =
      directPosSum (calculatePositions c4txsOrdered ⟨true, none⟩) "Assets".data "$".data +
        (((omKeys (balanceMapOf (calculatePositions c4txsOrdered ⟨true, none⟩))).filter
            (fun k => strictAncestorB "Assets".data k)).map
          (fun k => directPosSum (calculatePositions c4txsOrdered ⟨true, none⟩) k "$".data)).sum := by
  have hp : (omKeys (balanceMapOf (calculatePositions c4txsOrdered ⟨true, none⟩))).Pairwise
      (fun j k => strictAncestorB k j = false) := by
    rw [c4txsOrdered_positions]
    decide
  exact ⟨hp, c4_subaccount_balances c4txsOrdered ⟨true, none⟩ rfl hp "Assets".data "$".data⟩

end BalanceCalculator

section ParserModel

/-- A structural parse error with the line and column of the current token. -/
structure PError where
  message : Str
  line : Nat
  column : Nat
deriving DecidableEq, Repr

/-- Default token used when peeking past the end of the token buffer; the
token stream always ends with EOF, so this is never reached on real input. -/
def peekTok (ts : List Token) : Token := ts.headD ⟨.eof, [], 0, 0⟩

/-- Model of `check`: false at the end of input (EOF), else compare the
current token type. -/
def checkTok (t : TokType) (ts : List Token) : Bool :=
  !decide ((peekTok ts).type = .eof) && decide ((peekTok ts).type = t)

/-- Model of `skipNewlines`. -/
def skipNewlines (ts : List Token) : List Token :=
  ts.dropWhile (fun tok => checkTok .newline (tok :: []))

/-- Tokens remaining after the loop of `skipLine` and `skipToEndOfLine`:
advance while not at end and not at a NEWLINE token. -/
def skipToEol (ts : List Token) : List Token :=
  ts.dropWhile (fun tok => !decide (tok.type = .newline) && !decide (tok.type = .eof))

/-- Model of `skipLine`: skip to the end of the line, then consume the
NEWLINE when present. -/
def skipLine (ts : List Token) : List Token :=
  if checkTok .newline (skipToEol ts) then (skipToEol ts).tail else skipToEol ts

/-- Model of `parseNumberValue`: an optional MINUS token prepends a sign to
the required NUMBER token value. -/
def parseNumberValue (ts : List Token) : Except PError (Str × List Token) :=
  if checkTok .minus ts then
    if checkTok .number ts.tail then
      .ok ('-' :: (peekTok ts.tail).value, ts.tail.tail)
    else
      .error ⟨"Expected number".data, (peekTok ts.tail).line, (peekTok ts.tail).column⟩
  else
    if checkTok .number ts then
      .ok ((peekTok ts).value, ts.tail)
    else
      .error ⟨"Expected number".data, (peekTok ts).line, (peekTok ts).column⟩

/-- Model of `parseCommoditySymbol`: a QUOTED_COMMODITY has its surrounding
quotes removed (`slice(1, -1)`), a COMMODITY is taken verbatim. -/
def parseCommoditySymbol (ts : List Token) : Except PError (Str × List Token) :=
  if checkTok .quotedCommodity ts then
    .ok (((peekTok ts).value.drop 1).dropLast, ts.tail)
  else if checkTok .commodity ts then
    .ok ((peekTok ts).value, ts.tail)
  else
    .error ⟨"Expected commodity symbol".data, (peekTok ts).line, (peekTok ts).column⟩

/-- Final step of `parseAmount`: when the number literal itself begins with a
minus, flip the negative flag (double negative cancels) and strip the sign
character from the quantity string. -/
def finalizeAmount (commodity quantity : Str) (isNeg : Bool) (cpos : CPos)
    (rest : List Token) : Except PError (AmountNode × List Token) :=
  if startsWith "-".data quantity then
    .ok ({ quantity := quantity.drop 1, commodity := commodity,
           isNegative := !isNeg, commodityPosition := cpos }, rest)
  else
    .ok ({ quantity := quantity, commodity := commodity,
           isNegative := isNeg, commodityPosition := cpos }, rest)

/-- Continuation of `parseAmount` after a leading non-dollar commodity
symbol: a number (or minus then number) is required to follow. -/
def parseAmountCommodityFirst (sym : Str) (isNeg : Bool) (ts2 : List Token) :
    Except PError (AmountNode × List Token) :=
  if checkTok .number ts2 || checkTok .minus ts2 then
    match parseNumberValue ts2 with
    | .error e => .error e
    | .ok (q, ts3) => finalizeAmount sym q isNeg .pre ts3
  else
    .error ⟨"Expected number after commodity".data,
      (peekTok ts2).line, (peekTok ts2).column⟩

/-- Continuation of `parseAmount` after a leading number: an optional suffix
commodity, else the default commodity `$` in prefix position. -/
def parseAmountNumberFirst (q : Str) (isNeg : Bool) (ts2 : List Token) :
    Except PError (AmountNode × List Token) :=
  if checkTok .commodity ts2 || checkTok .quotedCommodity ts2 then
    match parseCommoditySymbol ts2 with
    | .error e => .error e
    | .ok (sym, ts3) => finalizeAmount sym q isNeg .suf ts3
  else finalizeAmount "$".data q isNeg .pre ts2

/-- Model of `parseAmount`: an optional leading MINUS, then the dollar-prefix
form, the commodity-first form (number required), or the number-first form
with an optional suffix commodity (default commodity `$`). -/
def parseAmount (ts : List Token) : Except PError (AmountNode × List Token) :=
  let isNeg := checkTok .minus ts
  let ts1 := if checkTok .minus ts then ts.tail else ts
  if checkTok .commodity ts1 && decide ((peekTok ts1).value = "$".data) then
    match parseNumberValue ts1.tail with
    | .error e => .error e
    | .ok (q, ts2) => finalizeAmount "$".data q isNeg .pre ts2
  else if checkTok .commodity ts1 || checkTok .quotedCommodity ts1 then
    match parseCommoditySymbol ts1 with
    | .error e => .error e
    | .ok (sym, ts2) => parseAmountCommodityFirst sym isNeg ts2
  else if checkTok .number ts1 then
    match parseNumberValue ts1 with
    | .error e => .error e
    | .ok (q, ts2) => parseAmountNumberFirst q isNeg ts2
  else
    .error ⟨"Expected amount".data, (peekTok ts1).line, (peekTok ts1).column⟩

end ParserModel

/-- C6 counterexample: on the input consisting of one vertical-tab character,
the fallback TEXT rule produces a token whose value is empty (the consumed
character is stripped by `trim`), contradicting the claim that the fallback
TEXT token is always non-empty. -/
theorem c6_lexer_counterexample :
    ∃ t ∈ tokenize "\x0B".data, t.type = .text ∧ t.value = [] := by decide

/-- C6 (amended): for every input the lexer terminates and never raises:
every `scanToken` call on remaining input consumes at least one character, the
token loop is independent of the fuel once it exceeds the input length, and
the token stream always ends with an EOF token.  The fallback TEXT rule also
always consumes at least one character, but the token value it stores is the
trimmed text, which can be empty. -/
theorem c6_lexer_termination :
    (∀ (cs : Str) (line col : Nat), cs ≠ [] →
      (scanStep cs line col).2.1.length < cs.length) ∧
    (∀ (input : Str) (fuel : Nat), input.length < fuel →
      lexGo fuel input 1 1 = tokenize input) ∧
    (∀ input : Str, ∃ (ts : List Token) (l c : Nat),
      tokenize input = ts ++ [⟨.eof, [], l, c⟩]) := by
  refine ⟨scanStep_progress, ?_, ?_⟩
  · intro input fuel h
    exact lexGo_fuel_irrel input.length fuel (input.length + 1) input 1 1 le_rfl h (by omega)
  · intro input
    exact lexGo_ends_eof input.length (input.length + 1) input 1 1 le_rfl (by omega)

/-- C6 witness: the progress and fuel-independence facts at a concrete
input. -/
theorem c6_lexer_termination_witness :
    (scanStep "ab".data 1 1).2.1.length < ("ab".data).length ∧
    lexGo 5 "ab".data 1 1 = tokenize "ab".data :=
  ⟨c6_lexer_termination.1 "ab".data 1 1 (by decide),
   c6_lexer_termination.2.1 "ab".data 5 (by decide)⟩



theorem startsWith_minus_headD (q : Str) :
    startsWith "-".data q = true ↔ q.headD '\x00' = '-' := by
  rcases q with _ | ⟨c, r⟩
  · simp [startsWith]
  · simp [startsWith, List.take]

theorem parseNumberValue_ok {ts : List Token} {q : Str} {rest : List Token}
    (h : parseNumberValue ts = .ok (q, rest)) :
    ∃ t ∈ ts, t.type = .number ∧ (q = t.value ∨ q = '-' :: t.value) := by
  rw [parseNumberValue] at h
  by_cases hm : checkTok .minus ts = true
  · rw [if_pos hm] at h
    by_cases hn : checkTok .number ts.tail = true
    · rw [if_pos hn] at h
      simp only [Except.ok.injEq, Prod.mk.injEq] at h
      refine ⟨peekTok ts.tail, ?_, ?_, Or.inr h.1.symm⟩
      · rcases ts with _ | ⟨t0, ts2⟩
        · simp [checkTok, peekTok] at hm
        · rcases ts2 with _ | ⟨t1, ts3⟩
          · simp [checkTok, peekTok] at hn
          · exact List.mem_cons_of_mem _ (List.mem_cons_self _ _)
      · simp only [checkTok, Bool.and_eq_true, decide_eq_true_eq] at hn
        exact hn.2
    · rw [if_neg hn] at h
      cases h
  · rw [if_neg hm] at h
    by_cases hn : checkTok .number ts = true
    · rw [if_pos hn] at h
      simp only [Except.ok.injEq, Prod.mk.injEq] at h
      refine ⟨peekTok ts, ?_, ?_, Or.inl h.1.symm⟩
      · rcases ts with _ | ⟨t0, ts2⟩
        · simp [checkTok, peekTok] at hn
        · exact List.mem_cons_self _ _
      · simp only [checkTok, Bool.and_eq_true, decide_eq_true_eq] at hn
        exact hn.2
    · rw [if_neg hn] at h
      cases h

theorem parseCommoditySymbol_rest {ts : List Token} {sym : Str} {rest : List Token}
    (h : parseCommoditySymbol ts = .ok (sym, rest)) : rest = ts.tail := by
  rw [parseCommoditySymbol] at h
  by_cases hq : checkTok .quotedCommodity ts = true
  · rw [if_pos hq] at h
    simp only [Except.ok.injEq, Prod.mk.injEq] at h
    exact h.2.symm
  · rw [if_neg hq] at h
    by_cases hc : checkTok .commodity ts = true
    · rw [if_pos hc] at h
      simp only [Except.ok.injEq, Prod.mk.injEq] at h
      exact h.2.symm
    · rw [if_neg hc] at h
      cases h

theorem finalizeAmount_no_minus {c q : Str} {n : Bool} {p : CPos} {rest : List Token}
    {amt : AmountNode} {rest2 : List Token} {v : Str}
    (hqv : q = v ∨ q = '-' :: v) (hv : ¬ v.headD '\x00' = '-')
    (h : finalizeAmount c q n p rest = .ok (amt, rest2)) :
    ¬ amt.quantity.headD '\x00' = '-' := by
  rw [finalizeAmount] at h
  by_cases hs : startsWith "-".data q = true
  · rw [if_pos hs] at h
    simp only [Except.ok.injEq, Prod.mk.injEq] at h
    rcases hqv with h1 | h1
    · rw [h1] at hs
      exact absurd ((startsWith_minus_headD _).mp hs) hv
    · rw [← h.1, h1]
      simpa using hv
  · rw [if_neg hs] at h
    simp only [Except.ok.injEq, Prod.mk.injEq] at h
    rcases hqv with h1 | h1
    · rw [← h.1, h1]
      simpa using hv
    · rw [h1] at hs
      exact absurd ((startsWith_minus_headD _).mpr (by simp)) hs

theorem parseAmountCommodityFirst_no_minus {sym : Str} {n : Bool} {ts2 : List Token}
    {amt : AmountNode} {rest : List Token}
    (hts : ∀ t ∈ ts2, t.type = .number → ¬ t.value.headD '\x00' = '-')
    (h : parseAmountCommodityFirst sym n ts2 = .ok (amt, rest)) :
    ¬ amt.quantity.headD '\x00' = '-' := by
  rw [parseAmountCommodityFirst] at h
  by_cases hb : (checkTok .number ts2 || checkTok .minus ts2) = true
  · rw [if_pos hb] at h
    rcases hpn : parseNumberValue ts2 with e | ⟨q, ts3⟩
    · rw [hpn] at h
      exact Except.noConfusion h
    · rw [hpn] at h
      obtain ⟨t, htm, htn, hqv⟩ := parseNumberValue_ok hpn
      exact finalizeAmount_no_minus hqv (hts t htm htn) h
  · rw [if_neg hb] at h
    cases h

theorem parseAmountNumberFirst_no_minus {q : Str} {n : Bool} {ts2 : List Token}
    {amt : AmountNode} {rest : List Token} {v : Str}
    (hqv : q = v ∨ q = '-' :: v) (hv : ¬ v.headD '\x00' = '-')
    (h : parseAmountNumberFirst q n ts2 = .ok (amt, rest)) :
    ¬ amt.quantity.headD '\x00' = '-' := by
  rw [parseAmountNumberFirst] at h
  by_cases hb : (checkTok .commodity ts2 || checkTok .quotedCommodity ts2) = true
  · rw [if_pos hb] at h
    rcases hcs : parseCommoditySymbol ts2 with e | ⟨sym, ts3⟩
    · rw [hcs] at h
      exact Except.noConfusion h
    · rw [hcs] at h
      exact finalizeAmount_no_minus hqv hv h
  · rw [if_neg hb] at h
    exact finalizeAmount_no_minus hqv hv h

theorem parseAmount_quantity_no_minus {ts : List Token} {amt : AmountNode}
    {rest : List Token}
    (hts : ∀ t ∈ ts, t.type = .number → ¬ t.value.headD '\x00' = '-')
    (h : parseAmount ts = .ok (amt, rest)) :
    ¬ amt.quantity.headD '\x00' = '-' := by
  rw [parseAmount] at h
  generalize hg : (if checkTok .minus ts = true then ts.tail else ts) = ts1 at h
  have hsub1 : ts1 ⊆ ts := by
    rw [← hg]
    split
    · exact (List.tail_sublist _).subset
    · exact fun a ha => ha
  by_cases hb1 : (checkTok .commodity ts1 && decide ((peekTok ts1).value = "$".data)) = true
  · rw [if_pos hb1] at h
    rcases hpn : parseNumberValue ts1.tail with e | ⟨q, ts2⟩
    · rw [hpn] at h
      exact Except.noConfusion h
    · rw [hpn] at h
      obtain ⟨t, htm, htn, hqv⟩ := parseNumberValue_ok hpn
      exact finalizeAmount_no_minus hqv
        (hts t (hsub1 ((List.tail_sublist _).subset htm)) htn) h
  · rw [if_neg hb1] at h
    by_cases hb2 : (checkTok .commodity ts1 || checkTok .quotedCommodity ts1) = true
    · rw [if_pos hb2] at h
      rcases hcs : parseCommoditySymbol ts1 with e | ⟨sym, ts2⟩
      · rw [hcs] at h
        exact Except.noConfusion h
      · rw [hcs] at h
        have hrest := parseCommoditySymbol_rest hcs
        refine parseAmountCommodityFirst_no_minus ?_ h
        intro t htm htn
        rw [hrest] at htm
        exact hts t (hsub1 ((List.tail_sublist _).subset htm)) htn
    · rw [if_neg hb2] at h
      by_cases hb3 : checkTok .number ts1 = true
      · rw [if_pos hb3] at h
        rcases hpn : parseNumberValue ts1 with e | ⟨q, ts2⟩
        · rw [hpn] at h
          exact Except.noConfusion h
        · rw [hpn] at h
          obtain ⟨t, htm, htn, hqv⟩ := parseNumberValue_ok hpn
          exact parseAmountNumberFirst_no_minus hqv (hts t (hsub1 htm) htn) h
      · rw [if_neg hb3] at h
        cases h



theorem parseAmount_minus_minus (q : Str) (l1 c1 l2 c2 l3 c3 l4 c4 : Nat) (rest : List Token) :
    parseAmount (⟨.minus, "-".data, l1, c1⟩ :: ⟨.commodity, "$".data, l2, c2⟩ ::
        ⟨.minus, "-".data, l3, c3⟩ :: ⟨.number, q, l4, c4⟩ :: rest) =
      .ok ({ quantity := q, commodity := "$".data, isNegative := false,
             commodityPosition := .pre }, rest) := by
  simp [parseAmount, parseNumberValue, checkTok, peekTok, finalizeAmount, startsWith]

theorem parseAmount_minus_plain (q : Str) (l1 c1 l2 c2 l4 c4 : Nat) (rest : List Token)
    (hq : ¬ q.headD '\x00' = '-') :
    parseAmount (⟨.minus, "-".data, l1, c1⟩ :: ⟨.commodity, "$".data, l2, c2⟩ ::
        ⟨.number, q, l4, c4⟩ :: rest) =
      .ok ({ quantity := q, commodity := "$".data, isNegative := true,
             commodityPosition := .pre }, rest) := by
  have hs : startsWith "-".data q = false := by
    rw [← Bool.not_eq_true, startsWith_minus_headD]
    exact hq
  simp [parseAmount, parseNumberValue, checkTok, peekTok, finalizeAmount, hs]


/-- C7: lexing and parsing the posting amount text `-$ 100` yields an amount
with the negative flag set, quantity `100` and commodity `$`; a leading minus
sign on the number literal itself is folded into the negative flag by
exclusive or (a minus token combined with a negative literal yields a
positive amount), and the minus character is always stripped from the stored
quantity whenever the number tokens themselves carry no leading minus. -/
theorem c7_amount_sign_parsing :
    (parseAmount (tokenize "-$ 100".data) =
      .ok ({ quantity := "100".data, commodity := "$".data, isNegative := true,
             commodityPosition := .pre }, [⟨.eof, [], 1, 7⟩])) ∧
    (∀ (q : Str) (l1 c1 l2 c2 l3 c3 l4 c4 : Nat) (rest : List Token),
      parseAmount (⟨.minus, "-".data, l1, c1⟩ :: ⟨.commodity, "$".data, l2, c2⟩ ::
          ⟨.minus, "-".data, l3, c3⟩ :: ⟨.number, q, l4, c4⟩ :: rest) =
        .ok ({ quantity := q, commodity := "$".data, isNegative := false,
               commodityPosition := .pre }, rest)) ∧
    (∀ (q : Str) (l1 c1 l2 c2 l4 c4 : Nat) (rest : List Token),
      ¬ q.headD '\x00' = '-' →
      parseAmount (⟨.minus, "-".data, l1, c1⟩ :: ⟨.commodity, "$".data, l2, c2⟩ ::
          ⟨.number, q, l4, c4⟩ :: rest) =
        .ok ({ quantity := q, commodity := "$".data, isNegative := true,
               commodityPosition := .pre }, rest)) ∧
    (∀ (ts : List Token) (amt : AmountNode) (rest : List Token),
      (∀ t ∈ ts, t.type = .number → ¬ t.value.headD '\x00' = '-') →
      parseAmount ts = .ok (amt, rest) →
      ¬ amt.quantity.headD '\x00' = '-') := by
  refine ⟨rfl, parseAmount_minus_minus, parseAmount_minus_plain, ?_⟩
  intro ts amt rest hts h
  exact parseAmount_quantity_no_minus hts h

/-- C7 witness: the sign rules applied at concrete token streams. -/
theorem c7_amount_sign_parsing_witness :
    parseAmount [⟨.minus, "-".data, 1, 0⟩, ⟨.commodity, "$".data, 1, 1⟩,
        ⟨.number, "100".data, 1, 3⟩] =
      .ok ({ quantity := "100".data, commodity := "$".data, isNegative := true,
             commodityPosition := .pre }, []) :=
  c7_amount_sign_parsing.2.2.1 "100".data 1 0 1 1 1 3 [] (by decide)

end Grootboek

namespace Grootboek

/-- The domain `Price` value object (fields of the TypeScript class). -/
structure Price where
  date : DateY
  baseCommodity : Str
  quoteCommodity : Str
  price : ℚ
  comment : Option Str := none
deriving DecidableEq, Repr

/-- Options of `JournalWriter` with the constructor defaults. -/
structure WriterOptions where
  slashFormat : Bool := true
  amountAlignment : Nat := 50
  indentSize : Nat := 2
deriving DecidableEq, Repr

/-- Model of `String.prototype.padStart(k, '0')`. -/
def padZeros (k : Nat) (s : Str) : Str := List.replicate (k - s.length) '0' ++ s

/-- Smallest decimal scale of a reduced denominator: the least `k` with
`den ∣ 10 ^ k` (all `Decimal` values are decimal fractions, so the bound of
100 digits is never reached on values of the program). -/
def decScaleOf (den : Nat) : Nat :=
  (((List.range 101).find? (fun k => decide (den ∣ 10 ^ k))).getD 0)

/-- Plain decimal rendering of a non-negative rational, as
`Decimal.prototype.toString` produces inside the exponential-notation
thresholds: integer part, and a fractional part exactly when the value is not
an integer. -/
def decAbsToStr (q : ℚ) : Str :=
  let k := decScaleOf q.den
  let m := q.num.natAbs * 10 ^ k / q.den
  if k = 0 then natToStr m
  else natToStr (m / 10 ^ k) ++ '.' :: padZeros k (natToStr (m % 10 ^ k))

/-- Signed decimal rendering (`Decimal.prototype.toString`). -/
def decToStr (q : ℚ) : Str :=
  if q < 0 then '-' :: decAbsToStr (-q) else decAbsToStr q

/-- Characters that keep a commodity unquoted: the complement of the writer's
`[^A-Za-z0-9_-]` test. -/
def isCommodityPlainCh (c : Char) : Bool :=
  (decide ('A' ≤ c) && decide (c ≤ 'Z')) || (decide ('a' ≤ c) && decide (c ≤ 'z')) ||
    (decide ('0' ≤ c) && decide (c ≤ '9')) || decide (c = '_') || decide (c = '-')

/-- Model of `JournalWriter.formatCommodity`: quote when a special character
occurs or the first character is a digit. -/
def formatCommodity (commodity : Str) : Str :=
  if commodity.any (fun ch => !isCommodityPlainCh ch) || isDigitCh (commodity.headD '\x00')
  then '"' :: commodity ++ ['"']
  else commodity

/-- Model of `JournalWriter.formatDate`: unpadded year, two-digit month and
day, separator chosen by the configured format. -/
def formatDate (o : WriterOptions) (d : DateY) : Str :=
  let sep := if o.slashFormat then '/' else '-'
  natToStr d.year ++ sep :: padZeros 2 (natToStr d.month) ++ sep :: padZeros 2 (natToStr d.day)

/-- Model of `JournalWriter.formatAmount`: `$` is rendered as a prefix with
the sign in front of it; other commodities are rendered before the signed
quantity, quoted if needed. -/
def formatAmount (p : Posting) : Str :=
  if p.commodity = "$".data then
    if p.quantity < 0 then "-$ ".data ++ decAbsToStr (-p.quantity)
    else "$ ".data ++ decAbsToStr p.quantity
  else formatCommodity p.commodity ++ ' ' :: decToStr p.quantity

/-- Model of `JournalWriter.writePosting`: indentation, account, padding to
the amount alignment (at least four spaces), amount. -/
def writePosting (o : WriterOptions) (p : Posting) : Str :=
  List.replicate o.indentSize ' ' ++ p.account ++
    List.replicate (max 4 (o.amountAlignment - (o.indentSize + p.account.length))) ' ' ++
    formatAmount p

/-- Model of `JournalWriter.writeTransaction`: header line with date,
description and an optional `; `-comment holding the `extid:` token and the
stored comment, followed by one line per posting, joined by newlines. -/
def writeTransaction (o : WriterOptions) (t : Transaction) : Str :=
  let commentParts :=
    (if (t.externalId.getD []).isEmpty then [] else ["extid:".data ++ t.externalId.getD []]) ++
    (if (t.comment.getD []).isEmpty then [] else [t.comment.getD []])
  let header :=
    formatDate o t.date ++ ' ' :: t.description ++
      (if commentParts.isEmpty then [] else " ; ".data ++ List.intercalate " ".data commentParts)
  List.intercalate "\n".data (header :: t.postings.map (writePosting o))

/-- Model of `JournalWriter.writePrice`. -/
def writePrice (o : WriterOptions) (pr : Price) : Str :=
  "P ".data ++ formatDate o pr.date ++ ' ' :: formatCommodity pr.baseCommodity ++
    ' ' :: formatCommodity pr.quoteCommodity ++ ' ' :: decToStr pr.price ++
    (if (pr.comment.getD []).isEmpty then [] else " ;; ".data ++ pr.comment.getD [])

/-- One entry of the merged transaction-and-price list of `writeEntries`. -/
inductive JEntry where
  | txn (t : Transaction)
  | price (p : Price)
deriving DecidableEq, Repr

/-- Date of an entry. -/
def JEntry.date : JEntry → DateY
  | .txn t => t.date
  | .price p => p.date

/-- Rendering of one entry. -/
def renderEntry (o : WriterOptions) : JEntry → Str
  | .txn t => writeTransaction o t
  | .price p => writePrice o p

/-- Insertion step of the stable sort: the new entry goes after every entry
whose date key is less than or equal to its own. -/
def insertByKey (e : JEntry) : List JEntry → List JEntry
  | [] => [e]
  | x :: xs =>
    if x.date.getTime ≤ e.date.getTime then x :: insertByKey e xs else e :: x :: xs

/-- Stable sort by date key, the model of `Array.prototype.sort` with the
comparator `a.date.getTime() - b.date.getTime()` (ECMAScript sorts are
stable). -/
def stableSortEntries (l : List JEntry) : List JEntry :=
  l.foldl (fun acc e => insertByKey e acc) []

/-- Model of `JournalWriter.writeEntries`: merge transactions (first) and
prices, sort stably by date, render each entry followed by a blank line, and
join with newlines. -/
def writeEntries (o : WriterOptions) (txns : List Transaction) (prices : List Price) : Str :=
  List.intercalate "\n".data
    ((stableSortEntries (txns.map JEntry.txn ++ prices.map JEntry.price)).flatMap
      (fun e => [renderEntry o e, []]))

/-- Model of `JournalWriter.appendToJournal`. -/
def appendToJournal (o : WriterOptions) (existingContent : Str)
    (newTransactions : List Transaction) (newPrices : List Price) : Str :=
  let newContent := writeEntries o newTransactions newPrices
  let r := jsTrimEnd existingContent
  (if 0 < r.length then r ++ "\n\n".data else r) ++ newContent


/-- Sortedness of an entry list by ascending date key. -/
def sortedByDate (l : List JEntry) : Prop :=
  l.Pairwise (fun a b => a.date.getTime ≤ b.date.getTime)

theorem mem_insertByKey {e y : JEntry} {l : List JEntry} :
    y ∈ insertByKey e l ↔ y = e ∨ y ∈ l := by
  induction l with
  | nil => simp [insertByKey]
  | cons x xs ih =>
    rw [insertByKey]
    by_cases h : x.date.getTime ≤ e.date.getTime
    · rw [if_pos h]
      constructor
      · intro hy
        rcases List.mem_cons.mp hy with rfl | hy2
        · exact Or.inr (List.mem_cons_self _ _)
        · rcases ih.mp hy2 with rfl | hy3
          · exact Or.inl rfl
          · exact Or.inr (List.mem_cons_of_mem _ hy3)
      · intro hy
        rcases hy with rfl | hy2
        · exact List.mem_cons_of_mem _ (ih.mpr (Or.inl rfl))
        · rcases List.mem_cons.mp hy2 with rfl | hy3
          · exact List.mem_cons_self _ _
          · exact List.mem_cons_of_mem _ (ih.mpr (Or.inr hy3))
    · rw [if_neg h]
      exact List.mem_cons

theorem perm_insertByKey (e : JEntry) (l : List JEntry) :
    (insertByKey e l).Perm (e :: l) := by
  induction l with
  | nil => simp [insertByKey]
  | cons x xs ih =>
    rw [insertByKey]
    by_cases h : x.date.getTime ≤ e.date.getTime
    · rw [if_pos h]
      exact (ih.cons x).trans (List.Perm.swap e x xs)
    · rw [if_neg h]

theorem sorted_insertByKey {l : List JEntry} (h : sortedByDate l) (e : JEntry) :
    sortedByDate (insertByKey e l) := by
  induction l with
  | nil => simp [insertByKey, sortedByDate]
  | cons x xs ih =>
    obtain ⟨hx, hxs⟩ := List.pairwise_cons.mp h
    rw [insertByKey]
    by_cases hc : x.date.getTime ≤ e.date.getTime
    · rw [if_pos hc]
      rw [sortedByDate, List.pairwise_cons]
      refine ⟨?_, ih hxs⟩
      intro y hy
      rcases mem_insertByKey.mp hy with rfl | hy2
      · exact hc
      · exact hx y hy2
    · rw [if_neg hc]
      have hce : e.date.getTime ≤ x.date.getTime := le_of_not_le hc
      rw [sortedByDate, List.pairwise_cons]
      refine ⟨?_, h⟩
      intro y hy
      rcases List.mem_cons.mp hy with rfl | hy2
      · exact hce
      · exact le_trans hce (hx y hy2)

theorem filter_insertByKey (e : JEntry) (l : List JEntry) (d : Nat)
    (h : sortedByDate l) :
    (insertByKey e l).filter (fun x => decide (x.date.getTime = d)) =
      l.filter (fun x => decide (x.date.getTime = d)) ++
        (if e.date.getTime = d then [e] else []) := by
  induction l with
  | nil =>
    by_cases hd : e.date.getTime = d <;> simp [insertByKey, List.filter_cons, hd]
  | cons x xs ih =>
    obtain ⟨hx, hxs⟩ := List.pairwise_cons.mp h
    rw [insertByKey]
    by_cases hc : x.date.getTime ≤ e.date.getTime
    · rw [if_pos hc, List.filter_cons, List.filter_cons]
      by_cases hxd : x.date.getTime = d
      · have hb : decide (x.date.getTime = d) = true := by simp [hxd]
        simp only [hb, eq_self_iff_true, if_true]
        rw [ih hxs]
        simp [List.cons_append]
      · have hb : decide (x.date.getTime = d) = false := by simp [hxd]
        simp only [hb, Bool.false_eq_true, if_false]
        exact ih hxs
    · rw [if_neg hc]
      have hce : e.date.getTime < x.date.getTime := by omega
      by_cases hed : e.date.getTime = d
      · have hnil : (x :: xs).filter (fun y => decide (y.date.getTime = d)) = [] := by
          rw [List.filter_eq_nil_iff]
          intro y hy
          simp only [decide_eq_true_eq]
          rcases List.mem_cons.mp hy with rfl | hy2
          · omega
          · have := hx y hy2
            omega
        rw [hnil, List.filter_cons]
        simp [hed, hnil]
      · rw [List.filter_cons]
        simp [hed]

theorem sorted_sortFold (l : List JEntry) (acc : List JEntry) (h : sortedByDate acc) :
    sortedByDate (l.foldl (fun acc e => insertByKey e acc) acc) := by
  induction l generalizing acc with
  | nil => exact h
  | cons e es ih => exact ih _ (sorted_insertByKey h e)

theorem perm_sortFold (l acc : List JEntry) :
    (l.foldl (fun acc e => insertByKey e acc) acc).Perm (acc ++ l) := by
  induction l generalizing acc with
  | nil => simp
  | cons e es ih =>
    simp only [List.foldl_cons]
    exact ((ih _).trans (((perm_insertByKey e acc).append_right es).trans
      List.perm_middle.symm)).trans (by simp)

theorem filter_sortFold (l acc : List JEntry) (d : Nat) (h : sortedByDate acc) :
    (l.foldl (fun acc e => insertByKey e acc) acc).filter
        (fun x => decide (x.date.getTime = d)) =
      acc.filter (fun x => decide (x.date.getTime = d)) ++
        l.filter (fun x => decide (x.date.getTime = d)) := by
  induction l generalizing acc with
  | nil => simp
  | cons e es ih =>
    rw [List.foldl_cons, ih _ (sorted_insertByKey h e), filter_insertByKey e acc d h,
      List.filter_cons]
    by_cases hed : e.date.getTime = d
    · simp [hed, List.append_assoc]
    · simp [hed]

/-- C9: appendToJournal keeps the existing content up to trailing-whitespace
trimming, separates with exactly one blank line when the trimmed content is
non-empty, and appends the rendering of the new transactions and prices
merged into one list sorted by ascending date, entries of equal date kept in
their original relative order (transactions before prices). -/
theorem c9_append_to_journal (o : WriterOptions) (existing : Str)
    (txns : List Transaction) (prices : List Price) :
    (appendToJournal o existing txns prices =
      jsTrimEnd existing ++
        (if jsTrimEnd existing = [] then [] else "\n\n".data) ++
        writeEntries o txns prices) ∧
    (∃ sorted : List JEntry,
      writeEntries o txns prices =
        List.intercalate "\n".data (sorted.flatMap (fun e => [renderEntry o e, []])) ∧
      sorted.Perm (txns.map JEntry.txn ++ prices.map JEntry.price) ∧
      sorted.Pairwise (fun a b => a.date.getTime ≤ b.date.getTime) ∧
      ∀ d : Nat,
        sorted.filter (fun x => decide (x.date.getTime = d)) =
          (txns.map JEntry.txn ++ prices.map JEntry.price).filter
            (fun x => decide (x.date.getTime = d))) := by
  constructor
  · simp only [appendToJournal]
    rcases hr : jsTrimEnd existing with _ | ⟨c, cs⟩
    · simp
    · simp [List.append_assoc]
  · refine ⟨stableSortEntries (txns.map JEntry.txn ++ prices.map JEntry.price),
      rfl, ?_, ?_, ?_⟩
    · simpa [stableSortEntries] using
        perm_sortFold (txns.map JEntry.txn ++ prices.map JEntry.price) []
    · exact sorted_sortFold (txns.map JEntry.txn ++ prices.map JEntry.price) []
        (by simp [sortedByDate])
    · intro d
      simpa [stableSortEntries] using
        filter_sortFold (txns.map JEntry.txn ++ prices.map JEntry.price) [] d
          (by simp [sortedByDate])

end Grootboek

namespace Grootboek

/-- Model of the comment-marker strip `value.replace(/^;+\s*/, '')`: remove
the leading run of semicolons and the whitespace after it, when the string
starts with a semicolon. -/
def stripCommentMarker (s : Str) : Str :=
  if s.headD '\x00' = ';' then
    (s.dropWhile (fun c => decide (c = ';'))).dropWhile isJsWhitespace
  else s

/-- Description loop of `parseTransaction`: consume tokens until a NEWLINE,
COMMENT or EOF token, appending TEXT, COMMODITY, NUMBER and DATE token values
separated by single spaces. -/
def descLoop : List Token → Str → Str × List Token
  | [], acc => (acc, [])
  | t :: ts, acc =>
    if t.type = .eof ∨ t.type = .newline ∨ t.type = .comment then (acc, t :: ts)
    else
      descLoop ts
        (if t.type = .text ∨ t.type = .commodity ∨ t.type = .number ∨ t.type = .date then
          acc ++ (if acc.isEmpty then [] else [' ']) ++ t.value
        else acc)

/-- Account-extension loop of `parsePosting`: keep appending COMMODITY or
ACCOUNT token values while they contain a colon. -/
def accountExtend : List Token → Str → Str × List Token
  | [], acc => (acc, [])
  | t :: ts, acc =>
    if (decide (t.type = .commodity) || decide (t.type = .account)) &&
        t.value.contains ':' then
      accountExtend ts (acc ++ t.value)
    else (acc, t :: ts)

/-- Model of `parsePosting`: consume the INDENT token; an empty, comment-only
or unrecognized line yields no posting; otherwise read the account (possibly
extended across tokens), an optional amount, an optional comment, and skip to
the end of the line. -/
def parsePosting (ts : List Token) : Except PError (Option PostingNode × List Token) :=
  match ts with
  | [] => .ok (none, [])
  | indentTok :: ts1 =>
    if checkTok .newline ts1 || checkTok .eof ts1 then .ok (none, ts1)
    else if checkTok .comment ts1 then .ok (none, ts1.tail)
    else if !(checkTok .account ts1 || checkTok .commodity ts1) then
      .ok (none, skipLine ts1)
    else
      let ext := accountExtend ts1.tail (peekTok ts1).value
      let ts2 := ext.2
      match (if checkTok .minus ts2 || checkTok .commodity ts2 ||
          checkTok .quotedCommodity ts2 || checkTok .number ts2 then
          (parseAmount ts2).map (fun r => (some r.1, r.2))
        else .ok (none, ts2) : Except PError (Option AmountNode × List Token)) with
      | .error e => .error e
      | .ok (amt, ts3) =>
        let cm := if checkTok .comment ts3 then
          some (stripCommentMarker (peekTok ts3).value) else none
        let ts4 := if checkTok .comment ts3 then ts3.tail else ts3
        .ok (some { account := ext.1, amount := amt, comment := cm,
                    lineNumber := indentTok.line }, skipToEol ts4)

/-- Posting loop of `parseTransaction`: while the current token is an INDENT,
parse one posting and skip newlines; the fuel is bounded by the token count
since every iteration consumes at least the INDENT token. -/
def postingsLoop : Nat → List Token → List PostingNode →
    Except PError (List PostingNode × List Token)
  | 0, ts, acc => .ok (acc.reverse, ts)
  | fuel + 1, ts, acc =>
    if checkTok .indent ts then
      match parsePosting ts with
      | .error e => .error e
      | .ok (p?, ts2) =>
        postingsLoop fuel (skipNewlines ts2)
          (match p? with | some p => p :: acc | none => acc)
    else .ok (acc.reverse, ts)

/-- Model of `parseTransaction`: the DATE token, the description loop, an
optional trailing comment, then the postings. -/
def parseTransaction (ts : List Token) : Except PError (TransactionNode × List Token) :=
  match ts with
  | [] => .error ⟨"Expected date".data, 0, 0⟩
  | dateTok :: ts1 =>
    let d := descLoop ts1 []
    let ts2 := d.2
    let cm := if checkTok .comment ts2 then
      some (stripCommentMarker (peekTok ts2).value) else none
    let ts3 := if checkTok .comment ts2 then ts2.tail else ts2
    match postingsLoop (ts3.length + 1) (skipNewlines ts3) [] with
    | .error e => .error e
    | .ok (ps, ts4) =>
      .ok ({ date := dateTok.value, description := jsTrim d.1, postings := ps,
             comment := cm, lineNumber := dateTok.line }, ts4)

/-- Model of `parseStandaloneComment`. -/
def parseStandaloneComment (ts : List Token) : CommentNode × List Token :=
  match ts with
  | [] => (⟨[], 0⟩, [])
  | t :: ts1 => ({ text := stripCommentMarker t.value, lineNumber := t.line }, ts1)

/-- Model of `parsePriceDirective`: the P token, a DATE, the base commodity,
then either `$` with a price, another commodity with a price, or a bare price
with `$` assumed, an optional comment, and skip to the end of the line. -/
def parsePriceDirective (ts : List Token) : Except PError (PriceNode × List Token) :=
  match ts with
  | [] => .error ⟨"Expected date after P".data, 0, 0⟩
  | pTok :: ts1 =>
    if checkTok .date ts1 then
      let dateV := (peekTok ts1).value
      match parseCommoditySymbol ts1.tail with
      | .error e => .error e
      | .ok (base, ts3) =>
        match (if checkTok .commodity ts3 && decide ((peekTok ts3).value = "$".data) then
            (parseNumberValue ts3.tail).map (fun r => (("$".data : Str), r.1, r.2))
          else if checkTok .commodity ts3 || checkTok .quotedCommodity ts3 then
            match parseCommoditySymbol ts3 with
            | .error e => .error e
            | .ok (quote, ts4) => (parseNumberValue ts4).map (fun r => (quote, r.1, r.2))
          else if checkTok .number ts3 || checkTok .minus ts3 then
            (parseNumberValue ts3).map (fun r => (("$".data : Str), r.1, r.2))
          else
            .error ⟨"Expected quote commodity or price".data,
              (peekTok ts3).line, (peekTok ts3).column⟩ :
            Except PError (Str × Str × List Token)) with
        | .error e => .error e
        | .ok (quote, priceV, ts5) =>
          let cm := if checkTok .comment ts5 then
            some (stripCommentMarker (peekTok ts5).value) else none
          let ts6 := if checkTok .comment ts5 then ts5.tail else ts5
          .ok ({ date := dateV, baseCommodity := base, quoteCommodity := quote,
                 price := priceV, comment := cm, lineNumber := pTok.line },
            skipToEol ts6)
    else
      .error ⟨"Expected date after P".data, (peekTok ts1).line, (peekTok ts1).column⟩

/-- Model of `parseEntry`: standalone comment, price directive, transaction,
or an unknown line that is skipped without producing an entry. -/
def parseEntry (ts : List Token) : Except PError (Option JournalEntry × List Token) :=
  if checkTok .comment ts then
    .ok (some (.comment (parseStandaloneComment ts).1), (parseStandaloneComment ts).2)
  else if checkTok .priceDirective ts then
    match parsePriceDirective ts with
    | .error e => .error e
    | .ok (p, ts2) => .ok (some (.price p), ts2)
  else if checkTok .date ts then
    match parseTransaction ts with
    | .error e => .error e
    | .ok (t, ts2) => .ok (some (.txn t), ts2)
  else .ok (none, skipLine ts)

/-- Main loop of `parse`: until the EOF token is reached, skip newlines and
parse one entry; the fuel is bounded by the token count since every iteration
consumes at least one token. -/
def parseGo : Nat → List Token → List JournalEntry → Except PError (List JournalEntry)
  | 0, _, acc => .ok acc.reverse
  | fuel + 1, ts, acc =>
    if (peekTok ts).type = .eof then .ok acc.reverse
    else
      let ts1 := skipNewlines ts
      if (peekTok ts1).type = .eof then .ok acc.reverse
      else
        match parseEntry ts1 with
        | .error e => .error e
        | .ok (e?, ts2) =>
          parseGo fuel ts2 (match e? with | some e => e :: acc | none => acc)

/-- Model of `Parser.parse`: tokenize and run the entry loop. -/
def parse (input : Str) : Except PError (List JournalEntry) :=
  parseGo (tokenize input).length (tokenize input) []


def c2tx : Transaction :=
  { id := "t".data, date := ⟨2024, 1, 5⟩, description := "a  b".data,
    postings := [ { account := "Assets".data, commodity := "$".data, quantity := 5 },
                  { account := "Equity".data, commodity := "$".data, quantity := -5 } ] }

def c2node : TransactionNode :=
  { date := "2024/01/05".data, description := "a b".data,
    postings :=
      [ { account := "Assets".data,
          amount := some { quantity := "5".data, commodity := "$".data,
                           isNegative := false, commodityPosition := .pre },
          comment := none, lineNumber := 2 },
        { account := "Equity".data,
          amount := some { quantity := "5".data, commodity := "$".data,
                           isNegative := true, commodityPosition := .pre },
          comment := none, lineNumber := 3 } ],
    comment := none, lineNumber := 1 }

set_option maxRecDepth 10000 in
/-- C2 counterexample: the transaction with the double-spaced description
`a  b` passes validation and is therefore constructible, its rendering
re-parses to a node whose description has collapsed to `a b`, and the
converted transaction carries that collapsed description, so the re-parsed
description differs from the original one. -/
theorem c2_write_parse_roundtrip_counterexample :
    Transaction.validate c2tx = none ∧
    parse (writeTransaction ⟨true, 50, 2⟩ c2tx) = .ok [.txn c2node] ∧
    (∃ t2, nodeToTransaction c2node = .ok t2 ∧ t2.description = "a b".data) ∧
    "a b".data ≠ c2tx.description := by
  refine ⟨?_, ?_, ?_, by decide⟩
  · rw [validate_none_iff]
    refine ⟨by decide, by decide, ?_⟩
    intro c hc
    have hco : commoditiesOf c2tx.postings = ["$".data] := rfl
    have hcs : c = "$".data := by
      rw [hco] at hc
      simpa using hc
    subst hcs
    show commoditySum c2tx.postings "$".data = 0
    simp [commoditySum, c2tx]
  · rfl
  · have h0 : nodeToTransaction c2node = finishTransaction c2node
        [ { account := "Assets".data, commodity := "$".data, quantity := (5:ℚ) },
          { account := "Equity".data, commodity := "$".data, quantity := -(5:ℚ) } ] := by
      rfl
    have hv : (Transaction.mkRaw (finishProps c2node
        [ { account := "Assets".data, commodity := "$".data, quantity := (5:ℚ) },
          { account := "Equity".data, commodity := "$".data, quantity := -(5:ℚ) } ])
        []).validate = none := by
      rw [validate_none_iff]
      refine ⟨by decide, by decide, ?_⟩
      intro c hc
      have hco : commoditiesOf
          [ ({ account := "Assets".data, commodity := "$".data, quantity := (5:ℚ) } : Posting),
            { account := "Equity".data, commodity := "$".data, quantity := -(5:ℚ) } ] =
          ["$".data] := rfl
      have hcs : c = "$".data := by
        have hc2 := hc
        rw [show (Transaction.mkRaw (finishProps c2node
            [ { account := "Assets".data, commodity := "$".data, quantity := (5:ℚ) },
              { account := "Equity".data, commodity := "$".data, quantity := -(5:ℚ) } ])
            []).postings = [ ({ account := "Assets".data, commodity := "$".data, quantity := (5:ℚ) } : Posting),
            { account := "Equity".data, commodity := "$".data, quantity := -(5:ℚ) } ] from rfl, hco] at hc2
        simpa using hc2
      subst hcs
      show commoditySum _ "$".data = 0
      simp [commoditySum, Transaction.mkRaw, finishProps]
    rw [h0, finishTransaction_ok _ _ hv]
    exact ⟨_, rfl, rfl⟩

theorem digitChar_val {d : Nat} (h : d < 10) :
    digitVal (digitChar d) = d ∧ isDigitCh (digitChar d) = true := by
  interval_cases d <;> exact ⟨rfl, rfl⟩

theorem natToStrAux_spec : ∀ (fuel n : Nat), n < fuel →
    (natToStrAux fuel n).all isDigitCh = true ∧ natToStrAux fuel n ≠ [] ∧
    digitsToNat (natToStrAux fuel n) = n := by
  intro fuel
  induction fuel with
  | zero => intro n hn; omega
  | succ f ih =>
    intro n hn
    rw [natToStrAux]
    by_cases h10 : n < 10
    · rw [if_pos h10]
      refine ⟨?_, by simp, ?_⟩
      · simp [(digitChar_val h10).2]
      · show 0 * 10 + digitVal (digitChar n) = n
        rw [(digitChar_val h10).1]
        omega
    · rw [if_neg h10]
      have hrec := ih (n / 10) (by omega)
      refine ⟨?_, by simp, ?_⟩
      · rw [List.all_append]
        simp [hrec.1, (digitChar_val (by omega : n % 10 < 10)).2]
      · rw [digitsToNat, List.foldl_append]
        show (digitsToNat (natToStrAux f (n / 10))) * 10 + digitVal (digitChar (n % 10)) = n
        rw [hrec.2.2, (digitChar_val (by omega : n % 10 < 10)).1]
        omega

theorem natToStr_spec (n : Nat) :
    (natToStr n).all isDigitCh = true ∧ natToStr n ≠ [] ∧
    digitsToNat (natToStr n) = n :=
  natToStrAux_spec (n + 1) n (Nat.lt_succ_self n)

theorem natToStrAux_irrel : ∀ (f1 n : Nat), n < f1 → ∀ f2, n < f2 →
    natToStrAux f1 n = natToStrAux f2 n := by
  intro f1
  induction f1 with
  | zero => intro n h; omega
  | succ g ih =>
    intro n hn f2 hn2
    cases f2 with
    | zero => omega
    | succ h2 =>
      rw [natToStrAux, natToStrAux]
      by_cases h10 : n < 10
      · rw [if_pos h10, if_pos h10]
      · rw [if_neg h10, if_neg h10, ih (n / 10) (by omega) h2 (by omega)]

theorem natToStr_one_digit {n : Nat} (h : n < 10) : natToStr n = [digitChar n] := by
  rw [natToStr, natToStrAux, if_pos h]

theorem natToStr_step {n : Nat} (h : 10 ≤ n) :
    natToStr n = natToStr (n / 10) ++ [digitChar (n % 10)] := by
  rw [natToStr, natToStrAux, if_neg (by omega)]
  rw [natToStrAux_irrel n (n / 10) (by omega) (n / 10 + 1) (Nat.lt_succ_self _)]
  rfl

theorem natToStr_length_two {n : Nat} (h1 : 10 ≤ n) (h2 : n ≤ 99) :
    (natToStr n).length = 2 := by
  rw [natToStr_step h1, List.length_append,
    natToStr_one_digit (by omega : n / 10 < 10)]
  rfl

theorem natToStr_length_four {n : Nat} (h1 : 1000 ≤ n) (h2 : n ≤ 9999) :
    (natToStr n).length = 4 := by
  rw [natToStr_step (by omega), List.length_append,
    natToStr_step (by omega : 10 ≤ n / 10), List.length_append,
    natToStr_length_two (by omega : 10 ≤ n / 10 / 10) (by omega)]
  rfl

theorem digitsToNat_replicate_zero (k : Nat) (s : Str) :
    digitsToNat (List.replicate k '0' ++ s) = digitsToNat s := by
  induction k with
  | zero => rfl
  | succ m ih =>
    rw [List.replicate_succ, List.cons_append]
    show (List.replicate m '0' ++ s).foldl (fun a c => a * 10 + digitVal c) (0 * 10 + digitVal '0') = _
    have : (0 : Nat) * 10 + digitVal '0' = 0 := rfl
    rw [this]
    exact ih

theorem padZeros_spec {k : Nat} (s : Str) (h : s.length ≤ k)
    (hd : s.all isDigitCh = true) :
    (padZeros k s).length = k ∧ (padZeros k s).all isDigitCh = true ∧
    digitsToNat (padZeros k s) = digitsToNat s := by
  refine ⟨?_, ?_, digitsToNat_replicate_zero _ s⟩
  · rw [padZeros, List.length_append, List.length_replicate]
    omega
  · rw [padZeros, List.all_append, hd, Bool.and_true]
    rw [List.all_eq_true]
    intro x hx
    rw [List.eq_of_mem_replicate hx]
    rfl

theorem pad2_nat_spec {n : Nat} (h : n ≤ 99) :
    (padZeros 2 (natToStr n)).length = 2 ∧
    (padZeros 2 (natToStr n)).all isDigitCh = true ∧
    digitsToNat (padZeros 2 (natToStr n)) = n := by
  have hlen : (natToStr n).length ≤ 2 := by
    by_cases h10 : n < 10
    · rw [natToStr_one_digit h10]
      simp
    · rw [natToStr_length_two (by omega) h]
  obtain ⟨hl, hdg, hv⟩ := padZeros_spec (natToStr n) hlen (natToStr_spec n).1
  exact ⟨hl, hdg, by rw [hv, (natToStr_spec n).2.2]⟩

/-- Total lexer run with the canonical fuel. -/
def lexAll (cs : Str) (line col : Nat) : List Token := lexGo (cs.length + 1) cs line col

theorem tokenize_eq_lexAll (input : Str) : tokenize input = lexAll input 1 1 := rfl

theorem lexAll_nil (line col : Nat) : lexAll [] line col = [⟨.eof, [], line, col⟩] := rfl

theorem lexAll_step_some {cs rest : Str} {line col l2 c2 : Nat} {t : Token}
    (hne : cs ≠ [])
    (h : scanStep cs line col = (some t, rest, l2, c2)) :
    lexAll cs line col = t :: lexAll rest l2 c2 := by
  have hlt : rest.length < cs.length := by
    have hp := scanStep_progress cs line col hne
    rw [h] at hp
    exact hp
  rcases cs with _ | ⟨c, cs2⟩
  · exact absurd rfl hne
  · have hunf : lexAll (c :: cs2) line col =
        (match scanStep (c :: cs2) line col with
          | (some t2, rest2, l3, c3) => t2 :: lexGo (cs2.length + 1) rest2 l3 c3
          | (none, rest2, l3, c3) => lexGo (cs2.length + 1) rest2 l3 c3) := rfl
    rw [hunf, h]
    show t :: lexGo (cs2.length + 1) rest l2 c2 = t :: lexAll rest l2 c2
    have hl2 : rest.length < cs2.length + 1 := by
      simp only [List.length_cons] at hlt
      omega
    rw [lexGo_fuel_irrel rest.length (cs2.length + 1) (rest.length + 1) rest l2 c2
      le_rfl hl2 (Nat.lt_succ_self _)]
    rfl

theorem lexAll_step_none {cs rest : Str} {line col l2 c2 : Nat}
    (hne : cs ≠ [])
    (h : scanStep cs line col = (none, rest, l2, c2)) :
    lexAll cs line col = lexAll rest l2 c2 := by
  have hlt : rest.length < cs.length := by
    have hp := scanStep_progress cs line col hne
    rw [h] at hp
    exact hp
  rcases cs with _ | ⟨c, cs2⟩
  · exact absurd rfl hne
  · have hunf : lexAll (c :: cs2) line col =
        (match scanStep (c :: cs2) line col with
          | (some t2, rest2, l3, c3) => t2 :: lexGo (cs2.length + 1) rest2 l3 c3
          | (none, rest2, l3, c3) => lexGo (cs2.length + 1) rest2 l3 c3) := rfl
    rw [hunf, h]
    show lexGo (cs2.length + 1) rest l2 c2 = lexAll rest l2 c2
    have hl2 : rest.length < cs2.length + 1 := by
      simp only [List.length_cons] at hlt
      omega
    rw [lexGo_fuel_irrel rest.length (cs2.length + 1) (rest.length + 1) rest l2 c2
      le_rfl hl2 (Nat.lt_succ_self _)]
    rfl

theorem identStart_not_digit {c : Char} (h : isIdentStart c = true) :
    isDigitCh c = false := by
  rcases Bool.eq_false_or_eq_true (isDigitCh c) with h2 | h2
  · exfalso
    simp only [isIdentStart, Bool.or_eq_true, Bool.and_eq_true, decide_eq_true_eq] at h
    simp only [isDigitCh, Bool.and_eq_true, decide_eq_true_eq] at h2
    rcases h with (⟨ha1, ha2⟩ | ⟨ha1, ha2⟩) | ha1
    · exact absurd (le_trans ha1 h2.2) (by decide)
    · exact absurd (le_trans ha1 h2.2) (by decide)
    · subst ha1
      exact absurd h2.2 (by decide)
  · exact h2

theorem spaceTab_cases {c : Char} (h : isSpaceTab c = true) : c = ' ' ∨ c = '\t' := by
  simp only [isSpaceTab, Bool.or_eq_true, decide_eq_true_eq] at h
  exact h

theorem identStart_not_spaceTab {c : Char} (h : isIdentStart c = true) :
    isSpaceTab c = false := by
  rcases Bool.eq_false_or_eq_true (isSpaceTab c) with h2 | h2
  · rcases spaceTab_cases h2 with rfl | rfl <;> exact absurd h (by decide)
  · exact h2

theorem digit_not_spaceTab {c : Char} (h : isDigitCh c = true) :
    isSpaceTab c = false := by
  rcases Bool.eq_false_or_eq_true (isSpaceTab c) with h2 | h2
  · rcases spaceTab_cases h2 with rfl | rfl <;> exact absurd h (by decide)
  · exact h2

theorem isDateStart_false_head {cs : Str} (h : isDigitCh (peekCh cs) = false) :
    isDateStart cs = false := by
  rcases cs with _ | ⟨a, _ | ⟨b, _ | ⟨c, _ | ⟨d, _ | ⟨e, tl⟩⟩⟩⟩⟩
  · rfl
  · rfl
  · rfl
  · rfl
  · rfl
  · simp only [peekCh, List.headD_cons] at h
    simp [isDateStart, h]

theorem scanStep_newline (rest : Str) (line col : Nat) :
    scanStep ('\n' :: rest) line col =
      (some ⟨.newline, "\n".data, line, col - 1⟩, rest, line + 1, 1) := by
  rw [scanStep, if_pos rfl]

theorem lexAll_newline (rest : Str) (line col : Nat) :
    lexAll ('\n' :: rest) line col =
      ⟨.newline, "\n".data, line, col - 1⟩ :: lexAll rest (line + 1) 1 :=
  lexAll_step_some (by simp) (scanStep_newline rest line col)

theorem scanStep_space {rest : Str} {line col : Nat} (hcol : col ≠ 1) :
    scanStep (' ' :: rest) line col = (none, rest, line, col + 1) := by
  rw [scanStep, if_neg (by decide), if_neg (by decide),
    if_neg (by simp [hcol]), if_pos (by decide)]

theorem lexAll_space {rest : Str} {line col : Nat} (hcol : col ≠ 1) :
    lexAll (' ' :: rest) line col = lexAll rest line (col + 1) :=
  lexAll_step_none (by simp) (scanStep_space hcol)

theorem lexAll_spaces (k : Nat) (rest : Str) (line : Nat) : ∀ col, 2 ≤ col →
    lexAll (List.replicate k ' ' ++ rest) line col = lexAll rest line (col + k) := by
  induction k with
  | zero => intro col hcol; simp
  | succ m ih =>
    intro col hcol
    rw [List.replicate_succ, List.cons_append, lexAll_space (by omega),
      ih (col + 1) (by omega)]
    congr 1
    omega

theorem scanStep_dollar (rest : Str) (line : Nat) {col : Nat} (hcol : 2 ≤ col) :
    scanStep ('$' :: rest) line col =
      (some ⟨.commodity, "$".data, line, col - 1⟩, rest, line, col + 1) := by
  rw [scanStep, if_neg (by decide), if_neg (by decide),
    if_neg (by simp [isSpaceTab]), if_neg (by decide), if_neg (by decide),
    if_neg (by simp), if_neg (by rw [@isDateStart_false_head ('$' :: rest) rfl]; simp)]
  rw [scanAfterDate, if_neg (by decide), if_neg (by simp), if_pos rfl]

theorem lexAll_dollar (rest : Str) (line : Nat) {col : Nat} (hcol : 2 ≤ col) :
    lexAll ('$' :: rest) line col =
      ⟨.commodity, "$".data, line, col - 1⟩ :: lexAll rest line (col + 1) :=
  lexAll_step_some (by simp) (scanStep_dollar rest line hcol)

theorem scanStep_minus (rest : Str) (line : Nat) {col : Nat}
    (h : peekCh rest = '$' ∨ isDigitCh (peekCh rest) = true) (hcol : 2 ≤ col) :
    scanStep ('-' :: rest) line col =
      (some ⟨.minus, "-".data, line, col - 1⟩, rest, line, col + 1) := by
  rw [scanStep, if_neg (by decide), if_neg (by decide),
    if_neg (by simp [isSpaceTab]), if_neg (by decide), if_neg (by decide),
    if_neg (by simp), if_neg (by rw [@isDateStart_false_head ('-' :: rest) rfl]; simp)]
  rw [scanAfterDate, if_neg (by decide),
    if_pos (by rcases h with h | h <;> simp [h])]

theorem lexAll_minus (rest : Str) (line : Nat) {col : Nat}
    (h : peekCh rest = '$' ∨ isDigitCh (peekCh rest) = true) (hcol : 2 ≤ col) :
    lexAll ('-' :: rest) line col =
      ⟨.minus, "-".data, line, col - 1⟩ :: lexAll rest line (col + 1) :=
  lexAll_step_some (by simp) (scanStep_minus rest line h hcol)

theorem scanStep_comment (cm rest : Str) (line col : Nat) (hcm : '\n' ∉ cm)
    (hrest : peekCh rest = '\n' ∨ rest = []) :
    scanStep ((';' :: cm) ++ rest) line col =
      (some ⟨.comment, ';' :: cm, line, col⟩, rest, line, col + 1 + cm.length) := by
  have htake : (cm ++ rest).takeWhile (fun x => !decide (x = '\n')) = cm := by
    rw [List.takeWhile_append_of_pos]
    · have : rest.takeWhile (fun x => !decide (x = '\n')) = [] := by
        rcases hrest with h | h
        · rcases rest with _ | ⟨r0, rl⟩
          · rfl
          · simp only [peekCh, List.headD_cons] at h
            subst h
            rw [List.takeWhile_cons_of_neg]
            simp
        · subst h
          rfl
      rw [this, List.append_nil]
    · intro a ha
      simp only [Bool.not_eq_eq_eq_not, Bool.not_true, decide_eq_false_iff_not]
      intro he
      exact hcm (he ▸ ha)
  have hdrop : (cm ++ rest).dropWhile (fun x => !decide (x = '\n')) = rest := by
    rw [List.dropWhile_append_of_pos]
    · rcases hrest with h | h
      · rcases rest with _ | ⟨r0, rl⟩
        · rfl
        · simp only [peekCh, List.headD_cons] at h
          subst h
          rw [List.dropWhile_cons_of_neg]
          simp
      · subst h
        rfl
    · intro a ha
      simp only [Bool.not_eq_eq_eq_not, Bool.not_true, decide_eq_false_iff_not]
      intro he
      exact hcm (he ▸ ha)
  rw [List.cons_append, scanStep, if_neg (by decide), if_neg (by decide),
    if_neg (by simp [isSpaceTab]), if_neg (by decide), if_pos rfl]
  have ht2 : (';' :: (cm ++ rest)).takeWhile (fun x => !decide (x = '\n')) =
      ';' :: cm := by
    rw [List.takeWhile_cons_of_pos (by decide), htake]
  have hd2 : (';' :: (cm ++ rest)).dropWhile (fun x => !decide (x = '\n')) = rest := by
    rw [List.dropWhile_cons_of_pos (by decide), hdrop]
  rw [ht2, hd2]
  show (some (⟨.comment, ';' :: cm, line, col⟩ : Token), rest, line,
      col + (';' :: cm).length) =
    (some ⟨.comment, ';' :: cm, line, col⟩, rest, line, col + 1 + cm.length)
  have harith : col + (';' :: cm).length = col + 1 + cm.length := by
    simp only [List.length_cons]
    omega
  rw [harith]

theorem lexAll_comment (cm rest : Str) (line col : Nat) (hcm : '\n' ∉ cm)
    (hrest : peekCh rest = '\n' ∨ rest = []) :
    lexAll ((';' :: cm) ++ rest) line col =
      ⟨.comment, ';' :: cm, line, col⟩ :: lexAll rest line (col + 1 + cm.length) :=
  lexAll_step_some (by simp) (scanStep_comment cm rest line col hcm hrest)

theorem scanStep_indent (ws rest : Str) (line : Nat) (hne : ws ≠ [])
    (hall : ws.all isSpaceTab = true) (hrest : isSpaceTab (peekCh rest) = false) :
    scanStep (ws ++ rest) line 1 =
      (some ⟨.indent, ws, line, 1⟩, rest, line, 1 + ws.length) := by
  have hrtake : rest.takeWhile isSpaceTab = [] := by
    rcases rest with _ | ⟨r0, rl⟩
    · rfl
    · simp only [peekCh, List.headD_cons] at hrest
      rw [List.takeWhile_cons_of_neg (by simp [hrest])]
  have hrdrop : rest.dropWhile isSpaceTab = rest := by
    rcases rest with _ | ⟨r0, rl⟩
    · rfl
    · simp only [peekCh, List.headD_cons] at hrest
      rw [List.dropWhile_cons_of_neg (by simp [hrest])]
  rcases ws with _ | ⟨w0, ws2⟩
  · exact absurd rfl hne
  · have hw0 : isSpaceTab w0 = true := by
      simp only [List.all_cons, Bool.and_eq_true] at hall
      exact hall.1
    have hws2 : ws2.all isSpaceTab = true := by
      simp only [List.all_cons, Bool.and_eq_true] at hall
      exact hall.2
    have hw0n : ¬ w0 = '\n' := by
      rcases spaceTab_cases hw0 with rfl | rfl <;> decide
    have hw0r : ¬ w0 = '\r' := by
      rcases spaceTab_cases hw0 with rfl | rfl <;> decide
    rw [List.cons_append, scanStep, if_neg hw0n, if_neg hw0r,
      if_pos (by simp [hw0])]
    have htake : (w0 :: (ws2 ++ rest)).takeWhile isSpaceTab = w0 :: ws2 := by
      rw [List.takeWhile_cons_of_pos hw0, List.takeWhile_append_of_pos
        (by intro a ha; exact (List.all_eq_true.mp hws2) a ha), hrtake,
        List.append_nil]
    have hdrop : (w0 :: (ws2 ++ rest)).dropWhile isSpaceTab = rest := by
      rw [List.dropWhile_cons_of_pos hw0, List.dropWhile_append_of_pos
        (by intro a ha; exact (List.all_eq_true.mp hws2) a ha), hrdrop]
    rw [htake, hdrop]

theorem lexAll_indent (ws rest : Str) (line : Nat) (hne : ws ≠ [])
    (hall : ws.all isSpaceTab = true) (hrest : isSpaceTab (peekCh rest) = false) :
    lexAll (ws ++ rest) line 1 =
      ⟨.indent, ws, line, 1⟩ :: lexAll rest line (1 + ws.length) :=
  lexAll_step_some
    (by intro hx
        rcases List.append_eq_nil.mp hx with ⟨h1, h2⟩
        exact hne h1)
    (scanStep_indent ws rest line hne hall hrest)


theorem takeWhile_stop {p : Char → Bool} {w rest : Str} (hall : w.all p = true)
    (hrest : p (peekCh rest) = false) :
    (w ++ rest).takeWhile p = w ∧ (w ++ rest).dropWhile p = rest := by
  have hrt : rest.takeWhile p = [] := by
    rcases rest with _ | ⟨r0, rl⟩
    · rfl
    · simp only [peekCh, List.headD_cons] at hrest
      rw [List.takeWhile_cons_of_neg (by simp [hrest])]
  have hrd : rest.dropWhile p = rest := by
    rcases rest with _ | ⟨r0, rl⟩
    · rfl
    · simp only [peekCh, List.headD_cons] at hrest
      rw [List.dropWhile_cons_of_neg (by simp [hrest])]
  constructor
  · rw [List.takeWhile_append_of_pos (by intro a ha; exact (List.all_eq_true.mp hall) a ha),
      hrt, List.append_nil]
  · rw [List.dropWhile_append_of_pos (by intro a ha; exact (List.all_eq_true.mp hall) a ha),
      hrd]

theorem scanStep_word (w rest : Str) (line : Nat) {col : Nat} (hcol : 2 ≤ col)
    (hne : w ≠ []) (hstart : isIdentStart (peekCh w) = true)
    (hall : w.all isIdentCh = true) (hrest : isIdentCh (peekCh rest) = false) :
    scanStep (w ++ rest) line col =
      (some ⟨(if w.contains ':' then .account else .commodity), w, line, col⟩,
        rest, line, col + w.length) := by
  rcases w with _ | ⟨c, w2⟩
  · exact absurd rfl hne
  simp only [peekCh, List.headD_cons] at hstart
  have hdg := identStart_not_digit hstart
  have hst := identStart_not_spaceTab hstart
  have hcn : ¬ c = '\n' := fun he => absurd (he ▸ hstart) (by decide)
  have hcr : ¬ c = '\r' := fun he => absurd (he ▸ hstart) (by decide)
  have hsemi : ¬ c = ';' := fun he => absurd (he ▸ hstart) (by decide)
  have hcq : ¬ c = '"' := fun he => absurd (he ▸ hstart) (by decide)
  have hcm : ¬ c = '-' := fun he => absurd (he ▸ hstart) (by decide)
  have hcd : ¬ c = '$' := fun he => absurd (he ▸ hstart) (by decide)
  have htk := @takeWhile_stop isIdentCh (c :: w2) rest hall hrest
  rw [List.cons_append, scanStep, if_neg hcn, if_neg hcr,
    if_neg (by simp [hst]), if_neg (by simp [hst]), if_neg hsemi,
    if_neg (by intro hx; simp only [Bool.and_eq_true, decide_eq_true_eq] at hx; omega),
    if_neg (by rw [@isDateStart_false_head (c :: (w2 ++ rest)) hdg]; simp)]
  rw [scanAfterDate, if_neg hcq, if_neg (by simp [hcm]), if_neg hcd,
    if_neg (by simp [hdg, hcm]), if_pos hstart]
  rw [List.cons_append] at htk
  rw [htk.1, htk.2]
  show (if (c :: w2).contains ':' = true then
      ((some ⟨.account, c :: w2, line, col⟩ : Option Token), rest, line,
        col + (c :: w2).length)
    else (some ⟨.commodity, c :: w2, line, col⟩, rest, line,
        col + (c :: w2).length)) = _
  by_cases hcc : (c :: w2).contains ':' = true
  · rw [if_pos hcc, if_pos hcc]
  · rw [if_neg hcc, if_neg hcc]

theorem lexAll_word (w rest : Str) (line : Nat) {col : Nat} (hcol : 2 ≤ col)
    (hne : w ≠ []) (hstart : isIdentStart (peekCh w) = true)
    (hall : w.all isIdentCh = true) (hrest : isIdentCh (peekCh rest) = false) :
    lexAll (w ++ rest) line col =
      ⟨(if w.contains ':' then .account else .commodity), w, line, col⟩ ::
        lexAll rest line (col + w.length) :=
  lexAll_step_some
    (by intro hx
        rcases List.append_eq_nil.mp hx with ⟨h1, h2⟩
        exact hne h1)
    (scanStep_word w rest line hcol hne hstart hall hrest)

theorem digit_ne_seps {c : Char} (h : isDigitCh c = true) :
    (decide (c = '/') || decide (c = '-')) = false := by
  have h1 : ¬ c = '/' := fun he => absurd (he ▸ h) (by decide)
  have h2 : ¬ c = '-' := fun he => absurd (he ▸ h) (by decide)
  simp [h1, h2]

theorem isDateStart_digits_false (ds rest : Str) (hall : ds.all isDigitCh = true)
    (hr1 : isDigitCh (peekCh rest) = false)
    (hr3 : ¬ peekCh rest = '/' ∧ ¬ peekCh rest = '-') :
    isDateStart (ds ++ rest) = false := by
  rcases ds with _ | ⟨a, _ | ⟨b, _ | ⟨c, _ | ⟨d, _ | ⟨e, tl⟩⟩⟩⟩⟩
  · exact isDateStart_false_head hr1
  · rcases rest with _ | ⟨r0, _ | ⟨r1, _ | ⟨r2, _ | ⟨r3, rl⟩⟩⟩⟩ <;>
      first
      | rfl
      | (simp only [peekCh, List.headD_cons] at hr1
         simp [isDateStart, hr1])
  · rcases rest with _ | ⟨r0, _ | ⟨r1, _ | ⟨r2, rl⟩⟩⟩ <;>
      first
      | rfl
      | (simp only [peekCh, List.headD_cons] at hr1
         simp [isDateStart, hr1])
  · rcases rest with _ | ⟨r0, _ | ⟨r1, rl⟩⟩ <;>
      first
      | rfl
      | (simp only [peekCh, List.headD_cons] at hr1
         simp [isDateStart, hr1])
  · rcases rest with _ | ⟨r0, rl⟩
    · rfl
    · simp only [peekCh, List.headD_cons] at hr1 hr3
      simp only [List.cons_append, List.nil_append, isDateStart]
      have : (decide (r0 = '/') || decide (r0 = '-')) = false := by
        simp [hr3.1, hr3.2]
      simp [this]
  · simp only [List.all_cons, Bool.and_eq_true] at hall
    simp only [List.cons_append, isDateStart]
    rw [digit_ne_seps hall.2.2.2.2.1]
    simp

theorem scanNumberCore_no_dot {body : Str}
    (hd : ¬ (body.dropWhile isDigitCh).headD '\x00' = '.') :
    scanNumberCore body = (body.takeWhile isDigitCh, body.dropWhile isDigitCh) := by
  rw [scanNumberCore]
  split
  · rename_i cs3 heq
    rw [heq] at hd
    simp at hd
  · rfl

theorem scanStep_number (ds rest : Str) (line : Nat) {col : Nat} (hcol : 2 ≤ col)
    (hne : ds ≠ []) (hall : ds.all isDigitCh = true)
    (hr1 : isDigitCh (peekCh rest) = false) (hr2 : ¬ peekCh rest = '.')
    (hr3 : ¬ peekCh rest = '/' ∧ ¬ peekCh rest = '-') :
    scanStep (ds ++ rest) line col =
      (some ⟨.number, ds, line, col⟩, rest, line, col + ds.length) := by
  have hds := isDateStart_digits_false ds rest hall hr1 hr3
  rcases ds with _ | ⟨c, ds2⟩
  · exact absurd rfl hne
  have hstart : isDigitCh c = true := by
    simp only [List.all_cons, Bool.and_eq_true] at hall
    exact hall.1
  have hst := digit_not_spaceTab hstart
  have hcn : ¬ c = '\n' := fun he => absurd (he ▸ hstart) (by decide)
  have hcr : ¬ c = '\r' := fun he => absurd (he ▸ hstart) (by decide)
  have hsemi : ¬ c = ';' := fun he => absurd (he ▸ hstart) (by decide)
  have hcq : ¬ c = '"' := fun he => absurd (he ▸ hstart) (by decide)
  have hcm : ¬ c = '-' := fun he => absurd (he ▸ hstart) (by decide)
  have hcd : ¬ c = '$' := fun he => absurd (he ▸ hstart) (by decide)
  have hcp : ¬ c = 'P' := fun he => absurd (he ▸ hstart) (by decide)
  have htk := @takeWhile_stop isDigitCh (c :: ds2) rest hall hr1
  rw [List.cons_append] at hds htk
  rw [List.cons_append, scanStep, if_neg hcn, if_neg hcr,
    if_neg (by simp [hst]), if_neg (by simp [hst]), if_neg hsemi,
    if_neg (by simp [hcp]), if_neg (by rw [hds]; simp)]
  rw [scanAfterDate, if_neg hcq, if_neg (by simp [hcm]), if_neg hcd,
    if_pos (by simp [hstart])]
  have hnum : scanNumber (c :: (ds2 ++ rest)) = (c :: ds2, rest) := by
    rw [scanNumber, if_neg (by
      simp only [List.headD_cons]
      intro he
      exact hcm he)]
    rw [scanNumberCore_no_dot (by rw [htk.2]; exact hr2)]
    rw [htk.1, htk.2]
  rw [hnum]

theorem lexAll_number (ds rest : Str) (line : Nat) {col : Nat} (hcol : 2 ≤ col)
    (hne : ds ≠ []) (hall : ds.all isDigitCh = true)
    (hr1 : isDigitCh (peekCh rest) = false) (hr2 : ¬ peekCh rest = '.')
    (hr3 : ¬ peekCh rest = '/' ∧ ¬ peekCh rest = '-') :
    lexAll (ds ++ rest) line col =
      ⟨.number, ds, line, col⟩ :: lexAll rest line (col + ds.length) :=
  lexAll_step_some
    (by intro hx
        rcases List.append_eq_nil.mp hx with ⟨h1, h2⟩
        exact hne h1)
    (scanStep_number ds rest line hcol hne hall hr1 hr2 hr3)


theorem scanDate_full (a b c d m0 m1 d0 d1 s1 s2 : Char) (rest : Str) (col : Nat)
    (ha : isDigitCh a = true) (hb : isDigitCh b = true) (hc : isDigitCh c = true)
    (hdd : isDigitCh d = true) (hm0 : isDigitCh m0 = true) (hm1 : isDigitCh m1 = true)
    (hd0 : isDigitCh d0 = true) (hd1 : isDigitCh d1 = true)
    (hs1 : s1 = '/' ∨ s1 = '-') (hs2 : s2 = '/' ∨ s2 = '-') :
    scanDate (a :: b :: c :: d :: s1 :: m0 :: m1 :: s2 :: d0 :: d1 :: rest) col =
      (some (a :: b :: c :: d :: s1 :: m0 :: m1 :: s2 :: d0 :: d1 :: []), rest,
        col + 10) := by
  have hs1d : isDigitCh s1 = false := by
    rcases hs1 with rfl | rfl <;> rfl
  have hs2d : isDigitCh s2 = false := by
    rcases hs2 with rfl | rfl <;> rfl
  have hyr : scanDigitsUpTo 4 (a :: b :: c :: d :: s1 :: m0 :: m1 :: s2 :: d0 :: d1 :: rest) =
      ([a, b, c, d], s1 :: m0 :: m1 :: s2 :: d0 :: d1 :: rest) := by
    simp [scanDigitsUpTo, ha, hb, hc, hdd]
  have hmo : scanDigitsUpTo 2 (m0 :: m1 :: s2 :: d0 :: d1 :: rest) =
      ([m0, m1], s2 :: d0 :: d1 :: rest) := by
    simp [scanDigitsUpTo, hm0, hm1]
  have hdy : scanDigitsUpTo 2 (d0 :: d1 :: rest) = ([d0, d1], rest) := by
    simp [scanDigitsUpTo, hd0, hd1]
  rw [scanDate]
  rw [hyr]
  simp only []
  rw [if_pos (by rcases hs1 with rfl | rfl <;> simp)]
  rw [hmo]
  simp only []
  rw [if_pos (by rcases hs2 with rfl | rfl <;> simp)]
  rw [hdy]
  simp only [Prod.mk.injEq, List.cons_append, List.nil_append, List.length_cons,
    List.length_nil, Option.some.injEq]

theorem scanStep_date (a b c d m0 m1 d0 d1 s1 s2 : Char) (rest : Str) (line col : Nat)
    (ha : isDigitCh a = true) (hb : isDigitCh b = true) (hc : isDigitCh c = true)
    (hdd : isDigitCh d = true) (hm0 : isDigitCh m0 = true) (hm1 : isDigitCh m1 = true)
    (hd0 : isDigitCh d0 = true) (hd1 : isDigitCh d1 = true)
    (hs1 : s1 = '/' ∨ s1 = '-') (hs2 : s2 = '/' ∨ s2 = '-') :
    scanStep (a :: b :: c :: d :: s1 :: m0 :: m1 :: s2 :: d0 :: d1 :: rest) line col =
      (some ⟨.date, [a, b, c, d, s1, m0, m1, s2, d0, d1], line, col⟩, rest, line,
        col + 10) := by
  have hst := digit_not_spaceTab ha
  have hcn : ¬ a = '\n' := fun he => absurd (he ▸ ha) (by decide)
  have hcr : ¬ a = '\r' := fun he => absurd (he ▸ ha) (by decide)
  have hsemi : ¬ a = ';' := fun he => absurd (he ▸ ha) (by decide)
  have hcp : ¬ a = 'P' := fun he => absurd (he ▸ ha) (by decide)
  have hdstart : isDateStart (a :: b :: c :: d :: s1 :: m0 :: m1 :: s2 :: d0 :: d1 :: rest) =
      true := by
    simp only [isDateStart, ha, hb, hc, hdd, Bool.and_true, Bool.true_and]
    rcases hs1 with rfl | rfl <;> simp
  rw [scanStep, if_neg hcn, if_neg hcr, if_neg (by simp [hst]),
    if_neg (by simp [hst]), if_neg hsemi, if_neg (by simp [hcp]),
    if_pos hdstart]
  rw [scanDate_full a b c d m0 m1 d0 d1 s1 s2 rest col ha hb hc hdd hm0 hm1 hd0 hd1 hs1 hs2]
  show ((some (⟨.date, [a, b, c, d, s1, m0, m1, s2, d0, d1], line,
      col + 10 - ([a, b, c, d, s1, m0, m1, s2, d0, d1] : Str).length⟩ : Token) :
        Option Token), rest, line, col + 10) = _
  have : col + 10 - ([a, b, c, d, s1, m0, m1, s2, d0, d1] : Str).length = col := by
    simp
  rw [this]

theorem lexAll_date (a b c d m0 m1 d0 d1 s1 s2 : Char) (rest : Str) (line col : Nat)
    (ha : isDigitCh a = true) (hb : isDigitCh b = true) (hc : isDigitCh c = true)
    (hdd : isDigitCh d = true) (hm0 : isDigitCh m0 = true) (hm1 : isDigitCh m1 = true)
    (hd0 : isDigitCh d0 = true) (hd1 : isDigitCh d1 = true)
    (hs1 : s1 = '/' ∨ s1 = '-') (hs2 : s2 = '/' ∨ s2 = '-') :
    lexAll (a :: b :: c :: d :: s1 :: m0 :: m1 :: s2 :: d0 :: d1 :: rest) line col =
      ⟨.date, [a, b, c, d, s1, m0, m1, s2, d0, d1], line, col⟩ ::
        lexAll rest line (col + 10) :=
  lexAll_step_some (by simp)
    (scanStep_date a b c d m0 m1 d0 d1 s1 s2 rest line col ha hb hc hdd hm0 hm1
      hd0 hd1 hs1 hs2)


/-- Description words that survive the writer-lexer-parser round trip: a
nonempty identifier-shaped word without a colon. -/
def wordOkB (w : Str) : Bool :=
  !w.isEmpty && isIdentStart (peekCh w) && w.all isIdentCh && !w.contains ':'

/-- Account names of the round-trip class: nonempty identifier-shaped text. -/
def accountOkB (a : Str) : Bool :=
  !a.isEmpty && isIdentStart (peekCh a) && a.all isIdentCh

/-- Commodities of the round-trip class: the dollar sign, or a nonempty
identifier-shaped symbol without a colon. -/
def commodityOkB (c : Str) : Bool :=
  decide (c = "$".data) ||
    (!c.isEmpty && isIdentStart (peekCh c) && c.all isIdentCh && !c.contains ':')

/-- Quantities of the round-trip class: integers inside the plain-notation
range of `Decimal.toString`. -/
def quantityOkB (q : ℚ) : Bool :=
  decide (q.den = 1) && decide (q.num.natAbs < 10 ^ 21)

/-- Dates of the round-trip class: a four-digit year and calendar month and
day fields. -/
def dateOkB (d : DateY) : Bool :=
  decide (1000 ≤ d.year) && decide (d.year ≤ 9999) && decide (1 ≤ d.month) &&
    decide (d.month ≤ 12) && decide (1 ≤ d.day) && decide (d.day ≤ 31)

/-- External ids of the round-trip class: absent, or nonempty without
whitespace. -/
def extIdOkB : Option Str → Bool
  | none => true
  | some s => !s.isEmpty && s.all (fun c => !isJsWhitespace c)

/-- Postings of the round-trip class. -/
def postingOkB (p : Posting) : Bool :=
  accountOkB p.account && commodityOkB p.commodity && quantityOkB p.quantity

/-- The round-trip class of transactions: restricted date, single-spaced
identifier-word description, identifier accounts, dollar or identifier
commodities, integer quantities, plain external id, and no stored comment. -/
def writableTx (t : Transaction) : Bool :=
  dateOkB t.date && (splitOnChar ' ' t.description).all wordOkB &&
    t.postings.all postingOkB && extIdOkB t.externalId && (t.comment.getD []).isEmpty

theorem decScaleOf_one : decScaleOf 1 = 0 := rfl

theorem decAbsToStr_int (q : ℚ) (h : q.den = 1) :
    decAbsToStr q = natToStr q.num.natAbs := by
  rw [decAbsToStr, h, decScaleOf_one]
  simp

theorem decToStr_int (q : ℚ) (h : q.den = 1) :
    decToStr q = if q < 0 then '-' :: natToStr q.num.natAbs
      else natToStr q.num.natAbs := by
  rw [decToStr]
  by_cases hq : q < 0
  · rw [if_pos hq, if_pos hq, decAbsToStr_int (-q) (by rw [Rat.neg_den, h])]
    simp
  · rw [if_neg hq, if_neg hq, decAbsToStr_int q h]

theorem identCh_plain {c : Char} (h : isIdentCh c = true) (hc : ¬ c = ':') :
    isCommodityPlainCh c = true := by
  simp only [isIdentCh, isIdentStart, Bool.or_eq_true, Bool.and_eq_true,
    decide_eq_true_eq] at h
  simp only [isCommodityPlainCh, isDigitCh, Bool.or_eq_true, Bool.and_eq_true,
    decide_eq_true_eq]
  rcases h with (((((⟨h1, h2⟩ | ⟨h1, h2⟩) | h1) | h1) | h1) | h1) | h1
  · exact Or.inl (Or.inl (Or.inl (Or.inr ⟨h1, h2⟩)))
  · exact Or.inl (Or.inl (Or.inl (Or.inl ⟨h1, h2⟩)))
  · exact Or.inl (Or.inr h1)
  · simp only [isDigitCh, Bool.and_eq_true, decide_eq_true_eq] at h1
    exact Or.inl (Or.inl (Or.inr h1))
  · exact absurd h1 hc
  · exact Or.inl (Or.inr h1)
  · exact Or.inr h1

theorem formatCommodity_plain {c : Str} (hstart : isIdentStart (peekCh c) = true)
    (hall : c.all isIdentCh = true) (hmem : ':' ∉ c) :
    formatCommodity c = c := by
  rw [formatCommodity, if_neg]
  intro hx
  rw [Bool.or_eq_true] at hx
  rcases hx with h1 | h1
  · rw [List.any_eq_true] at h1
    obtain ⟨x, hx1, hx2⟩ := h1
    have hxi := List.all_eq_true.mp hall x hx1
    have hxc : ¬ x = ':' := fun he => hmem (he ▸ hx1)
    rw [identCh_plain hxi hxc] at hx2
    simp at hx2
  · have h2 : isDigitCh (c.headD '\x00') = false := identStart_not_digit hstart
    rw [h2] at h1
    simp at h1


/-- Tokens the lexer produces for a rendered amount starting at the given
column. -/
def amountToks (p : Posting) (line col : Nat) : List Token :=
  if p.commodity = "$".data then
    if p.quantity < 0 then
      [⟨.minus, "-".data, line, col - 1⟩, ⟨.commodity, "$".data, line, col⟩,
       ⟨.number, natToStr p.quantity.num.natAbs, line, col + 3⟩]
    else
      [⟨.commodity, "$".data, line, col - 1⟩,
       ⟨.number, natToStr p.quantity.num.natAbs, line, col + 2⟩]
  else
    if p.quantity < 0 then
      [⟨.commodity, p.commodity, line, col⟩,
       ⟨.minus, "-".data, line, col + p.commodity.length⟩,
       ⟨.number, natToStr p.quantity.num.natAbs, line, col + p.commodity.length + 2⟩]
    else
      [⟨.commodity, p.commodity, line, col⟩,
       ⟨.number, natToStr p.quantity.num.natAbs, line, col + p.commodity.length + 1⟩]

theorem natToStr_head_digit (n : Nat) : isDigitCh (peekCh (natToStr n)) = true := by
  obtain ⟨hall, hne, hv⟩ := natToStr_spec n
  rcases hx : natToStr n with _ | ⟨c, cs⟩
  · exact absurd hx hne
  · rw [hx] at hall
    simp only [List.all_cons, Bool.and_eq_true] at hall
    exact hall.1

theorem peekCh_append {l r : Str} (h : l ≠ []) : peekCh (l ++ r) = peekCh l := by
  rcases l with _ | ⟨c, cs⟩
  · exact absurd rfl h
  · rfl

theorem lexAll_amount (p : Posting) (rest : Str) (line : Nat) {col : Nat}
    (hcol : 2 ≤ col) (hp : postingOkB p = true)
    (hr1 : isDigitCh (peekCh rest) = false) (hr2 : ¬ peekCh rest = '.')
    (hr3 : ¬ peekCh rest = '/' ∧ ¬ peekCh rest = '-') :
    ∃ c2, lexAll (formatAmount p ++ rest) line col =
      amountToks p line col ++ lexAll rest line c2 := by
  simp only [postingOkB, Bool.and_eq_true] at hp
  obtain ⟨⟨hacct, hcom⟩, hqty⟩ := hp
  simp only [quantityOkB, Bool.and_eq_true, decide_eq_true_eq] at hqty
  have hds := natToStr_spec p.quantity.num.natAbs
  by_cases hdol : p.commodity = "$".data
  · by_cases hneg : p.quantity < 0
    · refine ⟨col + 1 + 1 + 1 + (natToStr p.quantity.num.natAbs).length, ?_⟩
      rw [amountToks, if_pos hdol, if_pos hneg, formatAmount, if_pos hdol,
        if_pos hneg, decAbsToStr_int (-p.quantity) (by rw [Rat.neg_den, hqty.1])]
      have hnum : (-p.quantity).num.natAbs = p.quantity.num.natAbs := by
        simp [Rat.neg_num]
      rw [hnum]
      show lexAll ('-' :: '$' :: ' ' :: (natToStr p.quantity.num.natAbs ++ rest))
          line col = _
      rw [lexAll_minus ('$' :: ' ' :: (natToStr p.quantity.num.natAbs ++ rest))
          line (Or.inl rfl) hcol,
        lexAll_dollar (' ' :: (natToStr p.quantity.num.natAbs ++ rest)) line
          (by omega),
        lexAll_space (by omega),
        lexAll_number (natToStr p.quantity.num.natAbs) rest line (by omega)
          hds.2.1 hds.1 hr1 hr2 hr3]
      simp only [List.cons_append, List.nil_append, List.cons.injEq, Token.mk.injEq,
        eq_self_iff_true, and_true, true_and]
      try omega
    · refine ⟨col + 1 + 1 + (natToStr p.quantity.num.natAbs).length, ?_⟩
      rw [amountToks, if_pos hdol, if_neg hneg, formatAmount, if_pos hdol,
        if_neg hneg, decAbsToStr_int p.quantity hqty.1]
      show lexAll ('$' :: ' ' :: (natToStr p.quantity.num.natAbs ++ rest))
          line col = _
      rw [lexAll_dollar (' ' :: (natToStr p.quantity.num.natAbs ++ rest)) line hcol,
        lexAll_space (by omega),
        lexAll_number (natToStr p.quantity.num.natAbs) rest line (by omega)
          hds.2.1 hds.1 hr1 hr2 hr3]
      simp only [List.cons_append, List.nil_append, List.cons.injEq, Token.mk.injEq,
        eq_self_iff_true, and_true, true_and]
      try omega
  · have hcom2 : (!p.commodity.isEmpty && isIdentStart (peekCh p.commodity) &&
        p.commodity.all isIdentCh && !p.commodity.contains ':') = true := by
      simp only [commodityOkB, Bool.or_eq_true, decide_eq_true_eq] at hcom
      rcases hcom with h1 | h1
      · exact absurd h1 hdol
      · exact h1
    simp only [Bool.and_eq_true, Bool.not_eq_eq_eq_not, Bool.not_true,
      List.isEmpty_eq_false] at hcom2
    obtain ⟨⟨⟨hne, hstart⟩, hall⟩, hnc⟩ := hcom2
    have hmem : ':' ∉ p.commodity := by simpa using hnc
    have hfc := formatCommodity_plain hstart hall hmem
    by_cases hneg : p.quantity < 0
    · refine ⟨col + p.commodity.length + 1 + 1 +
        (natToStr p.quantity.num.natAbs).length, ?_⟩
      rw [amountToks, if_neg hdol, if_pos hneg, formatAmount, if_neg hdol, hfc,
        decToStr_int p.quantity hqty.1, if_pos hneg]
      simp only [List.append_assoc, List.cons_append]
      rw [lexAll_word p.commodity
          (' ' :: '-' :: (natToStr p.quantity.num.natAbs ++ rest)) line hcol
          hne hstart hall (by rfl),
        if_neg (by simp [hmem]),
        lexAll_space (by omega),
        lexAll_minus (natToStr p.quantity.num.natAbs ++ rest) line
          (Or.inr (by rw [peekCh_append hds.2.1]; exact natToStr_head_digit _))
          (by omega),
        lexAll_number (natToStr p.quantity.num.natAbs) rest line (by omega)
          hds.2.1 hds.1 hr1 hr2 hr3]
      simp only [List.cons_append, List.nil_append, List.cons.injEq, Token.mk.injEq,
        eq_self_iff_true, and_true, true_and]
      try omega
    · refine ⟨col + p.commodity.length + 1 +
        (natToStr p.quantity.num.natAbs).length, ?_⟩
      rw [amountToks, if_neg hdol, if_neg hneg, formatAmount, if_neg hdol, hfc,
        decToStr_int p.quantity hqty.1, if_neg hneg]
      simp only [List.append_assoc, List.cons_append]
      rw [lexAll_word p.commodity
          (' ' :: (natToStr p.quantity.num.natAbs ++ rest)) line hcol
          hne hstart hall (by rfl),
        if_neg (by simp [hmem]),
        lexAll_space (by omega),
        lexAll_number (natToStr p.quantity.num.natAbs) rest line (by omega)
          hds.2.1 hds.1 hr1 hr2 hr3]
      simp only [List.cons_append, List.nil_append, List.cons.injEq, Token.mk.injEq,
        eq_self_iff_true, and_true, true_and]
      try omega

theorem parseAmount_dollar (q : Str) (l2 c2 l4 c4 : Nat) (rest : List Token)
    (hq : ¬ q.headD '\x00' = '-') :
    parseAmount (⟨.commodity, "$".data, l2, c2⟩ :: ⟨.number, q, l4, c4⟩ :: rest) =
      .ok ({ quantity := q, commodity := "$".data, isNegative := false,
             commodityPosition := .pre }, rest) := by
  have hs : startsWith "-".data q = false := by
    rw [← Bool.not_eq_true, startsWith_minus_headD]
    exact hq
  simp [parseAmount, parseNumberValue, checkTok, peekTok, finalizeAmount, hs]

theorem parseAmount_sym (sym q : Str) (l2 c2 l4 c4 : Nat) (rest : List Token)
    (hsym : ¬ sym = "$".data) (hq : ¬ q.headD '\x00' = '-') :
    parseAmount (⟨.commodity, sym, l2, c2⟩ :: ⟨.number, q, l4, c4⟩ :: rest) =
      .ok ({ quantity := q, commodity := sym, isNegative := false,
             commodityPosition := .pre }, rest) := by
  have hs : startsWith "-".data q = false := by
    rw [← Bool.not_eq_true, startsWith_minus_headD]
    exact hq
  simp [parseAmount, parseNumberValue, parseCommoditySymbol,
    parseAmountCommodityFirst, checkTok, peekTok, finalizeAmount, hs, hsym]

theorem parseAmount_sym_minus (sym q : Str) (l2 c2 l3 c3 l4 c4 : Nat)
    (rest : List Token) (hsym : ¬ sym = "$".data) :
    parseAmount (⟨.commodity, sym, l2, c2⟩ :: ⟨.minus, "-".data, l3, c3⟩ ::
        ⟨.number, q, l4, c4⟩ :: rest) =
      .ok ({ quantity := q, commodity := sym, isNegative := true,
             commodityPosition := .pre }, rest) := by
  simp [parseAmount, parseNumberValue, parseCommoditySymbol,
    parseAmountCommodityFirst, checkTok, peekTok, finalizeAmount, startsWith, hsym]

theorem skipToEol_stop {rest : List Token}
    (hrest : (peekTok rest).type = .newline ∨ (peekTok rest).type = .eof) :
    skipToEol rest = rest := by
  rcases rest with _ | ⟨t, ts⟩
  · rfl
  · simp only [peekTok, List.headD_cons] at hrest
    rw [skipToEol, List.dropWhile_cons_of_neg]
    rcases hrest with h | h <;> simp [h]

theorem checkTok_stop {rest : List Token} (tt : TokType) (hne : ¬ tt = .newline)
    (hne2 : ¬ tt = .eof)
    (hrest : (peekTok rest).type = .newline ∨ (peekTok rest).type = .eof) :
    checkTok tt rest = false := by
  rcases hrest with h | h
  · rw [checkTok, h]
    have h1 : (TokType.newline = tt) = False := by
      simp only [eq_iff_iff, iff_false]
      intro he
      exact hne he.symm
    simp [h1]
  · rw [checkTok, h]
    simp

/-- Tokens the lexer produces for one rendered posting line. -/
def postingToks (o : WriterOptions) (p : Posting) (line : Nat) : List Token :=
  ⟨.indent, List.replicate o.indentSize ' ', line, 1⟩ ::
  ⟨(if p.account.contains ':' then .account else .commodity), p.account, line,
    1 + o.indentSize⟩ ::
  amountToks p line (1 + o.indentSize + p.account.length +
    max 4 (o.amountAlignment - (o.indentSize + p.account.length)))

theorem accountExtend_stop (t : Token) (ts : List Token) (acc : Str)
    (h : ((decide (t.type = TokType.commodity) || decide (t.type = TokType.account)) &&
        t.value.contains ':') = false) :
    accountExtend (t :: ts) acc = (acc, t :: ts) := by
  rw [accountExtend]
  simp only [h, Bool.false_eq_true, if_false]

theorem parsePosting_seg (o : WriterOptions) (p : Posting) (line : Nat)
    (rest : List Token) (hp : postingOkB p = true)
    (hrest : (peekTok rest).type = .newline ∨ (peekTok rest).type = .eof) :
    parsePosting (postingToks o p line ++ rest) =
      .ok (some { account := p.account,
                  amount := some { quantity := natToStr p.quantity.num.natAbs,
                                   commodity := p.commodity,
                                   isNegative := decide (p.quantity < 0),
                                   commodityPosition := .pre },
                  comment := none, lineNumber := line }, rest) := by
  simp only [postingOkB, Bool.and_eq_true] at hp
  obtain ⟨⟨hacct, hcom⟩, hqty⟩ := hp
  have hqh : ¬ (natToStr p.quantity.num.natAbs).headD '\x00' = '-' := by
    intro he
    have hh := natToStr_head_digit p.quantity.num.natAbs
    rw [show peekCh (natToStr p.quantity.num.natAbs) =
      (natToStr p.quantity.num.natAbs).headD '\x00' from rfl, he] at hh
    exact absurd hh (by decide)
  have hcc := @checkTok_stop rest .comment (by decide) (by decide) hrest
  have hat : (if p.account.contains ':' then TokType.account else TokType.commodity) =
        TokType.account ∨
      (if p.account.contains ':' then TokType.account else TokType.commodity) =
        TokType.commodity := by
    split
    · exact Or.inl rfl
    · exact Or.inr rfl
  by_cases hdol : p.commodity = "$".data
  · by_cases hneg : p.quantity < 0
    · rw [postingToks, amountToks, if_pos hdol, if_pos hneg]
      rcases hat with hat | hat <;>
        (rw [hat]
         simp only [List.cons_append, List.nil_append]
         rw [parsePosting]
         rw [if_neg (by simp [checkTok, peekTok])]
         rw [if_neg (by simp [checkTok, peekTok])]
         rw [if_neg (by simp [checkTok, peekTok])]
         simp only [peekTok, List.headD_cons, List.tail_cons]
         rw [accountExtend_stop _ _ _ (by rfl)]
         rw [if_pos (by simp [checkTok, peekTok])]
         rw [parseAmount_minus_plain _ _ _ _ _ _ _ _ hqh]
         simp only [Except.map]
         rw [hcc]
         simp only [Bool.false_eq_true, if_false]
         rw [skipToEol_stop hrest]
         rw [hdol]
         rw [decide_eq_true hneg])
    · rw [postingToks, amountToks, if_pos hdol, if_neg hneg]
      rcases hat with hat | hat <;>
        (rw [hat]
         simp only [List.cons_append, List.nil_append]
         rw [parsePosting]
         rw [if_neg (by simp [checkTok, peekTok])]
         rw [if_neg (by simp [checkTok, peekTok])]
         rw [if_neg (by simp [checkTok, peekTok])]
         simp only [peekTok, List.headD_cons, List.tail_cons]
         rw [accountExtend_stop _ _ _ (by rfl)]
         rw [if_pos (by simp [checkTok, peekTok])]
         rw [parseAmount_dollar _ _ _ _ _ _ hqh]
         simp only [Except.map]
         rw [hcc]
         simp only [Bool.false_eq_true, if_false]
         rw [skipToEol_stop hrest]
         rw [hdol]
         rw [decide_eq_false hneg])
  · have hcom2 : (!p.commodity.isEmpty && isIdentStart (peekCh p.commodity) &&
        p.commodity.all isIdentCh && !p.commodity.contains ':') = true := by
      simp only [commodityOkB, Bool.or_eq_true, decide_eq_true_eq] at hcom
      rcases hcom with h1 | h1
      · exact absurd h1 hdol
      · exact h1
    simp only [Bool.and_eq_true, Bool.not_eq_eq_eq_not, Bool.not_true,
      List.isEmpty_eq_false] at hcom2
    obtain ⟨⟨⟨hcne, hcstart⟩, hcall⟩, hcnc⟩ := hcom2
    by_cases hneg : p.quantity < 0
    · rw [postingToks, amountToks, if_neg hdol, if_pos hneg]
      rcases hat with hat | hat <;>
        (rw [hat]
         simp only [List.cons_append, List.nil_append]
         rw [parsePosting]
         rw [if_neg (by simp [checkTok, peekTok])]
         rw [if_neg (by simp [checkTok, peekTok])]
         rw [if_neg (by simp [checkTok, peekTok])]
         simp only [peekTok, List.headD_cons, List.tail_cons]
         rw [accountExtend_stop _ _ _ (by simp only [hcnc, Bool.and_false])]
         rw [if_pos (by simp [checkTok, peekTok])]
         rw [parseAmount_sym_minus _ _ _ _ _ _ _ _ _ hdol]
         simp only [Except.map]
         rw [hcc]
         simp only [Bool.false_eq_true, if_false]
         rw [skipToEol_stop hrest]
         rw [decide_eq_true hneg])
    · rw [postingToks, amountToks, if_neg hdol, if_neg hneg]
      rcases hat with hat | hat <;>
        (rw [hat]
         simp only [List.cons_append, List.nil_append]
         rw [parsePosting]
         rw [if_neg (by simp [checkTok, peekTok])]
         rw [if_neg (by simp [checkTok, peekTok])]
         rw [if_neg (by simp [checkTok, peekTok])]
         simp only [peekTok, List.headD_cons, List.tail_cons]
         rw [accountExtend_stop _ _ _ (by simp only [hcnc, Bool.and_false])]
         rw [if_pos (by simp [checkTok, peekTok])]
         rw [parseAmount_sym _ _ _ _ _ _ _ hdol hqh]
         simp only [Except.map]
         rw [hcc]
         simp only [Bool.false_eq_true, if_false]
         rw [skipToEol_stop hrest]
         rw [decide_eq_false hneg])

theorem lexAll_posting_line (o : WriterOptions) (p : Posting) (rest : Str) (line : Nat)
    (ho : 1 ≤ o.indentSize) (hp : postingOkB p = true)
    (hr1 : isDigitCh (peekCh rest) = false) (hr2 : ¬ peekCh rest = '.')
    (hr3 : ¬ peekCh rest = '/' ∧ ¬ peekCh rest = '-') :
    ∃ c2, lexAll (writePosting o p ++ rest) line 1 =
      postingToks o p line ++ lexAll rest line c2 := by
  have hp2 := hp
  simp only [postingOkB, Bool.and_eq_true] at hp2
  obtain ⟨⟨hacct, hcomq⟩, hqtyq⟩ := hp2
  simp only [accountOkB, Bool.and_eq_true, Bool.not_eq_eq_eq_not, Bool.not_true,
    List.isEmpty_eq_false] at hacct
  obtain ⟨⟨hane, hastart⟩, haall⟩ := hacct
  have hpad : max 4 (o.amountAlignment - (o.indentSize + p.account.length)) =
      (max 4 (o.amountAlignment - (o.indentSize + p.account.length)) - 1) + 1 := by
    omega
  obtain ⟨c2, ham⟩ := @lexAll_amount p rest line
    (1 + o.indentSize + p.account.length +
      max 4 (o.amountAlignment - (o.indentSize + p.account.length)))
    (by omega) hp hr1 hr2 hr3
  refine ⟨c2, ?_⟩
  rw [writePosting]
  simp only [List.append_assoc]
  rw [lexAll_indent (List.replicate o.indentSize ' ')
      (p.account ++ (List.replicate
        (max 4 (o.amountAlignment - (o.indentSize + p.account.length))) ' ' ++
        (formatAmount p ++ rest))) line
      (by simp only [ne_eq, List.replicate_eq_nil]; omega)
      (by simp [isSpaceTab])
      (by rw [peekCh_append hane]; exact identStart_not_spaceTab hastart)]
  simp only [List.length_replicate]
  rw [@lexAll_word p.account
      (List.replicate
        (max 4 (o.amountAlignment - (o.indentSize + p.account.length))) ' ' ++
        (formatAmount p ++ rest)) line (1 + o.indentSize)
      (by omega) hane hastart haall
      (by rw [hpad, List.replicate_succ]; rfl)]
  rw [lexAll_spaces (max 4 (o.amountAlignment - (o.indentSize + p.account.length)))
      (formatAmount p ++ rest) line (1 + o.indentSize + p.account.length) (by omega)]
  rw [ham]
  rw [postingToks]
  simp only [List.cons_append]

/-- Posting nodes the parser recovers from consecutive rendered posting
lines, one line each. -/
def postingNodes : List Posting → Nat → List PostingNode
  | [], _ => []
  | p :: ps, line =>
    { account := p.account,
      amount := some { quantity := natToStr p.quantity.num.natAbs,
                       commodity := p.commodity,
                       isNegative := decide (p.quantity < 0),
                       commodityPosition := .pre },
      comment := none, lineNumber := line } :: postingNodes ps (line + 1)

theorem skipNewlines_of_head {ts : List Token}
    (h : ¬ (peekTok ts).type = .newline) : skipNewlines ts = ts := by
  rcases ts with _ | ⟨t, ts2⟩
  · rfl
  · simp only [peekTok, List.headD_cons] at h
    rw [skipNewlines, List.dropWhile_cons_of_neg]
    simp [checkTok, peekTok, h]

theorem lexAll_body_head (o : WriterOptions) (r : Posting) (rs : List Posting)
    (line : Nat) (ho : 1 ≤ o.indentSize) (hr : postingOkB r = true) :
    (peekTok (lexAll (List.intercalate "\n".data
      ((r :: rs).map (writePosting o))) line 1)).type = .indent := by
  rcases rs with _ | ⟨q, rs2⟩
  · obtain ⟨c2, hlex⟩ := lexAll_posting_line o r [] line ho hr (by decide)
      (by decide) (by decide)
    rw [List.append_nil] at hlex
    rw [show List.intercalate "\n".data ([r].map (writePosting o)) =
      writePosting o r from by simp [List.intercalate]]
    rw [hlex, postingToks]
    rfl
  · rw [show List.intercalate "\n".data (((r :: q :: rs2)).map (writePosting o)) =
        writePosting o r ++ '\n' :: List.intercalate "\n".data
          ((q :: rs2).map (writePosting o)) from by
      simp only [List.map_cons]
      rw [intercalate_two]
      simp [List.append_assoc]]
    obtain ⟨c2, hlex⟩ := lexAll_posting_line o r
      ('\n' :: List.intercalate "\n".data ((q :: rs2).map (writePosting o)))
      line ho hr (by rfl) (by simp [peekCh])
      ⟨by simp [peekCh], by simp [peekCh]⟩
    rw [hlex, postingToks]
    rfl

theorem postingsLoop_body (o : WriterOptions) (ps : List Posting) :
    ∀ (line fuel : Nat) (acc : List PostingNode), 1 ≤ o.indentSize →
    (∀ p ∈ ps, postingOkB p = true) → ps.length < fuel →
    ∃ le ce,
      postingsLoop fuel
        (lexAll (List.intercalate "\n".data (ps.map (writePosting o))) line 1) acc =
        .ok (acc.reverse ++ postingNodes ps line, [⟨.eof, [], le, ce⟩]) := by
  induction ps with
  | nil =>
    intro line fuel acc ho hps hfuel
    rcases fuel with _ | f
    · omega
    refine ⟨line, 1, ?_⟩
    show postingsLoop (f + 1) (lexAll [] line 1) acc = _
    rw [show lexAll [] line 1 = [⟨.eof, [], line, 1⟩] from rfl]
    rw [postingsLoop, if_neg (by simp [checkTok, peekTok])]
    simp [postingNodes]
  | cons p ps ih =>
    intro line fuel acc ho hps hfuel
    rcases fuel with _ | f
    · omega
    have hp := hps p (by simp)
    rcases ps with _ | ⟨q, ps2⟩
    · obtain ⟨c2, hlex⟩ := lexAll_posting_line o p [] line ho hp (by decide)
        (by decide) (by decide)
      rw [List.append_nil] at hlex
      refine ⟨line, c2, ?_⟩
      rw [show List.intercalate "\n".data ([p].map (writePosting o)) =
        writePosting o p from by simp [List.intercalate]]
      rw [hlex]
      rw [show lexAll [] line c2 = [⟨.eof, [], line, c2⟩] from rfl]
      rw [postingsLoop,
        if_pos (by simp [checkTok, peekTok, postingToks, List.cons_append])]
      rw [parsePosting_seg o p line [⟨.eof, [], line, c2⟩] hp (Or.inr rfl)]
      show postingsLoop f (skipNewlines [⟨.eof, [], line, c2⟩]) _ = _
      rw [skipNewlines_of_head (by simp [peekTok])]
      rcases f with _ | g
      · simp at hfuel
      rw [postingsLoop, if_neg (by simp [checkTok, peekTok])]
      simp [postingNodes]
    · have htail : List.intercalate "\n".data ((p :: q :: ps2).map (writePosting o)) =
          writePosting o p ++ '\n' :: List.intercalate "\n".data
            ((q :: ps2).map (writePosting o)) := by
        simp only [List.map_cons]
        rw [intercalate_two]
        simp [List.append_assoc]
      obtain ⟨c2, hlex⟩ := lexAll_posting_line o p
        ('\n' :: List.intercalate "\n".data ((q :: ps2).map (writePosting o)))
        line ho hp (by rfl) (by simp [peekCh])
        ⟨by simp [peekCh], by simp [peekCh]⟩
      rw [lexAll_newline] at hlex
      have hq := hps q (by simp)
      have hhead := lexAll_body_head o q ps2 (line + 1) ho hq
      obtain ⟨le, ce, hih⟩ := ih (line + 1) f
        ({ account := p.account,
           amount := some { quantity := natToStr p.quantity.num.natAbs,
                            commodity := p.commodity,
                            isNegative := decide (p.quantity < 0),
                            commodityPosition := .pre },
           comment := none, lineNumber := line } :: acc) ho
        (by intro r hr; exact hps r (by simp [hr]))
        (by simp at hfuel ⊢; omega)
      refine ⟨le, ce, ?_⟩
      rw [htail, hlex]
      rw [postingsLoop,
        if_pos (by simp [checkTok, peekTok, postingToks, List.cons_append])]
      rw [parsePosting_seg o p line
        (⟨.newline, "\n".data, line, c2 - 1⟩ ::
          lexAll (List.intercalate "\n".data ((q :: ps2).map (writePosting o)))
            (line + 1) 1) hp (Or.inl rfl)]
      show postingsLoop f (skipNewlines (⟨.newline, "\n".data, line, c2 - 1⟩ ::
        lexAll (List.intercalate "\n".data ((q :: ps2).map (writePosting o)))
          (line + 1) 1)) _ = _
      rw [show skipNewlines (⟨.newline, "\n".data, line, c2 - 1⟩ ::
          lexAll (List.intercalate "\n".data ((q :: ps2).map (writePosting o)))
            (line + 1) 1) =
          skipNewlines (lexAll (List.intercalate "\n".data
            ((q :: ps2).map (writePosting o))) (line + 1) 1) from by
        rw [skipNewlines, List.dropWhile_cons_of_pos (by simp [checkTok, peekTok])]
        rfl]
      rw [skipNewlines_of_head (by rw [hhead]; simp)]
      rw [hih]
      simp [postingNodes, List.append_assoc]

theorem digit_not_sep {x : Char} (hx : isDigitCh x = true) :
    ¬ x = '-' ∧ ¬ x = '/' :=
  ⟨fun he => absurd (he ▸ hx) (by decide), fun he => absurd (he ▸ hx) (by decide)⟩

theorem sep_not_mem_digits {sep : Char} {l : Str} (hall : l.all isDigitCh = true)
    (hsep : isDigitCh sep = false) : sep ∉ l := by
  intro hmem
  have hx := List.all_eq_true.mp hall sep hmem
  rw [hx] at hsep
  cases hsep

theorem formatDate_shape (o : WriterOptions) (d : DateY) (hd : dateOkB d = true) :
    ∃ a b c dd m0 m1 d0 d1 s,
      formatDate o d = [a, b, c, dd, s, m0, m1, s, d0, d1] ∧
      isDigitCh a = true ∧ isDigitCh b = true ∧ isDigitCh c = true ∧
      isDigitCh dd = true ∧ isDigitCh m0 = true ∧ isDigitCh m1 = true ∧
      isDigitCh d0 = true ∧ isDigitCh d1 = true ∧ (s = '/' ∨ s = '-') ∧
      digitsToNat [a, b, c, dd] = d.year ∧ digitsToNat [m0, m1] = d.month ∧
      digitsToNat [d0, d1] = d.day := by
  simp only [dateOkB, Bool.and_eq_true, decide_eq_true_eq] at hd
  obtain ⟨⟨⟨⟨⟨hy1, hy2⟩, hm1b⟩, hm2⟩, hd1b⟩, hd2⟩ := hd
  have hys := natToStr_spec d.year
  have hylen := natToStr_length_four hy1 hy2
  have hms := pad2_nat_spec (show d.month ≤ 99 by omega)
  have hds := pad2_nat_spec (show d.day ≤ 99 by omega)
  rcases hyl : natToStr d.year with _ | ⟨a, _ | ⟨b, _ | ⟨c, _ | ⟨dd, tl⟩⟩⟩⟩ <;>
    rw [hyl] at hylen <;> simp only [List.length_cons, List.length_nil] at hylen
  · omega
  · omega
  · omega
  · omega
  have htl : tl = [] := by
    have : tl.length = 0 := by omega
    exact List.length_eq_zero.mp this
  subst htl
  rcases hml : padZeros 2 (natToStr d.month) with _ | ⟨m0, _ | ⟨m1, tlm⟩⟩ <;>
    rw [hml] at hms <;> simp only [List.length_cons, List.length_nil] at hms
  · omega
  · omega
  have htlm : tlm = [] := by
    have : tlm.length = 0 := by omega
    exact List.length_eq_zero.mp this
  subst htlm
  rcases hdl : padZeros 2 (natToStr d.day) with _ | ⟨d0, _ | ⟨d1, tld⟩⟩ <;>
    rw [hdl] at hds <;> simp only [List.length_cons, List.length_nil] at hds
  · omega
  · omega
  have htld : tld = [] := by
    have : tld.length = 0 := by omega
    exact List.length_eq_zero.mp this
  subst htld
  rw [hyl] at hys
  simp only [List.all_cons, List.all_nil, Bool.and_eq_true, and_true] at hys hms hds
  refine ⟨a, b, c, dd, m0, m1, d0, d1, if o.slashFormat then '/' else '-',
    ?_, hys.1.1, hys.1.2.1, hys.1.2.2.1, hys.1.2.2.2, hms.2.1.1, hms.2.1.2,
    hds.2.1.1, hds.2.1.2, by split <;> simp, hys.2.2, hms.2.2, hds.2.2⟩
  rw [formatDate, hyl, hml, hdl]
  rfl

theorem parseDateStr_formatDate (o : WriterOptions) (d : DateY)
    (hd : dateOkB d = true) : parseDateStr (formatDate o d) = some d := by
  obtain ⟨a, b, c, dd, m0, m1, d0, d1, s, hsh, ha, hb, hc, hdd, hm0, hm1, hd0,
    hd1, hs, hy, hm, hdy⟩ := formatDate_shape o d hd
  simp only [dateOkB, Bool.and_eq_true, decide_eq_true_eq] at hd
  obtain ⟨⟨⟨⟨⟨hy1, hy2⟩, hm1b⟩, hm2⟩, hd1b⟩, hd2⟩ := hd
  rw [hsh, parseDateStr]
  have hmap : List.map (fun c => if c = '/' then '-' else c)
      [a, b, c, dd, s, m0, m1, s, d0, d1] =
      [a, b, c, dd, '-', m0, m1, '-', d0, d1] := by
    simp only [List.map_cons, List.map_nil]
    rw [if_neg (digit_not_sep ha).2, if_neg (digit_not_sep hb).2,
      if_neg (digit_not_sep hc).2, if_neg (digit_not_sep hdd).2,
      if_neg (digit_not_sep hm0).2, if_neg (digit_not_sep hm1).2,
      if_neg (digit_not_sep hd0).2, if_neg (digit_not_sep hd1).2]
    rcases hs with rfl | rfl
    · rfl
    · rfl
  rw [hmap]
  have hsplit : splitOnChar '-' [a, b, c, dd, '-', m0, m1, '-', d0, d1] =
      [[a, b, c, dd], [m0, m1], [d0, d1]] := by
    have h1 : ([a, b, c, dd] : Str) ++ '-' :: ([m0, m1] ++ '-' :: [d0, d1]) =
        [a, b, c, dd, '-', m0, m1, '-', d0, d1] := rfl
    rw [← h1, splitOnChar_append_sep '-' [a, b, c, dd] _
        (sep_not_mem_digits (by simp [ha, hb, hc, hdd]) (by decide)),
      splitOnChar_append_sep '-' [m0, m1] _
        (sep_not_mem_digits (by simp [hm0, hm1]) (by decide)),
      splitOnChar_no_sep '-' [d0, d1]
        (sep_not_mem_digits (by simp [hd0, hd1]) (by decide))]
  rw [hsplit]
  show (if (decide (List.length [a, b, c, dd] = 4) && List.all [a, b, c, dd] isDigitCh &&
      decide (List.length [m0, m1] = 2) && List.all [m0, m1] isDigitCh &&
      decide (List.length [d0, d1] = 2) && List.all [d0, d1] isDigitCh &&
      decide (1 ≤ digitsToNat [m0, m1]) && decide (digitsToNat [m0, m1] ≤ 12) &&
      decide (1 ≤ digitsToNat [d0, d1]) && decide (digitsToNat [d0, d1] ≤ 31)) = true then
      some (⟨digitsToNat [a, b, c, dd], digitsToNat [m0, m1], digitsToNat [d0, d1]⟩ : DateY)
    else none) = some d
  rw [if_pos (by
    simp [ha, hb, hc, hdd, hm0, hm1, hd0, hd1, hy, hm, hdy, hm1b, hm2, hd1b, hd2])]
  rw [hy, hm, hdy]

theorem identCh_not_ws {c : Char} (h : isIdentCh c = true) :
    isJsWhitespace c = false := by
  rcases Bool.eq_false_or_eq_true (isJsWhitespace c) with h2 | h2
  · exfalso
    simp only [isJsWhitespace, List.mem_cons, List.not_mem_nil, or_false,
      decide_eq_true_eq] at h2
    rcases h2 with rfl | rfl | rfl | rfl | rfl | rfl | rfl | rfl | rfl | rfl | rfl | rfl | rfl | rfl | rfl | rfl | rfl | rfl | rfl | rfl | rfl | rfl | rfl | rfl | rfl <;> exact absurd h (by decide)
  · exact h2

theorem dropWhile_head_neg {p : Char → Bool} {s : Str}
    (h : p (peekCh s) = false) : s.dropWhile p = s := by
  rcases s with _ | ⟨c, cs⟩
  · rfl
  · simp only [peekCh, List.headD_cons] at h
    rw [List.dropWhile_cons_of_neg (by simp [h])]

theorem jsTrim_keep {s : Str} (hh : isJsWhitespace (peekCh s) = false)
    (hl : isJsWhitespace (peekCh s.reverse) = false) : jsTrim s = s := by
  rw [jsTrim, dropWhile_head_neg hh, jsTrimEnd, dropWhile_head_neg hl,
    List.reverse_reverse]

theorem wordOkB_parts {w : Str} (h : wordOkB w = true) :
    w ≠ [] ∧ isIdentStart (peekCh w) = true ∧ w.all isIdentCh = true ∧
      w.contains ':' = false := by
  simp only [wordOkB, Bool.and_eq_true, Bool.not_eq_eq_eq_not, Bool.not_true,
    List.isEmpty_eq_false] at h
  refine ⟨h.1.1.1, h.1.1.2, h.1.2, ?_⟩
  rw [← Bool.not_eq_true]
  simpa using h.2

theorem peekCh_mem {l : Str} (h : l ≠ []) : peekCh l ∈ l := by
  rcases l with _ | ⟨c, cs⟩
  · exact absurd rfl h
  · exact List.mem_cons_self _ _

theorem intercalate_one (w : Str) : List.intercalate " ".data [w] = w := by
  simp [List.intercalate]

theorem intercalate_words_ne_nil {w : Str} (ws : List Str) (hw : w ≠ []) :
    List.intercalate " ".data (w :: ws) ≠ [] := by
  rcases ws with _ | ⟨w2, rest⟩
  · rw [intercalate_one]; exact hw
  · rw [intercalate_two]
    intro hx
    rcases List.append_eq_nil.mp hx with ⟨h1, h2⟩
    rcases List.append_eq_nil.mp h1 with ⟨h3, h4⟩
    exact hw h3

theorem intercalate_words_head {w : Str} (ws : List Str) (hw : w ≠ []) :
    peekCh (List.intercalate " ".data (w :: ws)) = peekCh w := by
  rcases ws with _ | ⟨w2, rest⟩
  · rw [intercalate_one]
  · rw [intercalate_two, List.append_assoc, peekCh_append hw]

theorem intercalate_words_last : ∀ (ws : List Str) (w : Str), w ≠ [] →
    (∀ x ∈ ws, x ≠ []) →
    peekCh (List.intercalate " ".data (w :: ws)).reverse =
      peekCh (ws.getLastD w).reverse := by
  intro ws
  induction ws with
  | nil =>
    intro w hw _
    rw [intercalate_one, List.getLastD]
  | cons w2 rest ih =>
    intro w hw hall
    rw [intercalate_two, List.reverse_append,
      peekCh_append (by
        simp only [ne_eq, List.reverse_eq_nil_iff]
        exact intercalate_words_ne_nil rest (hall w2 (by simp))),
      ih w2 (hall w2 (by simp)) (fun x hx => hall x (by simp [hx])),
      List.getLastD_cons]

theorem descLoop_words : ∀ (ws : List Str) (rest : Str) (line col : Nat)
    (acc : Str), 2 ≤ col → (∀ w ∈ ws, wordOkB w = true) → ws ≠ [] →
    isIdentCh (peekCh rest) = false →
    ∃ c2, 2 ≤ c2 ∧
      descLoop (lexAll (List.intercalate " ".data ws ++ rest) line col) acc =
      descLoop (lexAll rest line c2)
        (acc ++ (if acc.isEmpty then [] else [' ']) ++
          List.intercalate " ".data ws) := by
  intro ws
  induction ws with
  | nil => intro rest line col acc hcol hws hne hrest; exact absurd rfl hne
  | cons w ws ih =>
    intro rest line col acc hcol hws hne hrest
    obtain ⟨hwne, hwstart, hwall, hwc⟩ := wordOkB_parts (hws w (by simp))
    rcases ws with _ | ⟨w2, ws2⟩
    · refine ⟨col + w.length, by omega, ?_⟩
      rw [intercalate_one]
      rw [lexAll_word w rest line hcol hwne hwstart hwall hrest]
      rw [show (if w.contains ':' then TokType.account else TokType.commodity) =
        TokType.commodity from by rw [hwc]; rfl]
      rw [descLoop]
      rw [if_neg (by simp)]
      rw [if_pos (by simp)]
    · obtain ⟨hw2ne, _, _, _⟩ := wordOkB_parts (hws w2 (by simp))
      obtain ⟨c2, hc2, hih⟩ := ih rest line (col + w.length + 1)
        (acc ++ (if acc.isEmpty then [] else [' ']) ++ w) (by omega)
        (fun x hx => hws x (by simp [hx])) (by simp) hrest
      refine ⟨c2, hc2, ?_⟩
      rw [intercalate_two]
      simp only [List.append_assoc, List.cons_append, List.nil_append,
        List.singleton_append]
      rw [lexAll_word w
        (' ' :: (List.intercalate " ".data (w2 :: ws2) ++ rest)) line hcol
        hwne hwstart hwall (by rfl)]
      rw [show (if w.contains ':' then TokType.account else TokType.commodity) =
        TokType.commodity from by rw [hwc]; rfl]
      rw [lexAll_space (by omega)]
      rw [descLoop]
      rw [if_neg (by simp)]
      rw [if_pos (by simp)]
      rw [hih]
      congr 1
      have hne2 : (acc ++ (if acc.isEmpty then [] else [' ']) ++ w) ≠ [] := by
        intro hx
        rcases List.append_eq_nil.mp hx with ⟨h1, h2⟩
        exact hwne h2
      rw [show (acc ++ (if acc.isEmpty then [] else [' ']) ++ w).isEmpty = false from by
        rw [List.isEmpty_eq_false]; exact hne2]
      simp [List.append_assoc]

theorem parseDec_natToStr (n : Nat) : parseDec (natToStr n) = some ((n : ℚ)) := by
  have hs := natToStr_spec n
  have htk := @takeWhile_stop isDigitCh (natToStr n) [] hs.1 (by decide)
  rw [List.append_nil] at htk
  rw [parseDec.eq_def]
  split
  · rename_i rest heq
    have hh := natToStr_head_digit n
    rw [heq] at hh
    rw [show peekCh ('-' :: rest) = '-' from rfl] at hh
    exact absurd hh (by decide)
  · rw [parseDecUnsigned]
    simp only [htk.1, htk.2]
    rw [if_neg (by simp [hs.2.1])]
    rw [hs.2.2]

theorem jsTrim_account {a : Str} (hne : a ≠ [])
    (hstart : isIdentStart (peekCh a) = true) (hall : a.all isIdentCh = true) :
    jsTrim a = a := by
  apply jsTrim_keep
  · apply identCh_not_ws
    simp only [isIdentCh, hstart, Bool.true_or]
  · apply identCh_not_ws
    apply List.all_eq_true.mp hall
    rw [← List.mem_reverse]
    exact peekCh_mem (by simpa using hne)

theorem nodeToPosting_roundtrip (p : Posting) (line : Nat)
    (hp : postingOkB p = true) :
    nodeToPosting { account := p.account,
                    amount := some { quantity := natToStr p.quantity.num.natAbs,
                                     commodity := p.commodity,
                                     isNegative := decide (p.quantity < 0),
                                     commodityPosition := .pre },
                    comment := none, lineNumber := line } =
      .ok { account := p.account, commodity := p.commodity,
            quantity := p.quantity, comment := none } := by
  simp only [postingOkB, Bool.and_eq_true] at hp
  obtain ⟨⟨hacct, hcom⟩, hqty⟩ := hp
  simp only [accountOkB, Bool.and_eq_true, Bool.not_eq_eq_eq_not, Bool.not_true,
    List.isEmpty_eq_false] at hacct
  obtain ⟨⟨hane, hastart⟩, haall⟩ := hacct
  simp only [quantityOkB, Bool.and_eq_true, decide_eq_true_eq] at hqty
  have hnum : ((p.quantity.num : ℚ)) = p.quantity :=
    Rat.coe_int_num_of_den_eq_one hqty.1
  rw [nodeToPosting]
  simp only [parseDec_natToStr]
  rw [if_neg (by rw [jsTrim_account hane hastart haall]; exact hane)]
  have hq : (if decide (p.quantity < 0) = true then
      -((p.quantity.num.natAbs : ℚ)) else ((p.quantity.num.natAbs : ℚ))) =
      p.quantity := by
    by_cases hneg : p.quantity < 0
    · rw [if_pos (by simp [hneg])]
      have hn : p.quantity.num ≤ 0 := le_of_lt (Rat.num_neg.mpr hneg)
      have habs : ((p.quantity.num.natAbs : ℤ) : ℚ) = -((p.quantity.num : ℚ)) := by
        rw [Int.ofNat_natAbs_of_nonpos hn]
        push_cast
        ring
      rw [show ((p.quantity.num.natAbs : ℚ)) = ((p.quantity.num.natAbs : ℤ) : ℚ) from
        (Int.cast_natCast _).symm]
      rw [habs, hnum, neg_neg]
    · rw [if_neg (by simp [hneg])]
      have hn : 0 ≤ p.quantity.num := by
        by_contra hlt
        push_neg at hlt
        exact hneg (Rat.num_neg.mp hlt)
      have habs : ((p.quantity.num.natAbs : ℤ) : ℚ) = ((p.quantity.num : ℚ)) := by
        rw [Int.natAbs_of_nonneg hn]
      rw [show ((p.quantity.num.natAbs : ℚ)) = ((p.quantity.num.natAbs : ℤ) : ℚ) from
        (Int.cast_natCast _).symm]
      rw [habs, hnum]
  rw [hq]

/-- Posting with the comment dropped, as rebuilt by `nodeToPosting` from a
rendered posting line. -/
def stripP (p : Posting) : Posting :=
  { account := p.account, commodity := p.commodity, quantity := p.quantity,
    comment := none }

theorem mapExcept_postingNodes (ps : List Posting) : ∀ (line : Nat),
    (∀ p ∈ ps, postingOkB p = true) →
    mapExcept nodeToPosting (postingNodes ps line) = .ok (ps.map stripP) := by
  induction ps with
  | nil => intro line hps; rfl
  | cons p ps ih =>
    intro line hps
    rw [postingNodes, mapExcept,
      nodeToPosting_roundtrip p line (hps p (by simp)),
      ih (line + 1) (fun r hr => hps r (by simp [hr]))]
    rfl

theorem body_toks_length (o : WriterOptions) (ps : List Posting) : ∀ (line : Nat),
    1 ≤ o.indentSize → (∀ p ∈ ps, postingOkB p = true) →
    ps.length ≤ (lexAll (List.intercalate "\n".data
      (ps.map (writePosting o))) line 1).length := by
  induction ps with
  | nil => intro line ho hps; simp
  | cons p ps ih =>
    intro line ho hps
    have hp := hps p (by simp)
    rcases ps with _ | ⟨q, ps2⟩
    · obtain ⟨c2, hlex⟩ := lexAll_posting_line o p [] line ho hp (by decide)
        (by decide) (by decide)
      rw [List.append_nil] at hlex
      rw [show List.intercalate "\n".data ([p].map (writePosting o)) =
        writePosting o p from by simp [List.intercalate]]
      rw [hlex]
      simp [postingToks]
    · have htail : List.intercalate "\n".data ((p :: q :: ps2).map (writePosting o)) =
          writePosting o p ++ '\n' :: List.intercalate "\n".data
            ((q :: ps2).map (writePosting o)) := by
        simp only [List.map_cons]
        rw [intercalate_two]
        simp [List.append_assoc]
      obtain ⟨c2, hlex⟩ := lexAll_posting_line o p
        ('\n' :: List.intercalate "\n".data ((q :: ps2).map (writePosting o)))
        line ho hp (by rfl) (by simp [peekCh])
        ⟨by simp [peekCh], by simp [peekCh]⟩
      rw [lexAll_newline] at hlex
      have hihq := ih (line + 1) ho (fun r hr => hps r (by simp [hr]))
      rw [htail, hlex]
      simp only [List.length_append, List.length_cons, postingToks, List.length_cons]
      simp only [show ("\n".data : Str) = ['\n'] from rfl, List.length_cons] at hihq ⊢
      omega

theorem postingNodes_all_some (ps : List Posting) : ∀ (line : Nat),
    (postingNodes ps line).filter (fun p => p.amount.isSome) = postingNodes ps line ∧
    (postingNodes ps line).filter (fun p => !p.amount.isSome) = [] := by
  induction ps with
  | nil => intro line; exact ⟨rfl, rfl⟩
  | cons p ps ih =>
    intro line
    rw [postingNodes]
    constructor
    · rw [List.filter_cons_of_pos (by rfl), (ih (line + 1)).1]
    · rw [List.filter_cons_of_neg (by simp), (ih (line + 1)).2]

theorem commoditySum_strip (ps : List Posting) (c : Str) :
    commoditySum (ps.map stripP) c = commoditySum ps c := by
  rw [commoditySum, commoditySum, List.map_map]
  rfl

theorem commoditiesOf_strip (ps : List Posting) :
    commoditiesOf (ps.map stripP) = commoditiesOf ps := by
  rw [commoditiesOf, commoditiesOf, List.foldl_map]
  rfl

theorem stripCommentMarker_extid (xid : Str) :
    stripCommentMarker (';' :: ' ' :: ("extid:".data ++ xid)) =
      "extid:".data ++ xid := by
  rw [stripCommentMarker, if_pos (by rfl)]
  rw [List.dropWhile_cons_of_pos (by decide), List.dropWhile_cons_of_neg (by decide),
    List.dropWhile_cons_of_pos (by decide)]
  rw [dropWhile_head_neg (by rw [peekCh_append (by decide)]; decide)]

theorem findExtid_exact (xid : Str) (hne : xid ≠ [])
    (hx : xid.all (fun c => !isJsWhitespace c) = true) :
    findExtid ("extid:".data ++ xid) = some ([], xid, []) := by
  have htk1 : xid.takeWhile (fun c => !isJsWhitespace c) = xid :=
    List.takeWhile_eq_self_iff.mpr (fun x hxm => List.all_eq_true.mp hx x hxm)
  have htd : xid.dropWhile (fun c => !isJsWhitespace c) = [] :=
    List.dropWhile_eq_nil_iff.mpr (fun x hxm => List.all_eq_true.mp hx x hxm)
  have h2 : (('e' :: ("xtid:".data ++ xid)).drop 6).takeWhile
      (fun ch => !isJsWhitespace ch) = xid := by
    rw [show ('e' :: ("xtid:".data ++ xid)).drop 6 =
      ("extid:".data ++ xid).drop ("extid:".data).length from rfl]
    rw [List.drop_left, htk1]
  have h3 : (('e' :: ("xtid:".data ++ xid)).drop 6).dropWhile
      (fun ch => !isJsWhitespace ch) = [] := by
    rw [show ('e' :: ("xtid:".data ++ xid)).drop 6 =
      ("extid:".data ++ xid).drop ("extid:".data).length from rfl]
    rw [List.drop_left, htd]
  have h1 : startsWith "extid:".data ('e' :: ("xtid:".data ++ xid)) = true := by
    rw [startsWith]
    rw [show ('e' :: ("xtid:".data ++ xid)).take ("extid:".data).length =
      ("extid:".data ++ xid).take ("extid:".data).length from rfl]
    rw [List.take_left]
    simp
  rw [show ("extid:".data ++ xid) = 'e' :: ("xtid:".data ++ xid) from rfl]
  rw [findExtid]
  rw [if_pos (by
    rw [Bool.and_eq_true]
    refine ⟨h1, ?_⟩
    rw [h2]
    simpa using hne)]
  rw [h2, h3]

theorem extractExtid_extid (xid : Str) (hne : xid ≠ [])
    (hx : xid.all (fun c => !isJsWhitespace c) = true) :
    extractExtid (some ("extid:".data ++ xid)) = (some xid, none) := by
  rw [extractExtid]
  rw [if_neg (by simp)]
  rw [findExtid_exact xid hne hx]
  rfl

theorem checkTok_head (tt : TokType) (v : Str) (l c : Nat) (rest : List Token)
    (h : ¬ tt = .eof) : checkTok tt (⟨tt, v, l, c⟩ :: rest) = true := by
  simp [checkTok, peekTok, h]

theorem getLastD_mem : ∀ (l : List Str) (d : Str), l.getLastD d ∈ d :: l := by
  intro l
  induction l with
  | nil => intro d; simp [List.getLastD]
  | cons x xs ih =>
    intro d
    rw [List.getLastD_cons]
    have := ih x
    simp only [List.mem_cons] at this ⊢
    tauto

theorem intercalate_cons_ne (sep x : Str) {L : List Str} (h : L ≠ []) :
    List.intercalate sep (x :: L) = x ++ sep ++ List.intercalate sep L := by
  rcases L with _ | ⟨y, ys⟩
  · exact absurd rfl h
  · exact intercalate_two sep x y ys

theorem parse_writeTransaction (o : WriterOptions) (t : Transaction)
    (ho : 1 ≤ o.indentSize) (hw : writableTx t = true) (hv : t.validate = none) :
    parse (writeTransaction o t) =
      .ok [.txn { date := formatDate o t.date,
                  description := t.description,
                  postings := postingNodes t.postings 2,
                  comment := t.externalId.map (fun xid => "extid:".data ++ xid),
                  lineNumber := 1 }] := by
  simp only [writableTx, Bool.and_eq_true] at hw
  obtain ⟨⟨⟨⟨hdate, hdesc⟩, hposts⟩, hxid⟩, hcm⟩ := hw
  rw [validate_none_iff] at hv
  obtain ⟨hdne, hlen2, hsums⟩ := hv
  have hpne : t.postings ≠ [] := by
    intro h0
    rw [h0] at hlen2
    simp at hlen2
  have hpsall : ∀ p ∈ t.postings, postingOkB p = true :=
    fun p hp => List.all_eq_true.mp hposts p hp
  obtain ⟨a, b, c, dd, m0, m1, d0, d1, sC, hsh, ha, hb, hc, hdd, hm0, hm1, hd0,
    hd1, hs, hy, hm, hdy⟩ := formatDate_shape o t.date hdate
  have hws : ∀ w ∈ splitOnChar ' ' t.description, wordOkB w = true :=
    fun w hw2 => List.all_eq_true.mp hdesc w hw2
  have hwsne : splitOnChar ' ' t.description ≠ [] := splitOnChar_ne_nil ' ' t.description
  have hinterc : List.intercalate " ".data (splitOnChar ' ' t.description) =
      t.description := by
    rw [show (" ".data : Str) = [' '] from rfl]
    exact intercalate_splitOnChar ' ' t.description
  rcases hxc : t.externalId with _ | xid
  · -- no external id
    have htext : writeTransaction o t =
        formatDate o t.date ++ ' ' :: t.description ++
          '\n' :: List.intercalate "\n".data (t.postings.map (writePosting o)) := by
      rw [writeTransaction]
      simp only [hxc, Option.getD_none, List.isEmpty_nil, if_true, hcm,
        List.nil_append, List.append_nil]
      rw [intercalate_cons_ne _ _ (by simpa using hpne)]
      simp [List.append_assoc]
    have hjst : jsTrim t.description = t.description := by
      rw [← hinterc]
      rcases hwsl : splitOnChar ' ' t.description with _ | ⟨w0, wrest⟩
      · exact absurd hwsl hwsne
      have hw0 := wordOkB_parts (hws w0 (by rw [hwsl]; simp))
      apply jsTrim_keep
      · rw [intercalate_words_head wrest hw0.1]
        apply identCh_not_ws
        simp only [isIdentCh, hw0.2.1, Bool.true_or]
      · rw [intercalate_words_last wrest w0 hw0.1
          (fun x hx => (wordOkB_parts (hws x (by rw [hwsl]; simp [hx]))).1)]
        have hlw := getLastD_mem wrest w0
        simp only [List.mem_cons] at hlw
        have hlwok : wordOkB (wrest.getLastD w0) = true := by
          rcases hlw with he | hmem
          · rw [he]; exact hws w0 (by rw [hwsl]; simp)
          · exact hws _ (by rw [hwsl]; exact List.mem_cons_of_mem _ hmem)
        obtain ⟨hlne, _, hlall, _⟩ := wordOkB_parts hlwok
        apply identCh_not_ws
        apply List.all_eq_true.mp hlall
        rw [← List.mem_reverse]
        exact peekCh_mem (by simpa using hlne)
    have hlexdate : tokenize (writeTransaction o t) =
        ⟨.date, [a, b, c, dd, sC, m0, m1, sC, d0, d1], 1, 1⟩ ::
          lexAll (t.description ++ '\n' :: List.intercalate "\n".data
            (t.postings.map (writePosting o))) 1 12 := by
      rw [show tokenize (writeTransaction o t) =
        lexAll (writeTransaction o t) 1 1 from rfl]
      rw [htext, hsh]
      simp only [List.cons_append, List.nil_append, List.append_assoc]
      rw [lexAll_date a b c dd m0 m1 d0 d1 sC sC _ 1 1 ha hb hc hdd hm0 hm1 hd0
        hd1 hs hs]
      rw [lexAll_space (by omega)]
    obtain ⟨c2, hc2, hdl⟩ := descLoop_words (splitOnChar ' ' t.description)
      ('\n' :: List.intercalate "\n".data (t.postings.map (writePosting o)))
      1 12 [] (by omega) hws hwsne (by rfl)
    rw [hinterc] at hdl
    simp only [List.isEmpty_nil, if_true, List.nil_append] at hdl
    rw [lexAll_newline] at hdl
    rw [descLoop] at hdl
    rw [if_pos (by simp)] at hdl
    simp only [show ("\n".data : Str) = ['\n'] from rfl,
      show (1 + 1 : Nat) = 2 from rfl] at hlexdate hdl
    have hbl := body_toks_length o t.postings 2 ho hpsall
    simp only [show ("\n".data : Str) = ['\n'] from rfl] at hbl
    obtain ⟨le, ce, hploop⟩ := postingsLoop_body o t.postings 2
      ((⟨.newline, ['\n'], 1, c2 - 1⟩ ::
        lexAll (List.intercalate ['\n'] (t.postings.map (writePosting o))) 2 1).length + 1)
      [] ho hpsall (by simp only [List.length_cons]; omega)
    simp only [show ("\n".data : Str) = ['\n'] from rfl] at hploop
    have hskipb : skipNewlines (⟨.newline, ['\n'], 1, c2 - 1⟩ ::
        lexAll (List.intercalate ['\n'] (t.postings.map (writePosting o))) 2 1) =
        lexAll (List.intercalate ['\n'] (t.postings.map (writePosting o))) 2 1 := by
      rw [skipNewlines, List.dropWhile_cons_of_pos (by simp [checkTok, peekTok])]
      show skipNewlines _ = _
      apply skipNewlines_of_head
      rcases hppc : t.postings with _ | ⟨p0, prest⟩
      · exact absurd hppc hpne
      · rw [show (List.intercalate ['\n'] ((p0 :: prest).map (writePosting o))) =
          (List.intercalate "\n".data ((p0 :: prest).map (writePosting o))) from rfl]
        rw [lexAll_body_head o p0 prest 2 ho (hpsall p0 (by rw [hppc]; simp))]
        simp
    have hts1ne : lexAll (t.description ++
        '\n' :: List.intercalate ['\n'] (t.postings.map (writePosting o))) 1 12 ≠ [] := by
      intro h0
      rw [h0] at hdl
      simp [descLoop] at hdl
    obtain ⟨mlen, hmlen⟩ : ∃ m, (lexAll (t.description ++
        '\n' :: List.intercalate ['\n'] (t.postings.map (writePosting o))) 1 12).length =
        m + 1 :=
      ⟨(lexAll (t.description ++ '\n' :: List.intercalate ['\n']
          (t.postings.map (writePosting o))) 1 12).length - 1,
        by have := List.length_pos.mpr hts1ne; omega⟩
    rw [parse, hlexdate]
    simp only [List.length_cons, hmlen]
    rw [parseGo]
    rw [if_neg (by simp [peekTok])]
    rw [skipNewlines_of_head (by simp [peekTok])]
    rw [if_neg (by simp [peekTok])]
    rw [parseEntry]
    rw [if_neg (by simp [checkTok, peekTok])]
    rw [if_neg (by simp [checkTok, peekTok])]
    rw [if_pos (by simp [checkTok, peekTok])]
    rw [parseTransaction]
    rw [hdl]
    simp only []
    rw [show checkTok TokType.comment
        (⟨.newline, ['\n'], 1, c2 - 1⟩ ::
          lexAll (List.intercalate ['\n'] (t.postings.map (writePosting o))) 2 1) = false
      from by simp [checkTok, peekTok]]
    simp only [Bool.false_eq_true, if_false]
    rw [hskipb, hploop]
    simp only []
    rw [hjst]
    rw [← hsh]
    rw [parseGo]
    rw [if_pos (by simp [peekTok])]
    simp
  · -- external id present
    rw [hxc] at hxid
    have hxid2 : (!xid.isEmpty && xid.all (fun c => !isJsWhitespace c)) = true := by
      simpa [extIdOkB] using hxid
    simp only [Bool.and_eq_true, Bool.not_eq_eq_eq_not, Bool.not_true,
      List.isEmpty_eq_false] at hxid2
    obtain ⟨hxne, hxall⟩ := hxid2
    have hnx : '\n' ∉ ' ' :: ("extid:".data ++ xid) := by
      intro hmem
      rcases List.mem_cons.mp hmem with he | hmem2
      · exact absurd he (by decide)
      rcases List.mem_append.mp hmem2 with hmem3 | hmem3
      · revert hmem3
        decide
      · exact absurd (List.all_eq_true.mp hxall '\n' hmem3) (by decide)
    have htext : writeTransaction o t =
        formatDate o t.date ++ ' ' :: t.description ++
          ' ' :: ((';' :: (' ' :: ("extid:".data ++ xid))) ++
            '\n' :: List.intercalate "\n".data
              (t.postings.map (writePosting o))) := by
      rw [writeTransaction]
      simp only [hxc, Option.getD_some, hcm]
      rw [if_neg (by simp [hxne])]
      rw [if_neg (by simp [hxne])]
      rw [if_pos trivial]
      rw [List.append_nil, intercalate_one]
      rw [intercalate_cons_ne _ _ (by simpa using hpne)]
      simp [List.append_assoc]
    have hjst : jsTrim t.description = t.description := by
      rw [← hinterc]
      rcases hwsl : splitOnChar ' ' t.description with _ | ⟨w0, wrest⟩
      · exact absurd hwsl hwsne
      have hw0 := wordOkB_parts (hws w0 (by rw [hwsl]; simp))
      apply jsTrim_keep
      · rw [intercalate_words_head wrest hw0.1]
        apply identCh_not_ws
        simp only [isIdentCh, hw0.2.1, Bool.true_or]
      · rw [intercalate_words_last wrest w0 hw0.1
          (fun x hx => (wordOkB_parts (hws x (by rw [hwsl]; simp [hx]))).1)]
        have hlw := getLastD_mem wrest w0
        simp only [List.mem_cons] at hlw
        have hlwok : wordOkB (wrest.getLastD w0) = true := by
          rcases hlw with he | hmem
          · rw [he]; exact hws w0 (by rw [hwsl]; simp)
          · exact hws _ (by rw [hwsl]; exact List.mem_cons_of_mem _ hmem)
        obtain ⟨hlne, _, hlall, _⟩ := wordOkB_parts hlwok
        apply identCh_not_ws
        apply List.all_eq_true.mp hlall
        rw [← List.mem_reverse]
        exact peekCh_mem (by simpa using hlne)
    have hlexdate : tokenize (writeTransaction o t) =
        ⟨.date, [a, b, c, dd, sC, m0, m1, sC, d0, d1], 1, 1⟩ ::
          lexAll (t.description ++ ' ' :: ((';' :: (' ' :: ("extid:".data ++ xid))) ++
            '\n' :: List.intercalate "\n".data
              (t.postings.map (writePosting o)))) 1 12 := by
      rw [show tokenize (writeTransaction o t) =
        lexAll (writeTransaction o t) 1 1 from rfl]
      rw [htext, hsh]
      simp only [List.cons_append, List.nil_append, List.append_assoc]
      rw [lexAll_date a b c dd m0 m1 d0 d1 sC sC _ 1 1 ha hb hc hdd hm0 hm1 hd0
        hd1 hs hs]
      rw [lexAll_space (by omega)]
    obtain ⟨c2, hc2, hdl⟩ := descLoop_words (splitOnChar ' ' t.description)
      (' ' :: ((';' :: (' ' :: ("extid:".data ++ xid))) ++
        '\n' :: List.intercalate "\n".data (t.postings.map (writePosting o))))
      1 12 [] (by omega) hws hwsne (by rfl)
    rw [hinterc] at hdl
    simp only [List.isEmpty_nil, if_true, List.nil_append] at hdl
    rw [lexAll_space (by omega)] at hdl
    rw [lexAll_comment (' ' :: ("extid:".data ++ xid))
      ('\n' :: List.intercalate "\n".data (t.postings.map (writePosting o)))
      1 (c2 + 1) hnx (Or.inl rfl)] at hdl
    rw [lexAll_newline] at hdl
    rw [descLoop] at hdl
    rw [if_pos (by simp)] at hdl
    simp only [show ("\n".data : Str) = ['\n'] from rfl,
      show (1 + 1 : Nat) = 2 from rfl] at hlexdate hdl
    have hbl := body_toks_length o t.postings 2 ho hpsall
    simp only [show ("\n".data : Str) = ['\n'] from rfl] at hbl
    obtain ⟨le, ce, hploop⟩ := postingsLoop_body o t.postings 2
      ((⟨.newline, ['\n'], 1, c2 + 1 + 1 + (' ' :: ("extid:".data ++ xid)).length - 1⟩ ::
        lexAll (List.intercalate ['\n'] (t.postings.map (writePosting o))) 2 1).length + 1)
      [] ho hpsall (by simp only [List.length_cons]; omega)
    simp only [show ("\n".data : Str) = ['\n'] from rfl] at hploop
    have hskipb : skipNewlines
        (⟨.newline, ['\n'], 1, c2 + 1 + 1 + (' ' :: ("extid:".data ++ xid)).length - 1⟩ ::
          lexAll (List.intercalate ['\n'] (t.postings.map (writePosting o))) 2 1) =
        lexAll (List.intercalate ['\n'] (t.postings.map (writePosting o))) 2 1 := by
      rw [skipNewlines, List.dropWhile_cons_of_pos (by simp [checkTok, peekTok])]
      show skipNewlines _ = _
      apply skipNewlines_of_head
      rcases hppc : t.postings with _ | ⟨p0, prest⟩
      · exact absurd hppc hpne
      · rw [show (List.intercalate ['\n'] ((p0 :: prest).map (writePosting o))) =
          (List.intercalate "\n".data ((p0 :: prest).map (writePosting o))) from rfl]
        rw [lexAll_body_head o p0 prest 2 ho (hpsall p0 (by rw [hppc]; simp))]
        simp
    have hts1ne : lexAll (t.description ++ ' ' :: ((';' :: (' ' ::
        ("extid:".data ++ xid))) ++ '\n' :: List.intercalate ['\n']
          (t.postings.map (writePosting o)))) 1 12 ≠ [] := by
      intro h0
      rw [h0] at hdl
      simp [descLoop] at hdl
    obtain ⟨mlen, hmlen⟩ : ∃ m, (lexAll (t.description ++ ' ' :: ((';' :: (' ' ::
        ("extid:".data ++ xid))) ++ '\n' :: List.intercalate ['\n']
          (t.postings.map (writePosting o)))) 1 12).length = m + 1 :=
      ⟨(lexAll (t.description ++ ' ' :: ((';' :: (' ' :: ("extid:".data ++ xid))) ++
          '\n' :: List.intercalate ['\n']
            (t.postings.map (writePosting o)))) 1 12).length - 1,
        by have := List.length_pos.mpr hts1ne; omega⟩
    rw [parse, hlexdate]
    simp only [List.length_cons, hmlen]
    rw [parseGo]
    rw [if_neg (by simp [peekTok])]
    rw [skipNewlines_of_head (by simp [peekTok])]
    rw [if_neg (by simp [peekTok])]
    rw [parseEntry]
    rw [if_neg (by simp [checkTok, peekTok])]
    rw [if_neg (by simp [checkTok, peekTok])]
    rw [if_pos (by simp [checkTok, peekTok])]
    rw [parseTransaction]
    rw [hdl]
    simp only []
    rw [checkTok_head .comment _ _ _ _ (by decide)]
    rw [if_pos rfl]
    simp only [peekTok, List.headD_cons, List.tail_cons]
    rw [stripCommentMarker_extid]
    rw [hskipb, hploop]
    simp only []
    rw [hjst]
    rw [← hsh]
    rw [parseGo]
    rw [if_pos (by simp [peekTok])]
    simp

theorem c2_roundtrip_aux (o : WriterOptions) (t : Transaction)
    (ho : 1 ≤ o.indentSize) (hw : writableTx t = true) (hv : t.validate = none) :
    ∃ t2, nodeToTransaction
        { date := formatDate o t.date, description := t.description,
          postings := postingNodes t.postings 2,
          comment := t.externalId.map (fun xid => "extid:".data ++ xid),
          lineNumber := 1 } = .ok t2 ∧
      t2.postings.map (fun p => (p.account, p.commodity, p.quantity)) =
        t.postings.map (fun p => (p.account, p.commodity, p.quantity)) ∧
      t2.description = t.description ∧ t2.date = t.date ∧
      t2.externalId = t.externalId := by
  simp only [writableTx, Bool.and_eq_true] at hw
  obtain ⟨⟨⟨⟨hdate, hdesc⟩, hposts⟩, hxid⟩, hcm⟩ := hw
  rw [validate_none_iff] at hv
  obtain ⟨hdne, hlen2, hsums⟩ := hv
  have hpsall : ∀ p ∈ t.postings, postingOkB p = true :=
    fun p hp => List.all_eq_true.mp hposts p hp
  rw [nodeToTransaction]
  simp only []
  rw [(postingNodes_all_some t.postings 2).1, (postingNodes_all_some t.postings 2).2]
  rw [if_neg (by simp)]
  rw [mapExcept_postingNodes t.postings 2 hpsall]
  have hv2 : (Transaction.mkRaw (finishProps
      { date := formatDate o t.date, description := t.description,
        postings := postingNodes t.postings 2,
        comment := t.externalId.map (fun xid => "extid:".data ++ xid),
        lineNumber := 1 }
      (t.postings.map stripP)) []).validate = none := by
    rw [validate_none_iff]
    refine ⟨?_, ?_, ?_⟩
    · show jsTrim t.description ≠ []
      exact hdne
    · show 2 ≤ (t.postings.map stripP).length
      rw [List.length_map]
      exact hlen2
    · intro c hc
      have hc2 : c ∈ commoditiesOf t.postings := by
        rw [show commoditiesOf (Transaction.mkRaw (finishProps
            { date := formatDate o t.date, description := t.description,
              postings := postingNodes t.postings 2,
              comment := t.externalId.map (fun xid => "extid:".data ++ xid),
              lineNumber := 1 }
            (t.postings.map stripP)) []).postings =
          commoditiesOf (t.postings.map stripP) from rfl, commoditiesOf_strip] at hc
        exact hc
      show commoditySum (t.postings.map stripP) c = 0
      rw [commoditySum_strip]
      exact hsums c hc2
  have hfin := finishTransaction_ok
    { date := formatDate o t.date, description := t.description,
      postings := postingNodes t.postings 2,
      comment := t.externalId.map (fun xid => "extid:".data ++ xid),
      lineNumber := 1 }
    (t.postings.map stripP) hv2
  refine ⟨Transaction.mkRaw (finishProps
      { date := formatDate o t.date, description := t.description,
        postings := postingNodes t.postings 2,
        comment := t.externalId.map (fun xid => "extid:".data ++ xid),
        lineNumber := 1 }
      (t.postings.map stripP)) [], ?_, ?_, ?_, ?_, ?_⟩
  · show finishTransaction
      { date := formatDate o t.date, description := t.description,
        postings := postingNodes t.postings 2,
        comment := t.externalId.map (fun xid => "extid:".data ++ xid),
        lineNumber := 1 }
      (t.postings.map stripP) = _
    exact hfin
  · show (t.postings.map stripP).map (fun p => (p.account, p.commodity, p.quantity)) = _
    rw [List.map_map]
    rfl
  · rfl
  · show (parseDateStr (formatDate o t.date)).getD ⟨0, 0, 0⟩ = t.date
    rw [parseDateStr_formatDate o t.date hdate]
    rfl
  · rcases hxc : t.externalId with _ | xid
    · rfl
    · rw [hxc] at hxid
      have hxid2 : (!xid.isEmpty && xid.all (fun c => !isJsWhitespace c)) = true := by
        simpa [extIdOkB] using hxid
      simp only [Bool.and_eq_true, Bool.not_eq_eq_eq_not, Bool.not_true,
        List.isEmpty_eq_false] at hxid2
      obtain ⟨hxne, hxall⟩ := hxid2
      show (extractExtid (some ("extid:".data ++ xid))).1 = some xid
      rw [extractExtid_extid xid hxne hxall]

def c2wtx : Transaction :=
  { id := "t".data, date := ⟨2024, 1, 5⟩, description := "one two".data,
    postings := [ { account := "Assets".data, commodity := "$".data, quantity := 5 },
                  { account := "Equity".data, commodity := "$".data, quantity := -5 } ] }

/-- C2 (amended): for every writer configuration with at least one column of
indentation and every constructible transaction of the round-trip class
(single-spaced identifier-word description, identifier-shaped accounts,
dollar or identifier commodities, integer quantities, plain external id, no
stored comment), rendering with `writeTransaction`, parsing with
`Parser.parse` and converting the resulting node back with
`nodeToTransaction` succeeds and preserves the list of (account, commodity,
signed quantity) triples, the description, the date, and the external id
re-extracted from the `extid:` comment. -/
theorem c2_write_parse_roundtrip (o : WriterOptions) (t : Transaction)
    (ho : 1 ≤ o.indentSize) (hw : writableTx t = true) (hv : t.validate = none) :
    ∃ node, parse (writeTransaction o t) = .ok [.txn node] ∧
      ∃ t2, nodeToTransaction node = .ok t2 ∧
        t2.postings.map (fun p => (p.account, p.commodity, p.quantity)) =
          t.postings.map (fun p => (p.account, p.commodity, p.quantity)) ∧
        t2.description = t.description ∧ t2.date = t.date ∧
        t2.externalId = t.externalId :=
  ⟨_, parse_writeTransaction o t ho hw hv, c2_roundtrip_aux o t ho hw hv⟩

set_option maxRecDepth 10000 in
/-- Witness for the amended C2 round trip at a concrete writable
transaction. -/
theorem c2_write_parse_roundtrip_witness :
    1 ≤ (⟨true, 50, 2⟩ : WriterOptions).indentSize ∧ writableTx c2wtx = true ∧
    c2wtx.validate = none ∧
    (∃ node, parse (writeTransaction ⟨true, 50, 2⟩ c2wtx) = .ok [.txn node] ∧
      ∃ t2, nodeToTransaction node = .ok t2 ∧
        t2.postings.map (fun p => (p.account, p.commodity, p.quantity)) =
          c2wtx.postings.map (fun p => (p.account, p.commodity, p.quantity)) ∧
        t2.description = c2wtx.description ∧ t2.date = c2wtx.date ∧
        t2.externalId = c2wtx.externalId) := by
  have hval : c2wtx.validate = none := by
    rw [validate_none_iff]
    refine ⟨by decide, by decide, ?_⟩
    intro c hc
    have hco : commoditiesOf c2wtx.postings = ["$".data] := rfl
    have hcs : c = "$".data := by
      rw [hco] at hc
      simpa using hc
    subst hcs
    show commoditySum c2wtx.postings "$".data = 0
    simp [commoditySum, c2wtx]
  exact ⟨by decide, by rfl, hval,
    c2_write_parse_roundtrip ⟨true, 50, 2⟩ c2wtx (by decide) (by rfl) hval⟩

end Grootboek
